import Mathlib

/-!
# Verification of the `prettyprinter` FORMAT / pretty-printing library

Shallow embedding of the Python sources `format.py` and `prettyprinter.py`
(a Common Lisp FORMAT clone plus an Oppen-style pretty-printing engine),
together with proofs settling the specification claims about them.

Conventions used throughout:
* Python machine integers are modelled as `Int` (Python 2 ints are unbounded,
  so no wrap-around is needed); Python floor division `//` (which is what `/`
  means on ints in Python 2) is `Int.fdiv`.
* Python exceptions are modelled with `Except`; the distinct exception classes
  appearing in the source (`StopIteration`, `IndexError`, `TypeError`,
  `AssertionError`, the control-flow signals `UpAndOut` / `UpUpAndOut`) get
  their own constructors.
* Python lists indexed with possibly-negative indices use `pyIndex`, the
  standard Python indexing rule (negative indices count from the end).
* Unbounded `while` loops are modelled with an explicit fuel parameter; for
  each loop we prove that a concrete fuel suffices on the inputs the claims
  quantify over, so no behaviour is lost.
-/

namespace PyFormat

/-! ## Python indexing helper

Python `lst[i]` for `i : int`: a non-negative index must be `< len`, a
negative index `i` addresses `len + i` provided that is non-negative;
anything else raises `IndexError`. -/

def pyIndex (i : Int) (len : Nat) : Option Nat :=
  if 0 ≤ i then
    if i < (len : Int) then some i.toNat else none
  else
    if 0 ≤ i + (len : Int) then some (i + (len : Int)).toNat else none

/-! ## Values

Format arguments are heterogeneous Python values; the claims need integers,
strings and (nested) sequences. -/

inductive Val where
  | vint (n : Int)
  | vlist (xs : List Val)
  | vstr (s : String)

/-! ## The argument cursor (`class Arguments`, format.py lines 37-83)

A read-only list with a mutable position `cur`, a cached length `len`, an
`empty` flag and an optional `outer` cursor (installed by `~:{` iteration).
Python mutates the object in place; here every operation returns the updated
cursor. -/

inductive PyErr where
  | stopIteration
  | indexError
  | typeError
  | valueError
  | attributeError
  | upUpAndOut
  | fuelOut
deriving DecidableEq

inductive Args where
  | mk (lst : List Val) (len : Nat) (cur : Nat) (empty : Bool) (outer : Option Args)

namespace Args

def lst : Args → List Val | .mk l _ _ _ _ => l
def len : Args → Nat | .mk _ n _ _ _ => n
def cur : Args → Nat | .mk _ _ c _ _ => c
def empty : Args → Bool | .mk _ _ _ e _ => e
def outer : Args → Option Args | .mk _ _ _ _ o => o

/-- `Arguments.__init__`: position starts at 0, `len` caches the list length,
`empty` is set iff the list is empty. -/
def make (l : List Val) (o : Option Args) : Args :=
  .mk l l.length 0 (l.length == 0) o

/-- `Arguments.next`: raises `StopIteration` when `empty`, otherwise returns
`args[cur]`, advances and re-derives `empty` as `cur == len`. -/
def next : Args → Except PyErr (Val × Args)
  | .mk l n c e o =>
    if e then .error .stopIteration
    else
      match l.get? c with
      | some a => .ok (a, .mk l n (c + 1) ((c + 1) == n) o)
      | none => .error .indexError

/-- `Arguments.prev`: raises `StopIteration` at position 0, otherwise steps
back, returns `args[cur-1]` and clears `empty`. -/
def prev : Args → Except PyErr (Val × Args)
  | .mk l n c _ o =>
    if c == 0 then .error .stopIteration
    else
      match l.get? (c - 1) with
      | some a => .ok (a, .mk l n (c - 1) false o)
      | none => .error .indexError

/-- `Arguments.peek(n)`: reads `args[cur + n]` without moving (Python
indexing, so a negative effective index counts from the end). -/
def peek (a : Args) (k : Int) : Except PyErr Val :=
  match pyIndex ((a.cur : Int) + k) a.lst.length with
  | some j =>
    match a.lst.get? j with
    | some v => .ok v
    | none => .error .indexError
  | none => .error .indexError

/-- `Arguments.goto(n)`: raises `IndexError` (leaving the cursor untouched)
when `n < 0 or n >= len`, otherwise jumps to `n` and clears `empty`. -/
def goto (a : Args) (k : Int) : Except PyErr Args :=
  if k < 0 ∨ (a.len : Int) ≤ k then .error .indexError
  else .ok (.mk a.lst a.len k.toNat false a.outer)

/-- `Arguments.remaining`: `len - cur` (as a Python int). -/
def remaining (a : Args) : Int := (a.len : Int) - (a.cur : Int)

/-- Well-formedness of a cursor: the cached length is the list length, the
position never passes the end, and the `empty` flag agrees with
`cur == len`.  The last conjunct is the invariant named by claim C10. -/
def WF (a : Args) : Prop :=
  a.len = a.lst.length ∧ a.cur ≤ a.len ∧ (a.empty = true ↔ a.cur = a.len)

end Args

/-! ## Radix conversion (`convert`, format.py lines 284-294) -/

/-- `digits = "0123456789ABCDEFGHIJKLMNOPQRSTUVWXYZ"`. -/
def digits : List Char := "0123456789ABCDEFGHIJKLMNOPQRSTUVWXYZ".toList

/-- The `le_digits` generator inside `convert`: little-endian digits of `n`,
looping `while n > 0` with `n /= radix` each step.  The `fuel` argument
bounds the loop; `convert` passes `fuel = n`, which suffices for any
radix ≥ 2 (each step strictly decreases `n`). -/
def leDigitsF : Nat → Nat → Nat → List Char
  | 0, _, _ => []
  | f + 1, n, radix =>
    if n = 0 then []
    else digits.getD (n % radix) '?' :: leDigitsF f (n / radix) radix

def le_digits (n radix : Nat) : List Char := leDigitsF n n radix

/-- `convert(n, radix)`: raises `ValueError` outside radix 2..36, otherwise
returns the digits of `n` most-significant first (`reversed(tuple(...))`). -/
def convert (n radix : Nat) : Except PyErr (List Char) :=
  if radix < 2 ∨ 36 < radix then .error .valueError
  else .ok (le_digits n radix).reverse

/-- Modelled from the spec: "parsing those digits back in radix `r`".  The
repository has no inverse parser, so this is the standard positional value of
a big-endian digit string, using the same digit table. -/
def parseDigits (l : List Char) (radix : Nat) : Nat :=
  l.foldl (fun acc c => acc * radix + digits.indexOf c) 0

/-! ## The escape directive's parameter test (`Escape.check_params`,
format.py lines 875-881)

Parameters are positional, resolved through `Directive.param`; an absent
parameter is `None` (here `none`).  Python 2 orders `None` below every
integer and `None == i` is false for an integer `i`. -/

/-- Python 2 `x <= y` on `None`-or-int values: `None` compares below
everything (and equal to itself). -/
def pyLe : Option Int → Option Int → Bool
  | none, _ => true
  | some _, none => false
  | some a, some b => a ≤ b

/-- The test in `Escape.check_params`: raise the escape signal when
`(param3 is not None and param1 <= param2 <= param3) or
(param2 is not None and param1 == param2) or
(param1 is not None and param1 == 0)`. -/
def check_params (p1 p2 p3 : Option Int) : Bool :=
  (p3.isSome && (pyLe p1 p2 && pyLe p2 p3)) ||
  (p2.isSome && p1 == p2) ||
  (p1.isSome && p1 == some 0)

/-! ## Zero-padded digit grouping (`Numeric.format`, format.py lines 407-462)

The colon modifier groups digits with `commachar` every `comma_interval`
digits; when additionally `padchar == "0"` and `mincol` exceeds the signed
digit string, the pad zeros must be added *before* grouping, which requires
solving for the digit-string width. -/

/-- Successive `comma_interval`-sized slices `s[i:i+k]` for
`i in range(first, len(s), k)`.  Fuel bounds the loop; `s.length` is always
enough when `k ≥ 1`. -/
def chunksF : Nat → Nat → List Char → List (List Char)
  | 0, _, _ => []
  | _ + 1, _, [] => []
  | f + 1, k, s => s.take k :: chunksF f k (s.drop k)

/-- Python `commachar.join(a)`. -/
def joinSep (sep : List Char) : List (List Char) → List Char
  | [] => []
  | [x] => x
  | x :: xs => x ++ sep ++ joinSep sep xs

/-- `commafy(s, commachar, comma_interval)` from `Numeric.format`: the first
group keeps `len(s) % comma_interval` digits when that is non-zero, the rest
are full `comma_interval`-digit groups, joined with `commachar`. -/
def commafy (s : List Char) (commachar : Char) (k : Nat) : List Char :=
  let first := s.length % k
  joinSep [commachar]
    ((if 0 < first then [s.take first] else []) ++ chunksF s.length k (s.drop first))

/-- `col(n)` from the zero-padding branch of `Numeric.format`:
`n + (n-1)/comma_interval + len(sign)` with Python floor division. -/
def colW (signlen k : Nat) (n : Int) : Int :=
  n + (n - 1).fdiv k + signlen

/-- The `for i in range(len(s), mincol)` search in `Numeric.format`: stop
with `width = i` on an exact fit `col(i) == mincol`, with `width = i - 1`
when `col(i)` overshoots, else keep going.  `none` means the loop ran out
(the source then fails its `assert width > 0` since `width` is still -1). -/
def searchWidth (signlen k : Nat) (mincol : Int) : Int → Nat → Option Int
  | _, 0 => none
  | i, f + 1 =>
    if colW signlen k i = mincol then some i
    else if mincol < colW signlen k i then some (i - 1)
    else searchWidth signlen k mincol (i + 1) f

/-- The digit-string width chosen by `Numeric.format` when `padchar == "0"`,
the colon modifier is set, and `mincol > len(s) + len(sign)`:
`range(len(s), mincol)` has `mincol - len(s)` iterations. -/
def numericWidth (slen signlen k : Nat) (mincol : Int) : Option Int :=
  searchWidth signlen k mincol slen (mincol - slen).toNat

/-! ## The plain conditional (`Conditional.format`, format.py lines 720-746)

Only the no-modifier form is modelled (the form claim C4 is about).  Clause
bodies are restricted to literal text, so executing a clause emits exactly
that text; the selection logic is transcribed verbatim: `self.clauses[n]`
is a Python list subscript (negative indices address from the end), and the
`IndexError` handler consults `self.separators[-1].colon` — itself an
`IndexError` when the clause list has no separators. -/

def conditional_format (param0 : Option Int) (args : Args) (clauses : List String)
    (sepColons : List Bool) : Except PyErr String :=
  let resolve : Except PyErr Int :=
    match param0 with
    | some n => .ok n
    | none =>
      match args.next with
      | .ok (.vint n, _) => .ok n
      | .ok _ => .error .typeError
      | .error e => .error e
  match resolve with
  | .error e => .error e
  | .ok n =>
    match pyIndex n clauses.length with
    | some i => .ok (clauses.getD i "")
    | none =>
      match sepColons.getLast? with
      | none => .error .indexError
      | some colonFlag =>
        if colonFlag then
          match clauses.getLast? with
          | some last => .ok last
          | none => .error .indexError
        else .ok ""

/-- The amended claim C4 as a specification function: Python indexing selects
the clause (non-negative in-range directly, negative within `-count` from the
end); otherwise, with at least one separator, the last clause is executed
when the final separator carries the colon modifier and nothing otherwise;
with no separator at all the out-of-range case is an internal `IndexError`. -/
def conditionalSelectAmended (n : Int) (clauses : List String) (sepColons : List Bool) :
    Except PyErr String :=
  if 0 ≤ n ∧ n < (clauses.length : Int) then .ok (clauses.getD n.toNat "")
  else if n < 0 ∧ 0 ≤ n + (clauses.length : Int) then
    .ok (clauses.getD (n + (clauses.length : Int)).toNat "")
  else
    match sepColons.getLast? with
    | none => .error .indexError
    | some b => if b then .ok (clauses.getLast?.getD "") else .ok ""

/-! ## Roman numerals (`roman_int`, format.py lines 296-325)

The TeX82 algorithm: `j`/`k` index into the mixed table `roman_numerals`
(numeral characters at even positions, divisor numbers at odd positions),
`u`/`v` are the current subtractive offset and radix value. -/

inductive RomanEntry where
  | ch (c : Char)
  | num (v : Int)

/-- `roman_numerals = ["M", 2, "D", 5, "C", 2, "L", 5, "X", 2, "V", 5, "I"]`. -/
def roman_numerals : List RomanEntry :=
  [.ch 'M', .num 2, .ch 'D', .num 5, .ch 'C', .num 2, .ch 'L', .num 5,
   .ch 'X', .num 2, .ch 'V', .num 5, .ch 'I']

/-- `roman_numerals[i]` read as a numeral character (the algorithm only
yields even indices ≤ 12, which are all characters — proved in the totality
lemma; the `'?'` default is never reached on the domain). -/
def rnChar (i : Nat) : Char :=
  match roman_numerals.getD i (.num 0) with
  | .ch c => c
  | .num _ => '?'

/-- `roman_numerals[i]` read as a number (odd indices).  A character entry
compares unequal to 2 in Python, which the 0 default reproduces. -/
def rnNum (i : Nat) : Int :=
  match roman_numerals.getD i (.num 0) with
  | .ch _ => 0
  | .num v => v

/-- The `k` computed in the loop body: `k = j + 2`, bumped by 2 more when
`roman_numerals[k-1] == 2`. -/
def rnSubK (j : Nat) : Nat :=
  if rnNum (j + 1) = 2 then j + 4 else j + 2

/-- The `u` computed in the loop body: `u = v / roman_numerals[k-1]`,
divided once more by the new `roman_numerals[k-1]` when `k` was bumped
(Python 2 integer division on positive values). -/
def rnSubU (j : Nat) (v : Int) : Int :=
  if rnNum (j + 1) = 2 then (v.fdiv (rnNum (j + 1))).fdiv (rnNum (j + 3))
  else v.fdiv (rnNum (j + 1))

/-- The main loop of `roman_int` (everything after the domain check):
`while n >= v: yield rn[j]; n -= v`; then return on `n <= 0`; then either
the subtractive step (`yield rn[k]; n += u` and continue at the same level,
taken only when `n + u >= v` and not old-style) or descend
(`j += 2; v /= rn[j-1]`).  `fuel` bounds the loop; `roman_int` passes 120,
sufficient on the whole domain (`romanAux_good`). -/
def romanAux (oldstyle : Bool) : Nat → Nat → Int → Int → Option (List Char)
  | 0, _, _, _ => none
  | f + 1, j, v, n =>
    if v ≤ n then
      (romanAux oldstyle f j v (n - v)).map (fun l => rnChar j :: l)
    else if n ≤ 0 then some []
    else if v ≤ n + rnSubU j v ∧ oldstyle = false then
      (romanAux oldstyle f j v (n + rnSubU j v)).map (fun l => rnChar (rnSubK j) :: l)
    else romanAux oldstyle f (j + 2) (v.fdiv (rnNum (j + 1))) n

/-- `roman_int(n, oldstyle)`: `ValueError` outside 1..3999 (modern) or
1..4999 (old style); otherwise run the loop from `j = 0`, `v = 1000`. -/
def roman_int (n : Int) (oldstyle : Bool) : Except PyErr (List Char) :=
  if n < 1 ∨ (if oldstyle then (4999 : Int) else 3999) < n then .error .valueError
  else
    match romanAux oldstyle 120 0 1000 n with
    | some l => .ok l
    | none => .error .valueError

/-- The Roman numeral alphabet named by the claim. -/
def romanChars : List Char := ['M', 'D', 'C', 'L', 'X', 'V', 'I']

/-- The reachable `(j, v)` pairs of the loop. -/
def RomanLevel (j : Nat) (v : Int) : Prop :=
  (j = 0 ∧ v = 1000) ∨ (j = 2 ∧ v = 500) ∨ (j = 4 ∧ v = 100) ∨
  (j = 6 ∧ v = 50) ∨ (j = 8 ∧ v = 10) ∨ (j = 10 ∧ v = 5) ∨ (j = 12 ∧ v = 1)

/-! ## The pretty-printing engine (`prettyprinter.py`)

The scan phase (`write` / `begin` / `end` / `newline` / `flush`) and the
print phase (the tokens' `output` methods) are modelled as pure state
transformers.  Python resolves token sizes by mutating objects shared
between `queue` and `scanstack`; here every enqueued token gets a fresh id,
`scanstack` stores ids, and `top.size += ...` becomes an id-directed update
of the queue.  Stack orientation: Python appends/pops both `scanstack`
(deque) and `printstack` (list) at the right end and `popleft`s the deque at
the left; here the head of each list is the Python right end (the top), so
`popleft` removes the *last* element. -/

inductive PPErr where
  | indexError
  | assertionError
  | printLevelExceeded
  | fuel
deriving DecidableEq

inductive NlKind where
  | linear
  | fill
  | mandatory
deriving DecidableEq

inductive QTok where
  | qstring (s : List Char) (size : Int)
  | qbegin (pfx : List Char) (perLine : Bool) (size : Int)
  | qend (sfx : List Char)
  | qnewline (kind : NlKind) (size : Int)
deriving DecidableEq

/-- `q.size` as read by `flush` (an `End` token keeps the class default 0). -/
def QTok.size : QTok → Int
  | .qstring _ sz => sz
  | .qbegin _ _ sz => sz
  | .qend _ => 0
  | .qnewline _ sz => sz

/-- `tok.size += d` (on an `End` token the source never does this). -/
def QTok.addSize : QTok → Int → QTok
  | .qstring s sz, d => .qstring s (sz + d)
  | .qbegin p pl sz, d => .qbegin p pl (sz + d)
  | .qend s, _ => .qend s
  | .qnewline k sz, d => .qnewline k (sz + d)

/-- `tok.size = 999999` (the forcing in `write`'s overflow loop). -/
def QTok.setInf : QTok → QTok
  | .qstring s _ => .qstring s 999999
  | .qbegin p pl _ => .qbegin p pl 999999
  | .qend s => .qend s
  | .qnewline k _ => .qnewline k 999999

def isNlTok : QTok → Bool
  | .qnewline _ _ => true
  | _ => false

/-- One `printstack` entry: `(prefix, space, offset, fits)` pushed by
`Begin.output`. -/
structure Frame where
  pfx : List Char
  space : Int
  offset : Int
  fits : Bool
deriving DecidableEq

structure PP where
  margin : Int
  space : Int
  out : List Char
  blankspace : List Char
  pfx : List Char
  printstack : List Frame
  scanstack : List Nat
  queue : List (Nat × QTok)
  nextId : Nat
  leftotal : Int
  rightotal : Int
  level : Int
  printLevel : Option Int
deriving DecidableEq

/-- `PrettyPrinter.__init__` at column 0 (`space = margin`); `printLevel`
is the ambient `printervars.print_level`. -/
def PP.init (margin : Int) (printLevel : Option Int) : PP :=
  { margin := margin, space := margin, out := [], blankspace := [], pfx := [],
    printstack := [], scanstack := [], queue := [], nextId := 0,
    leftotal := 0, rightotal := 0, level := 0, printLevel := printLevel }

/-- `str.partition("\n")`: the text before the first newline, and
(when a newline exists) the text after it. -/
def splitNl : List Char → List Char × Option (List Char)
  | [] => ([], none)
  | c :: rest =>
    if c = '\n' then ([], some rest)
    else
      match splitNl rest with
      | (b, a) => (c :: b, a)

/-- `PrettyPrinter.terpri`: emit pending blankspace, a newline and the
per-line prefix; reset `space`. -/
def terpri (pp : PP) : PP :=
  { pp with out := pp.out ++ pp.blankspace ++ '\n' :: pp.pfx,
            blankspace := [],
            space := pp.margin - pp.pfx.length }

/-- `PrettyPrinter._write`: break at newlines (handing each to `terpri`),
and withhold trailing spaces in `blankspace` while still counting them
against `space`.  `fuel` bounds the recursion on the remaining text; callers
pass `length + 1`, which always suffices. -/
def pwrite : Nat → PP → List Char → PP
  | 0, pp, _ => pp
  | f + 1, pp, s =>
    match splitNl s with
    | (before, some after) =>
      pwrite f (terpri { pp with out := pp.out ++ pp.blankspace ++ before,
                                 blankspace := [] }) after
    | (before, none) =>
      let t := (before.reverse.takeWhile (fun c => c = ' ')).length
      { pp with out := pp.out ++ pp.blankspace ++ before.take (before.length - t),
                blankspace := before.drop (before.length - t),
                space := pp.space - before.length }

/-- `Begin.output`: remember the entry column, write the prefix, extend the
per-line prefix when `per_line`, and push
`(prefix, space, charpos - len(prefix), size <= space)`. -/
def beginOutput (pfxTok : List Char) (perLine : Bool) (size : Int) (pp : PP) : PP :=
  let offset := pp.margin - pp.space
  let pp1 := if pfxTok.isEmpty then pp else pwrite (pfxTok.length + 1) pp pfxTok
  let pp2 := if perLine then
      { pp1 with pfx := pp1.pfx ++ List.replicate (offset - pp1.pfx.length).toNat ' ' ++ pfxTok }
    else pp1
  { pp2 with printstack :=
      { pfx := pp2.pfx, space := pp2.space,
        offset := pp2.margin - pp2.space - pp2.pfx.length,
        fits := decide (size ≤ pp2.space) } :: pp2.printstack }

/-- `End.output`: write the suffix, pop the print stack (silently ignoring
an underflow, as the source's `except IndexError: pass` does) and restore
the outer per-line prefix. -/
def endOutput (sfx : List Char) (pp : PP) : PP :=
  let pp1 := if sfx.isEmpty then pp else pwrite (sfx.length + 1) pp sfx
  match pp1.printstack with
  | [] => pp1
  | _ :: rest =>
    { pp1 with printstack := rest,
               pfx := match rest with | [] => [] | fr :: _ => fr.pfx }

/-- `Newline.indent`: suppress trailing whitespace, break the line and
indent to column `n`. -/
def nlIndent (pp : PP) (n : Int) : PP :=
  pwrite (n.toNat + 1) (terpri { pp with blankspace := [] })
    (List.replicate n.toNat ' ')

/-- `Linear.output`: break unless the enclosing block fits
(`printstack[-1]` raises `IndexError` when no block is open). -/
def linearOutput (pp : PP) : Except PPErr PP :=
  match pp.printstack with
  | [] => .error .indexError
  | fr :: _ => .ok (if fr.fits then pp else nlIndent pp fr.offset)

/-- `Fill.output`: break only when the block does not fit *and* this span's
resolved size exceeds the remaining space. -/
def fillOutput (size : Int) (pp : PP) : Except PPErr PP :=
  match pp.printstack with
  | [] => .error .indexError
  | fr :: _ =>
    .ok (if fr.fits = false ∧ pp.space < size then nlIndent pp fr.offset else pp)

/-- `Mandatory.output`: always break. -/
def mandatoryOutput (pp : PP) : Except PPErr PP :=
  match pp.printstack with
  | [] => .error .indexError
  | fr :: _ => .ok (nlIndent pp fr.offset)

/-- `Token.output` dispatch for the queue tokens. -/
def tokOutput (t : QTok) (pp : PP) : Except PPErr PP :=
  match t with
  | .qstring s _ => .ok (pwrite (s.length + 1) pp s)
  | .qbegin p pl sz => .ok (beginOutput p pl sz pp)
  | .qend sfx => .ok (endOutput sfx pp)
  | .qnewline .linear _ => linearOutput pp
  | .qnewline .fill sz => fillOutput sz pp
  | .qnewline .mandatory _ => mandatoryOutput pp

/-- The loop inside `flush`: output queue entries from the front while their
sizes are non-negative, accumulating `total`; return the processed state,
the total and the remaining queue. -/
def flushAux : List (Nat × QTok) → PP → Int → Except PPErr (PP × Int × List (Nat × QTok))
  | [], pp, total => .ok (pp, total, [])
  | (i, t) :: rest, pp, total =>
    if t.size < 0 then .ok (pp, total, (i, t) :: rest)
    else
      match tokOutput t pp with
      | .ok pp1 => flushAux rest pp1 (total + t.size)
      | .error e => .error e

/-- `PrettyPrinter.flush`. -/
def ppflush (pp : PP) : Except PPErr PP :=
  match flushAux pp.queue pp 0 with
  | .ok (pp1, total, rest) =>
    .ok { pp1 with queue := rest, leftotal := pp1.leftotal + total }
  | .error e => .error e

/-- `top.size += d` through the id indirection. -/
def addSizeId (q : List (Nat × QTok)) (i : Nat) (d : Int) : List (Nat × QTok) :=
  q.map (fun e => if e.1 = i then (e.1, e.2.addSize d) else e)

/-- `stack.popleft().size = 999999` (the queue half of it). -/
def setInfId (q : List (Nat × QTok)) (i : Nat) : List (Nat × QTok) :=
  q.map (fun e => if e.1 = i then (e.1, e.2.setInf) else e)

/-- `isinstance(tok, Newline)` for the token behind an id. -/
def isNewlineId (q : List (Nat × QTok)) (i : Nat) : Bool :=
  match q.find? (fun e => e.1 == i) with
  | some (_, t) => isNlTok t
  | none => false

/-- The `while self.rightotal - self.leftotal > self.space` loop in `write`:
force-resolve the oldest pending token (deque `popleft`; `IndexError` when
none is left) to "infinity" and flush; the fuel is the scan-stack length,
which bounds the iterations. -/
def forceLoop : Nat → PP → Except PPErr PP
  | 0, pp =>
    if pp.space < pp.rightotal - pp.leftotal then
      match pp.scanstack.getLast? with
      | none => .error .indexError
      | some _ => .error .fuel
    else .ok pp
  | f + 1, pp =>
    if pp.space < pp.rightotal - pp.leftotal then
      match pp.scanstack.getLast? with
      | none => .error .indexError
      | some i =>
        match ppflush { pp with scanstack := pp.scanstack.dropLast,
                                queue := setInfId pp.queue i } with
        | .ok pp2 => forceLoop f pp2
        | .error e => .error e
    else .ok pp

/-- `PrettyPrinter.write`: with an empty scan stack write straight through;
otherwise merge into a trailing `String` token or append a new one, grow
`rightotal`, and run the forcing loop. -/
def ppwrite (pp : PP) (s : List Char) : Except PPErr PP :=
  match pp.scanstack with
  | [] => .ok (pwrite (s.length + 1) pp s)
  | _ =>
    match pp.queue.getLast? with
    | none => .error .indexError
    | some (i, t) =>
      let pp1 :=
        match t with
        | .qstring s0 sz =>
          { pp with queue := pp.queue.dropLast ++ [(i, QTok.qstring (s0 ++ s) (sz + s.length))] }
        | _ =>
          { pp with queue := pp.queue ++ [(pp.nextId, QTok.qstring s (s.length : Int))],
                    nextId := pp.nextId + 1 }
      forceLoop pp1.scanstack.length
        { pp1 with rightotal := pp1.rightotal + s.length }

/-- The common push of `begin`: `tok.size = -rightotal`, enqueue, grow
`rightotal` by the prefix length, push on the scan stack, bump the level. -/
def ppbeginPush (pp : PP) (pfxTok : List Char) (perLine : Bool) : PP :=
  { pp with queue := pp.queue ++ [(pp.nextId, QTok.qbegin pfxTok perLine (-pp.rightotal))],
            rightotal := pp.rightotal + pfxTok.length,
            scanstack := pp.nextId :: pp.scanstack,
            nextId := pp.nextId + 1,
            level := pp.level + 1 }

/-- `PrettyPrinter.begin`: raise `PrintLevelExceeded` past the depth limit;
with an empty scan stack reset the totals to 1 (asserting an empty queue);
then push the pending `Begin`. -/
def ppbegin (pp : PP) (pfxTok : List Char) (perLine : Bool) : Except PPErr PP :=
  match pp.printLevel with
  | some lv =>
    if lv ≤ pp.level then .error .printLevelExceeded
    else ppbeginAux pp pfxTok perLine
  | none => ppbeginAux pp pfxTok perLine
where
  ppbeginAux (pp : PP) (pfxTok : List Char) (perLine : Bool) : Except PPErr PP :=
    match pp.scanstack with
    | [] =>
      if pp.queue.isEmpty then
        .ok (ppbeginPush { pp with leftotal := 1, rightotal := 1 } pfxTok perLine)
      else .error .assertionError
    | _ => .ok (ppbeginPush pp pfxTok perLine)

/-- `PrettyPrinter.end`: with an empty scan stack output the `End`
immediately; otherwise enqueue it, resolve the top pending token (and, when
that token is a newline and the stack is still non-empty, the one below it)
and flush when the scan stack has emptied. -/
def ppend (pp : PP) (sfx : List Char) : Except PPErr PP :=
  match pp.scanstack with
  | [] => .ok (endOutput sfx pp)
  | topId :: rest =>
    let pp2 :=
      { pp with level := pp.level - 1,
                queue := pp.queue ++ [(pp.nextId, QTok.qend sfx)],
                nextId := pp.nextId + 1,
                rightotal := pp.rightotal + sfx.length }
    let pp3 := { pp2 with scanstack := rest,
                          queue := addSizeId pp2.queue topId pp2.rightotal }
    if isNewlineId pp2.queue topId then
      match pp3.scanstack with
      | topId2 :: rest2 =>
        let pp4 := { pp3 with scanstack := rest2,
                              queue := addSizeId pp3.queue topId2 pp3.rightotal }
        if rest2.isEmpty then ppflush pp4 else .ok pp4
      | [] => ppflush pp3
    else
      if pp3.scanstack.isEmpty then ppflush pp3 else .ok pp3

/-- The common push of `newline`. -/
def ppnewlinePush (pp : PP) (kind : NlKind) : PP :=
  { pp with queue := pp.queue ++ [(pp.nextId, QTok.qnewline kind (-pp.rightotal))],
            scanstack := pp.nextId :: pp.scanstack,
            nextId := pp.nextId + 1 }

/-- `PrettyPrinter.newline`: with an empty scan stack reset the totals
(asserting an empty queue); otherwise resolve a pending newline sitting on
top of the scan stack; then push the new pending newline. -/
def ppnewline (pp : PP) (kind : NlKind) : Except PPErr PP :=
  match pp.scanstack with
  | [] =>
    if pp.queue.isEmpty then
      .ok (ppnewlinePush { pp with leftotal := 1, rightotal := 1 } kind)
    else .error .assertionError
  | topId :: rest =>
    if isNewlineId pp.queue topId then
      .ok (ppnewlinePush { pp with queue := addSizeId pp.queue topId pp.rightotal,
                                   scanstack := rest } kind)
    else .ok (ppnewlinePush pp kind)

/-- `PrettyPrinter.close`: flush, then assert that the queue, the scan stack
and the print stack are all empty (`AssertionError` otherwise). -/
def ppclose (pp : PP) : Except PPErr PP :=
  match ppflush pp with
  | .error e => .error e
  | .ok pp1 =>
    if pp1.queue.isEmpty then
      if pp1.scanstack.isEmpty then
        if pp1.printstack.isEmpty then .ok pp1
        else .error .assertionError
      else .error .assertionError
    else .error .assertionError

/-- The token-emission operations of one pretty-printing session. -/
inductive PPOp where
  | write (s : List Char)
  | begin (pfxTok : List Char) (perLine : Bool)
  | endBlock (sfx : List Char)
  | newline (kind : NlKind)

def runOp (pp : PP) : PPOp → Except PPErr PP
  | .write s => ppwrite pp s
  | .begin p pl => ppbegin pp p pl
  | .endBlock s => ppend pp s
  | .newline k => ppnewline pp k

def runOps (pp : PP) : List PPOp → Except PPErr PP
  | [] => .ok pp
  | op :: rest =>
    match runOp pp op with
    | .ok pp1 => runOps pp1 rest
    | .error e => .error e

/-- Run a session and close it. -/
def runAndClose (margin : Int) (ops : List PPOp) : Except PPErr PP :=
  match runOps (PP.init margin none) ops with
  | .ok pp => ppclose pp
  | .error e => .error e

/-- Open-block depth change of one operation. -/
def opDepth : PPOp → Int
  | .begin _ _ => 1
  | .endBlock _ => -1
  | _ => 0

/-- Depth after a sequence, starting from `d`. -/
def depthAfter (d : Int) : List PPOp → Int
  | [] => d
  | op :: rest => depthAfter (d + opDepth op) rest

/-- Well-formedness of an operation sequence at starting depth `d`: no
`end` without an open block, and — the condition the counterexample to C7
forces — every conditional newline is emitted inside an open block. -/
def opsWF (d : Int) : List PPOp → Bool
  | [] => true
  | op :: rest =>
    match op with
    | .begin _ _ => opsWF (d + 1) rest
    | .endBlock _ => decide (1 ≤ d) && opsWF (d - 1) rest
    | .newline _ => decide (1 ≤ d) && opsWF d rest
    | .write _ => opsWF d rest

/-- Number of newline characters in the emitted text (the observation used
to state "this conditional newline broke the line"). -/
def countNl (s : List Char) : Nat := (s.filter (fun c => c = '\n')).length

/-! ### The scan-phase invariant used for claim C7 -/

/-- The pending (unresolved, negative-size) queue entries, oldest first. -/
def pend (q : List (Nat × QTok)) : List (Nat × QTok) :=
  q.filter (fun e => e.2.size < 0)

def qdelta : QTok → Int
  | .qbegin _ _ _ => 1
  | .qend _ => -1
  | _ => 0

/-- Net block-depth contribution of the queued tokens. -/
def qsDelta (q : List (Nat × QTok)) : Int := (q.map (fun e => qdelta e.2)).sum

def isBeginTok : QTok → Bool
  | .qbegin _ _ _ => true
  | _ => false

def isEndTok : QTok → Bool
  | .qend _ => true
  | _ => false

/-- "Every queued token of class `P` sees a positive block depth": for any
split of the queue at such a token, the print-stack depth plus the depth
deltas of the earlier entries is at least 1. -/
def DepthOk (P : QTok → Bool) (base : Int) (q : List (Nat × QTok)) : Prop :=
  ∀ q1 i t q2, q = q1 ++ (i, t) :: q2 → P t = true → 1 ≤ base + qsDelta q1

/-- Every queued `End` token sees a positive depth (its print-phase pop is
exact). -/
def EndsOk (base : Int) (q : List (Nat × QTok)) : Prop := DepthOk isEndTok base q

/-- Every queued conditional newline sees a positive depth (its print-phase
`printstack[-1]` lookup succeeds). -/
def NlsOk (base : Int) (q : List (Nat × QTok)) : Prop := DepthOk isNlTok base q

/-- The number of still-pending `Begin` tokens among the queue entries. -/
def countPB (q : List (Nat × QTok)) : Nat :=
  (q.filter (fun e => e.2.size < 0 && isBeginTok e.2)).length

/-- Behind every pending token, the queued depth deltas sum to at least the
number of pending `Begin`s there: the blocks a pending token belongs to are
never closed later in the queue. -/
def SufOk (q : List (Nat × QTok)) : Prop :=
  ∀ q1 e q2, q = q1 ++ e :: q2 → e.2.size < 0 → (countPB q2 : Int) ≤ qsDelta q2

/-- Queued literal-text tokens never carry a negative size (their size is a
text length, only ever grown by merging). -/
def StrOk (q : List (Nat × QTok)) : Prop :=
  ∀ i s sz, (i, QTok.qstring s sz) ∈ q → 0 ≤ sz

/-- Token kinds of the queue entries (`true` = conditional newline). -/
def kinds (q : List (Nat × QTok)) : List Bool := q.map (fun e => isNlTok e.2)

/-- No two adjacent `true`s: two pending newlines are never adjacent on the
scan stack (`newline` resolves a pending newline sitting on top before
pushing its own). -/
def noAdjNl : List Bool → Bool
  | [] => true
  | [_] => true
  | a :: b :: rest => !(a && b) && noAdjNl (b :: rest)

/-- The scan-phase invariant, at open-block depth `d`: the scan stack
mirrors the pending queue entries oldest-at-bottom; pending newlines are
never adjacent; queue ids are fresh and distinct; an empty scan stack forces
an empty queue; the print-stack depth plus the queued depth deltas equals
the open-block count, with every queued `End` and newline token seeing a
positive depth and pending tokens keeping their blocks open behind them;
strings are never pending, and pending sizes resolve to non-negative
values. -/
structure Inv (pp : PP) (d : Nat) : Prop where
  hscan : pp.scanstack = ((pend pp.queue).map Prod.fst).reverse
  hnadj : noAdjNl (kinds (pend pp.queue)) = true
  hnodup : (pp.queue.map Prod.fst).Nodup
  hidlt : ∀ e ∈ pp.queue, e.1 < pp.nextId
  hempty : pp.scanstack = [] → pp.queue = []
  hdepth : (pp.printstack.length : Int) + qsDelta pp.queue = (d : Int)
  hends : EndsOk (pp.printstack.length) pp.queue
  hnls : NlsOk (pp.printstack.length) pp.queue
  hsuf : SufOk pp.queue
  hstr : StrOk pp.queue
  hres : ∀ e ∈ pend pp.queue, 0 ≤ e.2.size + pp.rightotal
  hrt : pp.scanstack ≠ [] → 1 ≤ pp.rightotal

/-! ## The directive interpreter (`apply_directives` / `Iteration.format` /
`Escape` / `Plural` / `Decimal`, and the top-level `format`)

A small-step embedding of the directive classes needed by claims C1 and C8:
literal text, `~D` (no parameters), `~P`, `~^` (with literal prefix
parameters) and `~{...~}` with an inline, non-empty body.  The two
control-flow exceptions `UpAndOut` / `UpUpAndOut` are threaded as an explicit
control tag instead of being raised. -/

/-- A parsed format directive (the subset the claims exercise).  An
iteration's body is `b0 :: brest` — the source only uses the inline body when
it is non-empty (`self.prepared or ...`). -/
inductive Dir where
  | lit (s : List Char)
  | decimal
  | plural (colon atsign : Bool)
  | escape (ps : List (Option Int)) (colon : Bool)
  | iter (maxRep : Option Int) (colon atsign delimColon : Bool)
      (b0 : Dir) (brest : List Dir)

/-- Control outcome of running directives: normal completion, or an
in-flight `UpAndOut` / `UpUpAndOut`. -/
inductive Ctl where
  | norm
  | up
  | upup
deriving DecidableEq

/-- `"%d" % n`. -/
def intChars (n : Int) : List Char := (toString n).toList

/-- Python `arg == 1` for a format argument. -/
def isOne : Val → Bool
  | .vint n => n == 1
  | _ => false

/-- `Arguments(x)` for the value fetched by an iteration: a list is taken
as is, a string yields its one-character strings (Python string indexing),
`len()` of an int raises `TypeError`. -/
def toArgsList : Val → Except PyErr (List Val)
  | .vlist l => .ok l
  | .vstr str => .ok (str.toList.map (fun c => Val.vstr (String.mk [c])))
  | .vint _ => .error .typeError

/-- The interpreter's work items: a directive sequence to run, or the
`while` loop of `Iteration.format` with its body, modifiers, `max` bound,
closing-delimiter colon flag and iteration counter `i`. -/
inductive Job where
  | run (dirs : List Dir) (out : List Char) (args : Args)
  | loop (b0 : Dir) (bs : List Dir) (colon : Bool) (mx : Int) (dc : Bool)
      (out : List Char) (args : Args) (i : Nat)

/-- One interpreter for both `apply_directives` (the `.run` jobs) and the
iteration loop (the `.loop` jobs), with a fuel bound on the recursion.

* literal text is written to the stream;
* `~D` prints the next argument with `"%d"`;
* `~P` reads `peek(-1)` under the colon modifier and `next()` otherwise, and
  writes `y`/`ies` (at-sign) or the empty string/`s`;
* `~^` with no parameters tests `args.empty` (or `args.outer.empty` under
  the colon modifier) and otherwise applies `check_params` to its literal
  parameters, signalling `UpUpAndOut` when colon-modified and `UpAndOut`
  otherwise;
* `~{...~}` takes `max = param(0, default -1)`, iterates over the current
  cursor (at-sign) or a fresh cursor over the next argument, loops
  `while not args.empty or (i == 0 and delimiter.colon)`, breaks when
  `i == max`, fetches one argument-group per repetition under the colon
  modifier (a nested cursor whose `outer` is the advanced middle cursor),
  treats `UpAndOut` from the body as `continue` and `UpUpAndOut` as
  `break`. -/
def interp : Nat → Job → Except PyErr (Ctl × List Char × Args)
  | 0, _ => .error .fuelOut
  | _ + 1, .run [] out args => .ok (.norm, out, args)
  | f + 1, .run (d :: rest) out args =>
    match d with
    | .lit s => interp f (.run rest (out ++ s) args)
    | .decimal =>
      match args.next with
      | .error e => .error e
      | .ok (v, args2) =>
        match v with
        | .vint n => interp f (.run rest (out ++ intChars n) args2)
        | _ => .error .typeError
    | .plural colon atsign =>
      match (if colon then (args.peek (-1)).map (fun v => (v, args)) else args.next) with
      | .error e => .error e
      | .ok (v, args2) =>
        let sfx : List Char :=
          if atsign then (if isOne v then ['y'] else ['i', 'e', 's'])
          else (if isOne v then [] else ['s'])
        interp f (.run rest (out ++ sfx) args2)
    | .escape ps colon =>
      match ps with
      | [] =>
        if colon then
          match args.outer with
          | none => .error .attributeError
          | some o =>
            if o.empty then .ok (.upup, out, args)
            else interp f (.run rest out args)
        else
          if args.empty then .ok (.up, out, args)
          else interp f (.run rest out args)
      | _ :: _ =>
        if check_params (ps.getD 0 none) (ps.getD 1 none) (ps.getD 2 none) then
          .ok (if colon then Ctl.upup else Ctl.up, out, args)
        else interp f (.run rest out args)
    | .iter mxp colon atsign dc b0 bs =>
      let mx : Int := mxp.getD (-1)
      if atsign then
        match interp f (.loop b0 bs colon mx dc out args 0) with
        | .error e => .error e
        | .ok (_, out2, argsL) => interp f (.run rest out2 argsL)
      else
        match args.next with
        | .error e => .error e
        | .ok (v, args2) =>
          match toArgsList v with
          | .error e => .error e
          | .ok l =>
            match interp f (.loop b0 bs colon mx dc out (Args.make l none) 0) with
            | .error e => .error e
            | .ok (_, out2, _) => interp f (.run rest out2 args2)
  | f + 1, .loop b0 bs colon mx dc out args i =>
    if args.empty = false ∨ (i = 0 ∧ dc = true) then
      if (i : Int) = mx then .ok (.norm, out, args)
      else
        if colon then
          match args.next with
          | .error e => .error e
          | .ok (v, args2) =>
            match toArgsList v with
            | .error e => .error e
            | .ok l =>
              match interp f (.run (b0 :: bs) out (Args.make l (some args2))) with
              | .error e => .error e
              | .ok (.upup, out2, _) => .ok (.norm, out2, args2)
              | .ok (_, out2, _) => interp f (.loop b0 bs colon mx dc out2 args2 (i + 1))
        else
          match interp f (.run (b0 :: bs) out args) with
          | .error e => .error e
          | .ok (.upup, out2, args3) => .ok (.norm, out2, args3)
          | .ok (_, out2, args3) => interp f (.loop b0 bs colon mx dc out2 args3 (i + 1))
    else .ok (.norm, out, args)

/-- The top-level `format(None, control, *args)`: run the directives over a
fresh cursor, swallow `UpAndOut`, and return the collected output;
`UpUpAndOut` is *not* caught there and would escape to the caller. -/
def format (fuel : Nat) (dirs : List Dir) (vals : List Val) :
    Except PyErr (List Char) :=
  match interp fuel (.run dirs [] (Args.make vals none)) with
  | .error e => .error e
  | .ok (.upup, _, _) => .error .upUpAndOut
  | .ok (_, out, _) => .ok out

/-- The parse-time constraint enforced by `Escape.__init__` via
`governor(Iteration)`: a colon-modified `~^` only occurs where the nearest
enclosing iteration is colon-modified.  `g` says whether the directives sit
directly inside a colon iteration. -/
def dirsWF (g : Bool) : List Dir → Bool
  | [] => true
  | d :: rest =>
    (match d with
     | .escape _ colon => !colon || g
     | .iter _ colon _ _ b0 bs => dirsWF colon (b0 :: bs)
     | _ => true) && dirsWF g rest

/-! # Theorems

Everything below is proof; all executable definitions of the embedding are
above. -/

/-- C10: for the argument cursor, the invariant `empty ↔ cur = len` is
established at construction and preserved (within well-formedness `Args.WF`)
by every successful `next`, `prev` and `goto`; `next` fails exactly when the
cursor is at the end, `prev` exactly at position 0, and `goto k` fails
exactly when `k < 0 ∨ k ≥ len` (the failing `goto` returns no new cursor, so
the position is unchanged). -/
theorem arguments_cursor_invariant :
    (∀ l o, (Args.make l o).WF) ∧
    ∀ a : Args, a.WF →
      (∀ v a', a.next = .ok (v, a') → a'.WF) ∧
      (∀ v a', a.prev = .ok (v, a') → a'.WF) ∧
      (∀ k a', a.goto k = .ok a' → a'.WF) ∧
      ((∃ e, a.next = .error e) ↔ a.cur = a.len) ∧
      ((∃ e, a.prev = .error e) ↔ a.cur = 0) ∧
      ∀ k : Int, (∃ e, a.goto k = .error e) ↔ (k < 0 ∨ (a.len : Int) ≤ k) := by
  constructor
  · intro l o
    refine ⟨rfl, Nat.zero_le _, ?_⟩
    simp only [Args.make, Args.empty, Args.cur, Args.len, beq_iff_eq]
    omega
  · rintro ⟨l, n, c, e, o⟩ ⟨hlen, hcur, hemp⟩
    simp only [Args.len, Args.lst, Args.cur, Args.empty] at hlen hcur hemp
    have hget : ∀ c' : Nat, c' < n → ∃ v, l.get? c' = some v := by
      intro c' hc'
      rw [hlen] at hc'
      exact ⟨l.get ⟨c', hc'⟩, List.get?_eq_get hc'⟩
    refine ⟨?_, ?_, ?_, ?_, ?_, ?_⟩
    · intro v a' h
      simp only [Args.next] at h
      by_cases he : e = true
      · simp [he] at h
      · have hc : c ≠ n := fun hc => he (hemp.mpr hc)
        obtain ⟨w, hw⟩ := hget c (by omega)
        rw [if_neg (by simp [he]), hw] at h
        cases h
        refine ⟨hlen, ?_, ?_⟩
        · show c + 1 ≤ n
          omega
        · show ((c + 1) == n) = true ↔ c + 1 = n
          simp
    · intro v a' h
      simp only [Args.prev] at h
      by_cases hc0 : c = 0
      · simp [hc0] at h
      · obtain ⟨w, hw⟩ := hget (c - 1) (by omega)
        rw [if_neg (by simpa using hc0), hw] at h
        cases h
        refine ⟨hlen, ?_, ?_⟩
        · show c - 1 ≤ n
          omega
        · show false = true ↔ c - 1 = n
          simp only [Bool.false_eq_true, false_iff]
          omega
    · intro k a' h
      simp only [Args.goto] at h
      by_cases hk : k < 0 ∨ ((Args.mk l n c e o).len : Int) ≤ k
      · rw [if_pos hk] at h; cases h
      · rw [if_neg hk] at h
        cases h
        push_neg at hk
        simp only [Args.len] at hk
        refine ⟨hlen, ?_, ?_⟩
        · simp only [Args.cur, Args.len]
          omega
        · simp only [Args.empty, Args.cur, Args.len]
          constructor
          · intro hfalse; exact absurd hfalse (by simp)
          · intro habs
            exfalso
            omega
    · simp only [Args.next]
      by_cases he : e = true
      · simp only [he, if_true]
        exact ⟨fun _ => hemp.mp he, fun _ => ⟨.stopIteration, rfl⟩⟩
      · have hc : c ≠ n := fun hc => he (hemp.mpr hc)
        obtain ⟨w, hw⟩ := hget c (by omega)
        rw [if_neg (by simp [he]), hw]
        constructor
        · rintro ⟨_, h⟩; cases h
        · intro h; exact absurd h hc
    · simp only [Args.prev]
      by_cases hc0 : c = 0
      · simp only [hc0, Nat.zero_eq]
        exact ⟨fun _ => rfl, fun _ => by simp⟩
      · obtain ⟨w, hw⟩ := hget (c - 1) (by omega)
        rw [if_neg (by simpa using hc0), hw]
        constructor
        · rintro ⟨_, h⟩; cases h
        · intro h; exact absurd h hc0
    · intro k
      simp only [Args.goto]
      by_cases hk : k < 0 ∨ ((Args.mk l n c e o).len : Int) ≤ k
      · rw [if_pos hk]
        exact ⟨fun _ => by simpa [Args.len] using hk, fun _ => ⟨.indexError, rfl⟩⟩
      · rw [if_neg hk]
        constructor
        · rintro ⟨_, h⟩; cases h
        · intro h; exact absurd (by simpa [Args.len] using h) hk

/-- Witness for C10: the invariant at a concrete two-element cursor, and the
`next`-exhaustion characterisation at an empty cursor. -/
theorem arguments_cursor_invariant_witness :
    (Args.make [.vint 1, .vint 2] none).WF ∧
    ((∃ e, (Args.make [] none).next = .error e) ↔
      (Args.make [] none).cur = (Args.make [] none).len) :=
  ⟨arguments_cursor_invariant.1 _ none,
   (arguments_cursor_invariant.2 _ (arguments_cursor_invariant.1 [] none)).2.2.2.1⟩

lemma digits_indexOf_getD : ∀ i : Fin 36, digits.indexOf (digits.getD i.val '?') = i.val := by
  decide

lemma parse_rev_leDigitsF (radix : Nat) (h2 : 2 ≤ radix) (h36 : radix ≤ 36) :
    ∀ f n, n ≤ f → parseDigits (leDigitsF f n radix).reverse radix = n := by
  intro f
  induction f with
  | zero =>
    intro n hn
    interval_cases n
    simp [leDigitsF, parseDigits]
  | succ f ih =>
    intro n hn
    by_cases hn0 : n = 0
    · simp [leDigitsF, hn0, parseDigits]
    · have hdiv : n / radix ≤ f := by
        have : n / radix < n := Nat.div_lt_self (Nat.pos_of_ne_zero hn0) (by omega)
        omega
      have hmod : n % radix < 36 := lt_of_lt_of_le (Nat.mod_lt _ (by omega)) h36
      have hidx := digits_indexOf_getD ⟨n % radix, hmod⟩
      simp only [leDigitsF, hn0, if_false, List.reverse_cons]
      unfold parseDigits
      rw [List.foldl_append]
      have := ih (n / radix) hdiv
      unfold parseDigits at this
      rw [this]
      simp only [List.foldl_cons, List.foldl_nil, hidx]
      rw [Nat.mul_comm]
      exact Nat.div_add_mod n radix

/-- C2: for every non-negative integer `n` and radix `r ∈ [2,36]`, `convert`
succeeds and parsing its digit sequence back in radix `r` reproduces `n`. -/
theorem radix_round_trip (n radix : Nat) (h2 : 2 ≤ radix) (h36 : radix ≤ 36) :
    ∃ l, convert n radix = .ok l ∧ parseDigits l radix = n := by
  refine ⟨(le_digits n radix).reverse, ?_, ?_⟩
  · unfold convert
    rw [if_neg (by omega)]
  · exact parse_rev_leDigitsF radix h2 h36 n n le_rfl

/-- Witness for C2 at `n = 255`, `radix = 16`. -/
theorem radix_round_trip_witness :
    ∃ l, convert 255 16 = .ok l ∧ parseDigits l 16 = 255 :=
  radix_round_trip 255 16 (by decide) (by decide)

/-- C5: with one to three integer parameters `(a, b, c)` present positionally,
`Escape.check_params` signals termination exactly when `a = 0`, or `a = b`,
or `a ≤ b ≤ c` — whichever of those conditions the present parameters make
meaningful (they are checked disjunctively, so e.g. `(0, 5)` also signals
via `a = 0`). -/
theorem escape_check_params_spec (a b c : Int) :
    (check_params (some a) none none = true ↔ a = 0) ∧
    (check_params (some a) (some b) none = true ↔ (a = 0 ∨ a = b)) ∧
    (check_params (some a) (some b) (some c) = true ↔
      (a = 0 ∨ a = b ∨ (a ≤ b ∧ b ≤ c))) := by
  refine ⟨?_, ?_, ?_⟩ <;>
    simp [check_params, pyLe] <;> tauto

lemma chunksF_ne_nil (k : Nat) (f : Nat) (s : List Char) (hf : 1 ≤ f) (hs : s ≠ []) :
    chunksF f k s ≠ [] := by
  match f, s with
  | f + 1, a :: s => simp [chunksF]

lemma chunksF_sum (k : Nat) (hk : 1 ≤ k) :
    ∀ (f : Nat) (s : List Char), s.length ≤ f →
      ((chunksF f k s).map List.length).sum = s.length := by
  intro f
  induction f with
  | zero =>
    intro s hs
    have hs0 : s = [] := List.length_eq_zero.mp (by omega)
    subst hs0
    simp [chunksF]
  | succ f ih =>
    intro s hs
    match s with
    | [] => simp [chunksF]
    | a :: s' =>
      simp only [chunksF, List.map_cons, List.sum_cons]
      rw [ih _ (by simp at hs ⊢; omega)]
      simp only [List.length_take, List.length_drop]
      simp at hs ⊢
      omega

lemma chunksF_count (k : Nat) (hk : 1 ≤ k) :
    ∀ (f : Nat) (s : List Char), s.length ≤ f → k ∣ s.length →
      (chunksF f k s).length = s.length / k := by
  intro f
  induction f with
  | zero =>
    intro s hs _
    have hs0 : s = [] := List.length_eq_zero.mp (by omega)
    subst hs0
    simp [chunksF]
  | succ f ih =>
    intro s hs hdvd
    match s with
    | [] => simp [chunksF]
    | a :: s' =>
      obtain ⟨m, hm⟩ := hdvd
      have hm1 : 1 ≤ m := by
        rcases Nat.eq_zero_or_pos m with h | h
        · rw [h, Nat.mul_zero] at hm; simp at hm
        · exact h
      have hkm : k * (m - 1) = k * m - k := by
        rw [Nat.mul_sub, Nat.mul_one]
      have hlen : k ≤ (a :: s').length := by
        rw [hm]
        calc k = k * 1 := (Nat.mul_one k).symm
        _ ≤ k * m := Nat.mul_le_mul_left k hm1
      have hdrop : (List.drop k (a :: s')).length = k * (m - 1) := by
        rw [List.length_drop, hm, hkm]
      simp only [chunksF, List.length_cons]
      rw [ih _ (by rw [hdrop, hkm, ← hm]; omega) ⟨m - 1, hdrop⟩]
      rw [hdrop, Nat.mul_div_cancel_left _ (by omega : 0 < k)]
      have hm' : s'.length + 1 = k * m := by simpa using hm
      rw [hm', Nat.mul_div_cancel_left _ (by omega : 0 < k)]
      omega

lemma joinSep_length (sep : List Char) :
    ∀ parts : List (List Char), parts ≠ [] →
      (joinSep sep parts).length =
        (parts.map List.length).sum + sep.length * (parts.length - 1) := by
  intro parts
  induction parts with
  | nil => intro h; exact absurd rfl h
  | cons x xs ih =>
    intro _
    match xs, ih with
    | [], _ => simp [joinSep]
    | y :: ys, ih =>
      show (x ++ sep ++ joinSep sep (y :: ys)).length = _
      rw [List.length_append, List.length_append, ih (by simp)]
      simp only [List.map_cons, List.sum_cons, List.length_cons]
      have h1 : ys.length + 1 + 1 - 1 = ys.length + 1 := by omega
      have h2 : ys.length + 1 - 1 = ys.length := by omega
      rw [h1, h2]
      ring

lemma commafy_length (s : List Char) (ch : Char) (k : Nat) (hk : 1 ≤ k)
    (hs : s ≠ []) :
    ((commafy s ch k).length : Int) = (s.length : Int) + ((s.length : Int) - 1).fdiv k := by
  have hlen1 : 1 ≤ s.length := List.length_pos.mpr hs
  have hnat : (commafy s ch k).length = s.length + (s.length - 1) / k := by
    have hrk : s.length % k < k := Nat.mod_lt _ (by omega)
    have hqr : k * (s.length / k) + s.length % k = s.length := Nat.div_add_mod s.length k
    have hcomm : s.length / k * k = k * (s.length / k) := Nat.mul_comm _ _
    simp only [commafy]
    by_cases hr0 : 0 < s.length % k
    · -- a partial first group of `len % k` digits, then full groups
      have hdvd : k ∣ (s.drop (s.length % k)).length :=
        ⟨s.length / k, by rw [List.length_drop]; omega⟩
      have hsum := chunksF_sum k hk s.length (s.drop (s.length % k))
        (by rw [List.length_drop]; omega)
      have hcnt := chunksF_count k hk s.length (s.drop (s.length % k))
        (by rw [List.length_drop]; omega) hdvd
      have hq : (s.length - s.length % k) / k = s.length / k := by
        rw [show s.length - s.length % k = k * (s.length / k) by omega,
          Nat.mul_div_cancel_left _ (by omega : 0 < k)]
      have hd1 : (s.length - 1) / k = s.length / k := by
        rw [show s.length - 1 = (s.length % k - 1) + s.length / k * k by omega,
          Nat.add_mul_div_right _ _ (by omega : 0 < k),
          Nat.div_eq_of_lt (by omega)]
        omega
      rw [if_pos hr0, joinSep_length _ _ (by simp)]
      simp only [List.map_append, List.map_cons, List.map_nil, List.sum_append,
        List.sum_cons, List.sum_nil, List.length_append, List.length_cons,
        List.length_nil, List.length_take, List.length_drop, hsum, hcnt]
      rw [hq, hd1]
      have hmin : min (s.length % k) s.length = s.length % k :=
        Nat.min_eq_left (by omega)
      rw [hmin]
      simp only [Nat.zero_add, Nat.one_mul]
      have hrle : s.length % k ≤ s.length := Nat.mod_le _ _
      generalize s.length / k = q
      clear hsum hcnt hq hd1 hdvd hqr hcomm hrk hr0 hmin
      omega
    · -- the length is an exact multiple of `k`
      have hr : s.length % k = 0 := by omega
      have hq1 : 1 ≤ s.length / k := by
        rcases Nat.eq_zero_or_pos (s.length / k) with h | h
        · rw [h, Nat.mul_zero] at hqr; omega
        · exact h
      have hdvd : k ∣ s.length := ⟨s.length / k, by omega⟩
      have hsum := chunksF_sum k hk s.length s le_rfl
      have hcnt := chunksF_count k hk s.length s le_rfl hdvd
      have hd1 : (s.length - 1) / k = s.length / k - 1 := by
        have hsub : (s.length / k - 1) * k = s.length / k * k - k := by
          rw [Nat.sub_mul, Nat.one_mul]
        have hkq : k ≤ k * (s.length / k) := by
          calc k = k * 1 := (Nat.mul_one k).symm
          _ ≤ k * (s.length / k) := Nat.mul_le_mul_left k hq1
        rw [show s.length - 1 = (k - 1) + (s.length / k - 1) * k by
            rw [hsub, hcomm]; omega,
          Nat.add_mul_div_right _ _ (by omega : 0 < k),
          Nat.div_eq_of_lt (by omega)]
        omega
      rw [if_neg hr0, hr, List.drop_zero, List.nil_append,
        joinSep_length _ _ (chunksF_ne_nil k s.length s (by omega) hs),
        hsum, hcnt, hd1]
      simp only [List.length_cons, List.length_nil, Nat.zero_add, Nat.one_mul]
  rw [hnat]
  have hcast : ((s.length : Int) - 1) = ((s.length - 1 : Nat) : Int) := by
    omega
  rw [hcast, ← Int.ofNat_fdiv]
  omega

lemma searchWidth_first_reach (signlen k : Nat) (mincol m : Int)
    (hreach : mincol ≤ colW signlen k m) :
    ∀ (f : Nat) (i : Int), i ≤ m → m - i < (f : Int) →
      (∀ j : Int, i ≤ j → j < m → colW signlen k j < mincol) →
      searchWidth signlen k mincol i f =
        some (if colW signlen k m = mincol then m else m - 1) := by
  intro f
  induction f with
  | zero =>
    intro i hi hfuel _
    exfalso
    simp at hfuel
    omega
  | succ f ih =>
    intro i hi hfuel hbelow
    rcases eq_or_lt_of_le hi with rfl | hlt
    · -- reached the first index whose post-grouping width meets the target
      by_cases hex : colW signlen k i = mincol
      · simp [searchWidth, hex]
      · have hover : mincol < colW signlen k i := lt_of_le_of_ne hreach (Ne.symm hex)
        simp [searchWidth, hex, hover, if_neg (by omega : ¬colW signlen k i = mincol)]
    · have hcur : colW signlen k i < mincol := hbelow i le_rfl hlt
      rw [searchWidth, if_neg (by omega), if_neg (by omega)]
      exact ih (i + 1) (by omega) (by push_cast at hfuel ⊢; omega)
        (fun j hj hjm => hbelow j (by omega) hjm)

/-- C3 (amended): when `padchar = '0'`, the colon modifier is on and
`mincol` exceeds the signed digit string, `Numeric.format` searches
digit-string lengths from `len(s)` upward for the first one, `m`, whose
post-grouping width `col` (realised by `commafy` as the final conjunct
shows) reaches or exceeds `mincol`; it uses that length only on an exact
fit, and on an overshoot settles for `m - 1` — not the minimum length
meeting the target.  Whenever the settled length `m - 1` is still at least
`len(s)`, its post-grouping width is strictly below `mincol` (the middle
conjunct); when already the first candidate `len(s)` overshoots, the
settled length drops below `len(s)`, and zero-padding to fewer digits than
the string has leaves it unchanged. -/
theorem numeric_zero_pad_width (slen signlen k : Nat) (mincol m : Int)
    (hk : 1 ≤ k) (hslen : (slen : Int) ≤ m) (hm : m < mincol)
    (hguard : (slen : Int) + (signlen : Int) < mincol)
    (hreach : mincol ≤ colW signlen k m)
    (hbelow : ∀ j : Int, (slen : Int) ≤ j → j < m → colW signlen k j < mincol) :
    numericWidth slen signlen k mincol =
      some (if colW signlen k m = mincol then m else m - 1) ∧
    ((slen : Int) ≤ m - 1 → colW signlen k (m - 1) < mincol) ∧
    ∀ s : List Char, ∀ ch : Char, s ≠ [] →
      ((commafy s ch k).length : Int) + (signlen : Int) = colW signlen k s.length := by
  refine ⟨?_, ?_, ?_⟩
  · exact searchWidth_first_reach signlen k mincol m hreach
      (mincol - slen).toNat slen hslen (by omega) hbelow
  · intro hge
    exact hbelow (m - 1) hge (by omega)
  · intro s ch hs
    rw [commafy_length s ch k hk hs]
    simp only [colW]

/-- Witness for C3 (amended) at `len(s) = 1`, no sign, `comma_interval = 3`,
`mincol = 8`: the first length whose grouped width reaches 8 is `m = 7`
(grouped width 9), the source settles for width 6, and `col 6 = 7 < 8`. -/
theorem numeric_zero_pad_width_witness :
    numericWidth 1 0 3 8 = some (if colW 0 3 7 = 8 then 7 else 7 - 1) ∧
    ((1 : Int) ≤ 7 - 1 → colW 0 3 (7 - 1) < 8) ∧
    ∀ s : List Char, ∀ ch : Char, s ≠ [] →
      ((commafy s ch 3).length : Int) + (0 : Nat) = colW 0 3 s.length := by
  exact numeric_zero_pad_width 1 0 3 8 7 (by decide) (by decide) (by decide)
    (by decide) (by decide)
    (by intro j h1 h2; interval_cases j <;> decide)

/-- C3 counterexample: with a one-digit string, no sign, `comma_interval = 3`
and `mincol = 8`, the source chooses digit-string width 6, whose
post-grouping width `col 6 = 7` does **not** meet `mincol = 8` (the minimum
meeting length is 7) — refuting the claim that the computed width's
post-grouping width meets or exceeds the requested minimum. -/
theorem numeric_zero_pad_width_counterexample :
    numericWidth 1 0 3 8 = some 6 ∧ ¬(8 ≤ colW 0 3 6) ∧ 8 ≤ colW 0 3 7 := by
  decide


lemma conditional_dispatch_eq (clauses : List String) (sepColons : List Bool)
    (hne : clauses ≠ []) (n : Int) :
    (match pyIndex n clauses.length with
      | some i => (Except.ok (clauses.getD i "") : Except PyErr String)
      | none =>
        match sepColons.getLast? with
        | none => Except.error PyErr.indexError
        | some colonFlag =>
          if colonFlag then
            match clauses.getLast? with
            | some last => Except.ok last
            | none => Except.error PyErr.indexError
          else Except.ok "") = conditionalSelectAmended n clauses sepColons := by
  obtain ⟨lastC, hlast⟩ :=
    Option.isSome_iff_exists.mp (List.getLast?_isSome.mpr hne)
  have hfall :
      (match sepColons.getLast? with
        | none => (Except.error PyErr.indexError : Except PyErr String)
        | some colonFlag =>
          if colonFlag then
            match clauses.getLast? with
            | some last => Except.ok last
            | none => Except.error PyErr.indexError
          else Except.ok "") =
      (match sepColons.getLast? with
        | none => (Except.error PyErr.indexError : Except PyErr String)
        | some b => if b then Except.ok (clauses.getLast?.getD "") else Except.ok "") := by
    cases sepColons.getLast? with
    | none => rfl
    | some b =>
      cases b
      · rfl
      · simp [hlast]
  by_cases h1 : 0 ≤ n
  · by_cases h2 : n < (clauses.length : Int)
    · simp [pyIndex, conditionalSelectAmended, h1, h2]
    · rw [show pyIndex n clauses.length = none by simp [pyIndex, h1, h2]]
      rw [hfall]
      unfold conditionalSelectAmended
      rw [if_neg (by omega), if_neg (by omega)]
  · by_cases h3 : 0 ≤ n + (clauses.length : Int)
    · rw [show pyIndex n clauses.length = some (n + (clauses.length : Int)).toNat by
        simp [pyIndex, h1, h3]]
      unfold conditionalSelectAmended
      rw [if_neg (by omega), if_pos (by omega)]
    · rw [show pyIndex n clauses.length = none by simp [pyIndex, h1, h3]]
      rw [hfall]
      unfold conditionalSelectAmended
      rw [if_neg (by omega), if_neg (by omega)]

/-- C4 (amended): the plain conditional executes the clause selected by
Python list indexing on the zero-based index from parameter 0 (or, if that
is absent, from the next argument): a non-negative in-range index selects
directly, a negative index within the clause count selects from the end;
only an index out of range on both sides falls through — executing the last
clause when the final separator carries the colon modifier, producing no
output otherwise (and raising an internal `IndexError` when the conditional
has no separators at all).  In particular `"~0[Zero~;One~:;Other~]"` yields
`"Zero"` and `"~2[Zero~;One~:;Other~]"` yields `"Other"`. -/
theorem conditional_directive_selection (args : Args) (clauses : List String)
    (sepColons : List Bool) (hne : clauses ≠ []) :
    (∀ n : Int, conditional_format (some n) args clauses sepColons =
        conditionalSelectAmended n clauses sepColons) ∧
    (∀ (n : Int) (a' : Args), args.next = .ok (.vint n, a') →
        conditional_format none args clauses sepColons =
          conditionalSelectAmended n clauses sepColons) ∧
    conditional_format (some 0) args ["Zero", "One", "Other"] [false, true] = .ok "Zero" ∧
    conditional_format (some 2) args ["Zero", "One", "Other"] [false, true] = .ok "Other" := by
  refine ⟨?_, ?_, rfl, rfl⟩
  · intro n
    exact conditional_dispatch_eq clauses sepColons hne n
  · intro n a' hnext
    simp only [conditional_format, hnext]
    exact conditional_dispatch_eq clauses sepColons hne n

/-- Witness for C4 (amended) at the spec's own example. -/
theorem conditional_directive_selection_witness :
    conditional_format (some 2) (Args.make [] none) ["Zero", "One", "Other"] [false, true]
      = .ok "Other" :=
  (conditional_directive_selection (Args.make [] none) ["Zero", "One", "Other"]
    [false, true] (by simp)).2.2.2

/-- C4 counterexample: at index `-1` with clauses `Zero`/`One` and a plain
(non-colon) separator, the source executes the *last* clause (Python list
indexing wraps negative indices), whereas the claim mandates no output for
an out-of-range index whose final separator is not colon-flagged. -/
theorem conditional_negative_index_counterexample :
    conditional_format (some (-1)) (Args.make [] none) ["Zero", "One"] [false]
        = .ok "One" ∧
    ("One" : String) ≠ "" := by
  constructor
  · rfl
  · decide


lemma romanAux_step (f : Nat)
    (ih : ∀ m, m < f → ∀ (j : Nat) (v n : Int) (old : Bool), RomanLevel j v →
      0 ≤ n → n < 5 * v → 2 + (13 - j) * 7 + 2 * (n.toNat / v.toNat) ≤ m →
      ∃ l, romanAux old m j v n = some l ∧ ∀ c ∈ l, c ∈ romanChars)
    (j : Nat) (v u v' : Int) (kc : Nat)
    (hju : rnSubU j v = u) (hjk : rnSubK j = kc)
    (hjv' : v.fdiv (rnNum (j + 1)) = v')
    (hcj : rnChar j ∈ romanChars) (hck : rnChar kc ∈ romanChars)
    (hu1 : 1 ≤ u) (h2u : 2 * u ≤ v) (huv' : u ≤ v') (hv5 : v ≤ 5 * v')
    (hv'1 : 1 ≤ v') (hj : j ≤ 10)
    (hlv : RomanLevel j v) (hlv' : RomanLevel (j + 2) v')
    (n : Int) (old : Bool) (h0 : 0 ≤ n) (h5 : n < 5 * v)
    (hf : 2 + (13 - j) * 7 + 2 * (n.toNat / v.toNat) ≤ f) :
    ∃ l, romanAux old f j v n = some l ∧ ∀ c ∈ l, c ∈ romanChars := by
  have hv1 : 1 ≤ v := by omega
  match f with
  | 0 => exact absurd hf (by omega)
  | f + 1 =>
    simp only [romanAux]
    by_cases hw : v ≤ n
    · rw [if_pos hw]
      have hnd : n.toNat / v.toNat = (n - v).toNat / v.toNat + 1 := by
        have h3 : (n - v).toNat = n.toNat - v.toNat := by omega
        rw [h3]
        exact Nat.div_eq_sub_div (by omega) (by omega)
      obtain ⟨l, hl, hc⟩ := ih f (by omega) j v (n - v) old hlv (by omega) (by omega)
        (by omega)
      rw [hl]
      refine ⟨_, rfl, ?_⟩
      intro c hcm
      rcases List.mem_cons.mp hcm with rfl | hcm
      · exact hcj
      · exact hc c hcm
    · rw [if_neg hw]
      have hdn0 : n.toNat / v.toNat = 0 := Nat.div_eq_of_lt (by omega)
      by_cases hn0 : n ≤ 0
      · rw [if_pos hn0]
        exact ⟨[], rfl, by simp⟩
      · rw [if_neg hn0, hju, hjk]
        by_cases hsub : v ≤ n + u ∧ old = false
        · rw [if_pos hsub]
          obtain ⟨f2, rfl⟩ : ∃ f2, f = f2 + 1 + 1 := ⟨f - 2, by omega⟩
          -- the subtractive step is immediately followed by one `while`
          -- iteration, after which `n + u - v < u` forces the descent
          simp only [romanAux]
          rw [if_pos hsub.1, if_neg (by omega : ¬v ≤ n + u - v)]
          by_cases hz : n + u - v ≤ 0
          · rw [if_pos hz]
            refine ⟨_, rfl, ?_⟩
            intro c hcm
            rcases List.mem_cons.mp hcm with rfl | hcm
            · exact hck
            rcases List.mem_cons.mp hcm with rfl | hcm
            · exact hcj
            · simp at hcm
          · rw [if_neg hz, hju, if_neg (by omega : ¬(v ≤ n + u - v + u ∧ old = false)),
              hjv']
            have hz2 : (n + u - v).toNat / v'.toNat = 0 := Nat.div_eq_of_lt (by omega)
            obtain ⟨l, hl, hc⟩ := ih f2 (by omega) (j + 2) v' (n + u - v) old hlv'
              (by omega) (by omega) (by omega)
            rw [hl]
            refine ⟨_, rfl, ?_⟩
            intro c hcm
            rcases List.mem_cons.mp hcm with rfl | hcm
            · exact hck
            rcases List.mem_cons.mp hcm with rfl | hcm
            · exact hcj
            · exact hc c hcm
        · rw [if_neg hsub, hjv']
          have hd4 : n.toNat / v'.toNat ≤ 4 := by
            have := (Nat.div_lt_iff_lt_mul (by omega : 0 < v'.toNat)).mpr
              (by omega : n.toNat < 5 * v'.toNat)
            omega
          exact ih f (by omega) (j + 2) v' n old hlv' h0 (by omega) (by omega)

lemma romanAux_good :
    ∀ f : Nat, ∀ (j : Nat) (v n : Int) (old : Bool), RomanLevel j v →
      0 ≤ n → n < 5 * v →
      2 + (13 - j) * 7 + 2 * (n.toNat / v.toNat) ≤ f →
      ∃ l, romanAux old f j v n = some l ∧ ∀ c ∈ l, c ∈ romanChars := by
  intro f
  induction f using Nat.strong_induction_on with
  | _ f ih =>
    intro j v n old hl h0 h5 hf
    rcases hl with ⟨rfl, rfl⟩ | ⟨rfl, rfl⟩ | ⟨rfl, rfl⟩ | ⟨rfl, rfl⟩ |
      ⟨rfl, rfl⟩ | ⟨rfl, rfl⟩ | ⟨rfl, rfl⟩
    · exact romanAux_step f ih 0 1000 100 500 4 (by decide) (by decide) (by decide)
        (by decide) (by decide) (by decide) (by decide) (by decide) (by decide)
        (by decide) (by decide) (by simp [RomanLevel]) (by simp [RomanLevel])
        n old h0 h5 hf
    · exact romanAux_step f ih 2 500 100 100 4 (by decide) (by decide) (by decide)
        (by decide) (by decide) (by decide) (by decide) (by decide) (by decide)
        (by decide) (by decide) (by simp [RomanLevel]) (by simp [RomanLevel])
        n old h0 h5 hf
    · exact romanAux_step f ih 4 100 10 50 8 (by decide) (by decide) (by decide)
        (by decide) (by decide) (by decide) (by decide) (by decide) (by decide)
        (by decide) (by decide) (by simp [RomanLevel]) (by simp [RomanLevel])
        n old h0 h5 hf
    · exact romanAux_step f ih 6 50 10 10 8 (by decide) (by decide) (by decide)
        (by decide) (by decide) (by decide) (by decide) (by decide) (by decide)
        (by decide) (by decide) (by simp [RomanLevel]) (by simp [RomanLevel])
        n old h0 h5 hf
    · exact romanAux_step f ih 8 10 1 5 12 (by decide) (by decide) (by decide)
        (by decide) (by decide) (by decide) (by decide) (by decide) (by decide)
        (by decide) (by decide) (by simp [RomanLevel]) (by simp [RomanLevel])
        n old h0 h5 hf
    · exact romanAux_step f ih 10 5 1 1 12 (by decide) (by decide) (by decide)
        (by decide) (by decide) (by decide) (by decide) (by decide) (by decide)
        (by decide) (by decide) (by simp [RomanLevel]) (by simp [RomanLevel])
        n old h0 h5 hf
    · -- j = 12, v = 1: only the draining `while` loop is reachable
      match f with
      | 0 => exact absurd hf (by omega)
      | f + 1 =>
        simp only [romanAux]
        by_cases hw : (1 : Int) ≤ n
        · rw [if_pos hw]
          obtain ⟨l, hl, hc⟩ := ih f (by omega) 12 1 (n - 1) old
            (by simp [RomanLevel]) (by omega) (by omega)
            (by simp only [Int.toNat_one, Nat.div_one] at hf ⊢; omega)
          rw [hl]
          refine ⟨_, rfl, ?_⟩
          intro c hcm
          rcases List.mem_cons.mp hcm with rfl | hcm
          · decide
          · exact hc c hcm
        · rw [if_neg hw, if_pos (by omega)]
          exact ⟨[], rfl, by simp⟩

/-- C9 (amended): `roman_int` fails with a domain error exactly when its
input is below 1 or above 3999 (modern form) / 4999 (additive old style);
for every `n` in the domain it succeeds and its output uses only the
characters M, D, C, L, X, V, I.  (The claim's length-monotonicity conjunct
within a thousands-band is dropped: it fails at 8 vs. 9, see the
counterexample.) -/
theorem roman_int_domain_chars (n : Int) (oldstyle : Bool) :
    ((∃ e, roman_int n oldstyle = .error e) ↔
      (n < 1 ∨ (if oldstyle then (4999 : Int) else 3999) < n)) ∧
    (1 ≤ n → n ≤ (if oldstyle then (4999 : Int) else 3999) →
      ∃ l, roman_int n oldstyle = .ok l ∧ ∀ c ∈ l, c ∈ romanChars) := by
  have htot : 1 ≤ n → n ≤ (if oldstyle then (4999 : Int) else 3999) →
      ∃ l, roman_int n oldstyle = .ok l ∧ ∀ c ∈ l, c ∈ romanChars := by
    intro h1 h2
    have h2' : n ≤ 4999 := by
      cases oldstyle <;> simp at h2 <;> omega
    obtain ⟨l, hl, hc⟩ := romanAux_good 120 0 1000 n oldstyle (Or.inl ⟨rfl, rfl⟩)
      (by omega) (by omega)
      (by simp only [show ((1000 : Int)).toNat = 1000 from rfl]; omega)
    refine ⟨l, ?_, hc⟩
    unfold roman_int
    rw [if_neg (by cases oldstyle <;> simp_all), hl]
  refine ⟨⟨?_, ?_⟩, htot⟩
  · rintro ⟨e, he⟩
    by_contra hdom
    push_neg at hdom
    obtain ⟨l, hl, _⟩ := htot (by omega) hdom.2
    rw [hl] at he
    cases he
  · intro hdom
    refine ⟨.valueError, ?_⟩
    unfold roman_int
    rw [if_pos hdom]

/-- Witness for C9 (amended) at `n = 1990` (the TeX82 comment's own
example). -/
theorem roman_int_domain_chars_witness :
    1 ≤ (1990 : Int) → (1990 : Int) ≤ (if false then (4999 : Int) else 3999) →
    ∃ l, roman_int 1990 false = .ok l ∧ ∀ c ∈ l, c ∈ romanChars :=
  (roman_int_domain_chars 1990 false).2

/-- C9 counterexample: `roman(8) = "VIII"` (length 4) and `roman(9) = "IX"`
(length 2) lie in the same thousands-band, so the output length is *not*
non-decreasing within a band. -/
theorem roman_length_counterexample :
    roman_int 8 false = .ok ['V', 'I', 'I', 'I'] ∧
    roman_int 9 false = .ok ['I', 'X'] ∧
    (8 : Int).fdiv 1000 = (9 : Int).fdiv 1000 ∧
    ¬(['V', 'I', 'I', 'I'].length ≤ ['I', 'X'].length) := by
  refine ⟨rfl, rfl, rfl, by decide⟩


lemma splitNl_replicate_space (m : Nat) :
    splitNl (List.replicate m ' ') = (List.replicate m ' ', none) := by
  induction m with
  | zero => rfl
  | succ m ih => simp [List.replicate, splitNl, ih]

lemma pwrite_spaces (pp : PP) (m : Nat) :
    pwrite (m + 1) pp (List.replicate m ' ') =
      { pp with out := pp.out ++ pp.blankspace,
                blankspace := List.replicate m ' ',
                space := pp.space - m } := by
  simp only [pwrite, splitNl_replicate_space]
  have ht : ((List.replicate m ' ').reverse.takeWhile (fun c => c = ' ')).length = m := by
    rw [List.reverse_replicate]
    rw [List.takeWhile_replicate]
    simp
  rw [ht]
  simp [List.length_replicate]

lemma countNl_append (a b : List Char) : countNl (a ++ b) = countNl a + countNl b := by
  simp [countNl, List.filter_append]

lemma nlIndent_out (pp : PP) (n : Int) :
    (nlIndent pp n).out = pp.out ++ '\n' :: pp.pfx ∧
    (nlIndent pp n).printstack = pp.printstack := by
  unfold nlIndent terpri
  rw [pwrite_spaces]
  simp

/-- C6: with the enclosing block's frame `(offset, fits)` on top of the
print stack, a mandatory conditional newline always breaks the line, a
linear newline breaks exactly when the block does not fit, and a fill
newline breaks exactly when the block does not fit *and* this span's
resolved size exceeds the remaining space; inside a fitting block linear
and fill newlines leave the state untouched.  The final conjunct records
how `Begin.output` computes `fits`: the block's resolved size is at most
the space remaining at entry. -/
theorem newline_output_decisions (pp : PP) (fr : Frame) (rest : List Frame)
    (h : pp.printstack = fr :: rest) (size : Int)
    (hpfx : countNl pp.pfx = 0) :
    (∀ pp', mandatoryOutput pp = .ok pp' → countNl pp'.out = countNl pp.out + 1) ∧
    (∀ pp', linearOutput pp = .ok pp' →
        (countNl pp'.out = countNl pp.out + 1 ↔ fr.fits = false)) ∧
    (∀ pp', fillOutput size pp = .ok pp' →
        (countNl pp'.out = countNl pp.out + 1 ↔ (fr.fits = false ∧ pp.space < size))) ∧
    (fr.fits = true → linearOutput pp = .ok pp ∧ fillOutput size pp = .ok pp) ∧
    (∀ sz, (beginOutput [] false sz pp).printstack =
        { pfx := pp.pfx, space := pp.space,
          offset := pp.margin - pp.space - pp.pfx.length,
          fits := decide (sz ≤ pp.space) } :: pp.printstack) := by
  have hbreak : countNl (nlIndent pp fr.offset).out = countNl pp.out + 1 := by
    rw [(nlIndent_out pp fr.offset).1, countNl_append]
    have h1 : countNl ('\n' :: pp.pfx) = countNl pp.pfx + 1 := by
      simp [countNl]
    omega
  refine ⟨?_, ?_, ?_, ?_, ?_⟩
  · intro pp' hok
    unfold mandatoryOutput at hok
    rw [h] at hok
    cases hok
    exact hbreak
  · intro pp' hok
    unfold linearOutput at hok
    rw [h] at hok
    cases hok
    by_cases hf : fr.fits = true
    · rw [if_pos hf]
      simp only [hf]
      constructor
      · intro hx
        omega
      · intro hx
        exact absurd hx (by simp)
    · rw [if_neg hf]
      simp only [Bool.not_eq_true] at hf
      simp [hbreak, hf]
  · intro pp' hok
    unfold fillOutput at hok
    rw [h] at hok
    cases hok
    by_cases hc : fr.fits = false ∧ pp.space < size
    · rw [if_pos hc]
      simp [hbreak, hc]
    · rw [if_neg hc]
      constructor
      · intro hx
        omega
      · intro hx
        exact absurd hx hc
  · intro hf
    constructor
    · unfold linearOutput
      rw [h]
      simp [hf]
    · unfold fillOutput
      rw [h]
      simp [hf]
  · intro sz
    unfold beginOutput
    simp

/-- Witness for C6 at a concrete one-frame state. -/
theorem newline_output_decisions_witness :
    (∀ pp', mandatoryOutput
        ⟨10, 4, ['x'], [], [], [⟨[], 8, 2, false⟩], [], [], 0, 1, 1, 1, none⟩ = .ok pp' →
      countNl pp'.out =
        countNl (⟨10, 4, ['x'], [], [], [⟨[], 8, 2, false⟩], [], [], 0, 1, 1, 1,
          none⟩ : PP).out + 1) ∧
    (∀ pp', linearOutput
        ⟨10, 4, ['x'], [], [], [⟨[], 8, 2, false⟩], [], [], 0, 1, 1, 1, none⟩ = .ok pp' →
      (countNl pp'.out =
        countNl (⟨10, 4, ['x'], [], [], [⟨[], 8, 2, false⟩], [], [], 0, 1, 1, 1,
          none⟩ : PP).out + 1 ↔ (⟨[], 8, 2, false⟩ : Frame).fits = false)) := by
  have h := newline_output_decisions
    ⟨10, 4, ['x'], [], [], [⟨[], 8, 2, false⟩], [], [], 0, 1, 1, 1, none⟩
    ⟨[], 8, 2, false⟩ [] rfl 5 (by decide)
  exact ⟨h.1, h.2.1⟩


/-! ### List and queue bookkeeping lemmas for the scan-phase invariant -/

lemma map_id_of_eq {α : Type} (f : α → α) :
    ∀ l : List α, (∀ e ∈ l, f e = e) → l.map f = l := by
  intro l
  induction l with
  | nil => intro _; rfl
  | cons a l ih =>
    intro h
    rw [List.map_cons, h a (by simp), ih (fun e he => h e (by simp [he]))]

lemma filter_last_decomp {α : Type} (p : α → Bool) :
    ∀ (q P : List α) (x : α), q.filter p = P ++ [x] →
      ∃ q1 q2, q = q1 ++ x :: q2 ∧ q1.filter p = P ∧ q2.filter p = [] := by
  intro q
  induction q with
  | nil =>
    intro P x h
    simp at h
  | cons a q ih =>
    intro P x h
    by_cases hp : p a
    · rw [List.filter_cons_of_pos hp] at h
      cases P with
      | nil =>
        simp only [List.nil_append, List.cons.injEq] at h
        obtain ⟨rfl, hq⟩ := h
        exact ⟨[], q, by simp, rfl, hq⟩
      | cons b P' =>
        simp only [List.cons_append, List.cons.injEq] at h
        obtain ⟨rfl, hq⟩ := h
        obtain ⟨q1, q2, rfl, h1, h2⟩ := ih P' x hq
        exact ⟨a :: q1, q2, by simp, by rw [List.filter_cons_of_pos hp, h1], h2⟩
    · rw [List.filter_cons_of_neg hp] at h
      obtain ⟨q1, q2, rfl, h1, h2⟩ := ih P x h
      exact ⟨a :: q1, q2, by simp, by rw [List.filter_cons_of_neg hp, h1], h2⟩

lemma filter_first_decomp {α : Type} (p : α → Bool) :
    ∀ (q P : List α) (x : α), q.filter p = x :: P →
      ∃ q1 q2, q = q1 ++ x :: q2 ∧ q1.filter p = [] ∧ q2.filter p = P := by
  intro q
  induction q with
  | nil =>
    intro P x h
    simp at h
  | cons a q ih =>
    intro P x h
    by_cases hp : p a
    · rw [List.filter_cons_of_pos hp] at h
      simp only [List.cons.injEq] at h
      obtain ⟨rfl, hq⟩ := h
      exact ⟨[], q, rfl, rfl, hq⟩
    · rw [List.filter_cons_of_neg hp] at h
      obtain ⟨q1, q2, rfl, h1, h2⟩ := ih P x h
      exact ⟨a :: q1, q2, rfl, by rw [List.filter_cons_of_neg hp, h1], h2⟩

lemma nodup_split_ne (q1 : List (Nat × QTok)) (i : Nat) (t : QTok)
    (q2 : List (Nat × QTok))
    (h : ((q1 ++ (i, t) :: q2).map Prod.fst).Nodup) :
    (∀ e ∈ q1, e.1 ≠ i) ∧ ∀ e ∈ q2, e.1 ≠ i := by
  rw [List.map_append, List.map_cons] at h
  obtain ⟨nd1, nd2, disj⟩ := List.nodup_append.mp h
  obtain ⟨hnotin, _⟩ := List.nodup_cons.mp nd2
  constructor
  · intro e he heq
    exact disj (List.mem_map_of_mem Prod.fst he) (by simp [heq])
  · intro e he heq
    have hmem : e.1 ∈ q2.map Prod.fst := List.mem_map_of_mem Prod.fst he
    rw [heq] at hmem
    exact hnotin hmem

lemma addSizeId_decomp (q1 q2 : List (Nat × QTok)) (i : Nat) (t : QTok) (d : Int)
    (h1 : ∀ e ∈ q1, e.1 ≠ i) (h2 : ∀ e ∈ q2, e.1 ≠ i) :
    addSizeId (q1 ++ (i, t) :: q2) i d = q1 ++ (i, t.addSize d) :: q2 := by
  unfold addSizeId
  rw [List.map_append, List.map_cons]
  rw [map_id_of_eq _ q1 (fun e he => by rw [if_neg (h1 e he)]),
    map_id_of_eq _ q2 (fun e he => by rw [if_neg (h2 e he)])]
  simp

lemma setInfId_decomp (q1 q2 : List (Nat × QTok)) (i : Nat) (t : QTok)
    (h1 : ∀ e ∈ q1, e.1 ≠ i) (h2 : ∀ e ∈ q2, e.1 ≠ i) :
    setInfId (q1 ++ (i, t) :: q2) i = q1 ++ (i, t.setInf) :: q2 := by
  unfold setInfId
  rw [List.map_append, List.map_cons]
  rw [map_id_of_eq _ q1 (fun e he => by rw [if_neg (h1 e he)]),
    map_id_of_eq _ q2 (fun e he => by rw [if_neg (h2 e he)])]
  simp

lemma isNewlineId_decomp (q1 q2 : List (Nat × QTok)) (i : Nat) (t : QTok)
    (h1 : ∀ e ∈ q1, e.1 ≠ i) :
    isNewlineId (q1 ++ (i, t) :: q2) i = isNlTok t := by
  unfold isNewlineId
  induction q1 with
  | nil =>
    simp [List.find?]
  | cons a q1 ih =>
    rw [List.cons_append, List.find?_cons_of_neg _ (by
      simp only [beq_iff_eq]
      exact h1 a (by simp))]
    exact ih (fun e he => h1 e (by simp [he]))


/-! ### Print-phase frame lemmas: the output methods never touch the scan
state (queue, scan stack, totals, ids); only `Begin`/`End` outputs change
the print stack. -/

lemma pwrite_frame : ∀ (f : Nat) (s : List Char) (pp : PP),
    (pwrite f pp s).queue = pp.queue ∧ (pwrite f pp s).scanstack = pp.scanstack ∧
    (pwrite f pp s).printstack = pp.printstack ∧
    (pwrite f pp s).leftotal = pp.leftotal ∧
    (pwrite f pp s).rightotal = pp.rightotal ∧ (pwrite f pp s).nextId = pp.nextId := by
  intro f
  induction f with
  | zero =>
    intro s pp
    exact ⟨rfl, rfl, rfl, rfl, rfl, rfl⟩
  | succ f ih =>
    intro s pp
    simp only [pwrite]
    rcases hs : splitNl s with ⟨before, _ | after⟩
    · exact ⟨rfl, rfl, rfl, rfl, rfl, rfl⟩
    · exact ih after _

lemma nlIndent_frame (pp : PP) (n : Int) :
    (nlIndent pp n).queue = pp.queue ∧ (nlIndent pp n).scanstack = pp.scanstack ∧
    (nlIndent pp n).printstack = pp.printstack ∧
    (nlIndent pp n).leftotal = pp.leftotal ∧
    (nlIndent pp n).rightotal = pp.rightotal ∧ (nlIndent pp n).nextId = pp.nextId := by
  unfold nlIndent
  exact pwrite_frame _ _ _

lemma beginOutput_frame (p : List Char) (pl : Bool) (sz : Int) (pp : PP) :
    (beginOutput p pl sz pp).queue = pp.queue ∧
    (beginOutput p pl sz pp).scanstack = pp.scanstack ∧
    (beginOutput p pl sz pp).leftotal = pp.leftotal ∧
    (beginOutput p pl sz pp).rightotal = pp.rightotal ∧
    (beginOutput p pl sz pp).nextId = pp.nextId ∧
    ∃ fr, (beginOutput p pl sz pp).printstack = fr :: pp.printstack := by
  obtain ⟨hq, hs, hps, hl, hr, hn⟩ := pwrite_frame (p.length + 1) p pp
  unfold beginOutput
  by_cases he : p.isEmpty <;> by_cases hpl : pl = true <;>
    simp only [he, hpl, if_pos, if_neg, if_true, if_false, Bool.false_eq_true] <;>
    simp_all

lemma endOutput_frame (sfx : List Char) (pp : PP) :
    (endOutput sfx pp).queue = pp.queue ∧
    (endOutput sfx pp).scanstack = pp.scanstack ∧
    (endOutput sfx pp).leftotal = pp.leftotal ∧
    (endOutput sfx pp).rightotal = pp.rightotal ∧
    (endOutput sfx pp).nextId = pp.nextId ∧
    (endOutput sfx pp).printstack = pp.printstack.tail := by
  simp only [endOutput]
  by_cases he : sfx.isEmpty = true
  · rw [if_pos he]
    rcases hcase : pp.printstack with _ | ⟨fr, rest⟩ <;> simp [hcase]
  · rw [if_neg he]
    obtain ⟨hq, hs, hps, hl, hr, hn⟩ := pwrite_frame (sfx.length + 1) sfx pp
    rcases hcase : (pwrite (sfx.length + 1) pp sfx).printstack with _ | ⟨fr, rest⟩ <;>
      rw [hcase] at hps
    · refine ⟨hq, hs, hl, hr, hn, ?_⟩
      rw [hcase, ← hps]
      rfl
    · refine ⟨hq, hs, hl, hr, hn, ?_⟩
      show rest = pp.printstack.tail
      rw [← hps]
      rfl

lemma tokOutput_frame (t : QTok) (pp pp' : PP) (h : tokOutput t pp = .ok pp') :
    pp'.queue = pp.queue ∧ pp'.scanstack = pp.scanstack ∧
    pp'.leftotal = pp.leftotal ∧ pp'.rightotal = pp.rightotal ∧
    pp'.nextId = pp.nextId ∧
    (∀ p pl sz, t = QTok.qbegin p pl sz → ∃ fr, pp'.printstack = fr :: pp.printstack) ∧
    (∀ sfx, t = QTok.qend sfx → pp'.printstack = pp.printstack.tail) ∧
    ((∀ p pl sz, t ≠ QTok.qbegin p pl sz) → (∀ sfx, t ≠ QTok.qend sfx) →
      pp'.printstack = pp.printstack) := by
  cases t with
  | qstring s sz =>
    cases h
    obtain ⟨hq, hs, hps, hl, hr, hn⟩ := pwrite_frame (s.length + 1) s pp
    exact ⟨hq, hs, hl, hr, hn, by simp, by simp, fun _ _ => hps⟩
  | qbegin p pl sz =>
    cases h
    obtain ⟨hq, hs, hl, hr, hn, fr, hps⟩ := beginOutput_frame p pl sz pp
    refine ⟨hq, hs, hl, hr, hn, ?_, by simp, ?_⟩
    · intro _ _ _ _
      exact ⟨fr, hps⟩
    · intro hne _
      exact absurd rfl (hne p pl sz)
  | qend sfx =>
    cases h
    obtain ⟨hq, hs, hl, hr, hn, hps⟩ := endOutput_frame sfx pp
    refine ⟨hq, hs, hl, hr, hn, by simp, fun _ _ => hps, ?_⟩
    intro _ hne
    exact absurd rfl (hne sfx)
  | qnewline k sz =>
    have hframe : ∀ ppx : PP, ppx = pp ∨
        (∃ n, ppx = nlIndent pp n) →
        ppx.queue = pp.queue ∧ ppx.scanstack = pp.scanstack ∧
        ppx.leftotal = pp.leftotal ∧ ppx.rightotal = pp.rightotal ∧
        ppx.nextId = pp.nextId ∧ ppx.printstack = pp.printstack := by
      rintro ppx (rfl | ⟨n, rfl⟩)
      · exact ⟨rfl, rfl, rfl, rfl, rfl, rfl⟩
      · obtain ⟨hq, hs, hps, hl, hr, hn⟩ := nlIndent_frame pp n
        exact ⟨hq, hs, hl, hr, hn, hps⟩
    have hok : pp' = pp ∨ ∃ n, pp' = nlIndent pp n := by
      cases k with
      | linear =>
        unfold tokOutput linearOutput at h
        rcases hcase : pp.printstack with _ | ⟨fr, rest⟩ <;> rw [hcase] at h
        · cases h
        · simp only [Except.ok.injEq] at h
          by_cases hf : fr.fits = true
          · left
            rw [← h, if_pos hf]
          · right
            exact ⟨fr.offset, by rw [← h, if_neg hf]⟩
      | fill =>
        unfold tokOutput fillOutput at h
        rcases hcase : pp.printstack with _ | ⟨fr, rest⟩ <;> rw [hcase] at h
        · cases h
        · simp only [Except.ok.injEq] at h
          by_cases hf : fr.fits = false ∧ pp.space < sz
          · right
            exact ⟨fr.offset, by rw [← h, if_pos hf]⟩
          · left
            rw [← h, if_neg hf]
      | mandatory =>
        unfold tokOutput mandatoryOutput at h
        rcases hcase : pp.printstack with _ | ⟨fr, rest⟩ <;> rw [hcase] at h
        · cases h
        · simp only [Except.ok.injEq] at h
          right
          exact ⟨fr.offset, h.symm⟩
    obtain ⟨hq, hs, hl, hr, hn, hps⟩ := hframe pp' hok
    exact ⟨hq, hs, hl, hr, hn, by simp, by simp, fun _ _ => hps⟩


lemma qsDelta_nil : qsDelta [] = 0 := rfl

lemma qsDelta_cons (i : Nat) (t : QTok) (q : List (Nat × QTok)) :
    qsDelta ((i, t) :: q) = qdelta t + qsDelta q := by
  simp [qsDelta]

lemma qsDelta_append (a b : List (Nat × QTok)) :
    qsDelta (a ++ b) = qsDelta a + qsDelta b := by
  simp [qsDelta]

lemma flushAux_spec : ∀ (q : List (Nat × QTok)) (pp : PP) (total : Int)
    (pp' : PP) (total' : Int) (rest : List (Nat × QTok)),
    flushAux q pp total = .ok (pp', total', rest) →
    EndsOk (pp.printstack.length) q →
    ∃ pre, q = pre ++ rest ∧ pend pre = [] ∧
      (rest = [] ∨ ∃ i t rest2, rest = (i, t) :: rest2 ∧ t.size < 0) ∧
      pp'.queue = pp.queue ∧ pp'.scanstack = pp.scanstack ∧
      pp'.leftotal = pp.leftotal ∧ pp'.rightotal = pp.rightotal ∧
      pp'.nextId = pp.nextId ∧
      (pp'.printstack.length : Int) = pp.printstack.length + qsDelta pre := by
  intro q
  induction q with
  | nil =>
    intro pp total pp' total' rest h hends
    simp only [flushAux, Except.ok.injEq, Prod.mk.injEq] at h
    obtain ⟨rfl, rfl, rfl⟩ := h
    exact ⟨[], by simp, rfl, Or.inl rfl, rfl, rfl, rfl, rfl, rfl, by simp [qsDelta_nil]⟩
  | cons e q ih =>
    intro pp total pp' total' rest h hends
    obtain ⟨i, t⟩ := e
    simp only [flushAux] at h
    by_cases hp : t.size < 0
    · rw [if_pos hp] at h
      simp only [Except.ok.injEq, Prod.mk.injEq] at h
      obtain ⟨rfl, rfl, rfl⟩ := h
      exact ⟨[], rfl, rfl, Or.inr ⟨i, t, q, rfl, hp⟩, rfl, rfl, rfl, rfl, rfl,
        by simp [qsDelta_nil]⟩
    · rw [if_neg hp] at h
      rcases hout : tokOutput t pp with e' | pp1 <;> rw [hout] at h
      · cases h
      · obtain ⟨hq1, hs1, hl1, hr1, hn1, hbeg, hend, hoth⟩ := tokOutput_frame t pp pp1 hout
        have hlen1 : (pp1.printstack.length : Int) = pp.printstack.length + qdelta t := by
          cases t with
          | qbegin p pl sz =>
            obtain ⟨fr, hfr⟩ := hbeg p pl sz rfl
            rw [hfr]
            simp [qdelta]
          | qend sfx =>
            have h1 : 1 ≤ (pp.printstack.length : Int) + qsDelta [] :=
              hends [] i (QTok.qend sfx) q rfl rfl
            rw [qsDelta_nil] at h1
            rw [hend sfx rfl]
            rcases hps : pp.printstack with _ | ⟨fr, ps⟩
            · rw [hps] at h1
              simp at h1
            · simp [qdelta]
          | qstring s sz =>
            rw [hoth (by intro _ _ _ hcon; cases hcon) (by intro _ hcon; cases hcon)]
            simp [qdelta]
          | qnewline k sz =>
            rw [hoth (by intro _ _ _ hcon; cases hcon) (by intro _ hcon; cases hcon)]
            simp [qdelta]
        have hends1 : EndsOk (pp1.printstack.length) q := by
          intro q1 j t2 q2 hsplit hP
          have hh := hends ((i, t) :: q1) j t2 q2 (by rw [hsplit, List.cons_append]) hP
          rw [qsDelta_cons] at hh
          rw [hlen1]
          omega
        obtain ⟨pre, hpre, hpend, hrest, hq', hs', hl', hr', hn', hlen'⟩ :=
          ih pp1 (total + t.size) pp' total' rest h hends1
        refine ⟨(i, t) :: pre, by rw [List.cons_append, ← hpre], ?_, hrest,
          by rw [hq', hq1], by rw [hs', hs1], by rw [hl', hl1], by rw [hr', hr1],
          by rw [hn', hn1], ?_⟩
        · unfold pend
          rw [List.filter_cons_of_neg (by simpa using hp)]
          exact hpend
        · rw [hlen', hlen1, qsDelta_cons]
          ring

lemma ppflush_spec (pp pp' : PP) (h : ppflush pp = .ok pp')
    (hends : EndsOk (pp.printstack.length) pp.queue) :
    ∃ pre, pp.queue = pre ++ pp'.queue ∧ pend pre = [] ∧
      (pp'.queue = [] ∨ ∃ i t rest2, pp'.queue = (i, t) :: rest2 ∧ t.size < 0) ∧
      pp'.scanstack = pp.scanstack ∧ pp'.rightotal = pp.rightotal ∧
      pp'.nextId = pp.nextId ∧
      (pp'.printstack.length : Int) = pp.printstack.length + qsDelta pre := by
  unfold ppflush at h
  rcases haux : flushAux pp.queue pp 0 with e | ⟨pp1, total, rest⟩ <;> rw [haux] at h
  · cases h
  · simp only [Except.ok.injEq] at h
    obtain ⟨pre, hpre, hpend, hrest, hq1, hs1, hl1, hr1, hn1, hlen1⟩ :=
      flushAux_spec pp.queue pp 0 pp1 total rest haux hends
    subst h
    exact ⟨pre, by simpa using hpre, hpend, by simpa using hrest, by simpa using hs1,
      by simpa using hr1, by simpa using hn1, by simpa using hlen1⟩


/-! ### Depth bookkeeping lemmas -/

lemma addSize_qdelta (t : QTok) (d : Int) : qdelta (t.addSize d) = qdelta t := by
  cases t <;> rfl

lemma setInf_qdelta (t : QTok) : qdelta t.setInf = qdelta t := by
  cases t <;> rfl

lemma addSize_isNl (t : QTok) (d : Int) : isNlTok (t.addSize d) = isNlTok t := by
  cases t <;> rfl

lemma setInf_isNl (t : QTok) : isNlTok t.setInf = isNlTok t := by
  cases t <;> rfl

lemma addSize_isEnd (t : QTok) (d : Int) : isEndTok (t.addSize d) = isEndTok t := by
  cases t <;> rfl

lemma setInf_isEnd (t : QTok) : isEndTok t.setInf = isEndTok t := by
  cases t <;> rfl

lemma qdelta_nonneg_of_not_end (t : QTok) (h : isEndTok t = false) : 0 ≤ qdelta t := by
  cases t <;> simp_all [isEndTok, qdelta]

lemma pend_append (a b : List (Nat × QTok)) : pend (a ++ b) = pend a ++ pend b := by
  simp [pend]

lemma pend_nil_no (q : List (Nat × QTok)) (h : pend q = []) :
    ∀ e ∈ q, ¬ e.2.size < 0 := by
  intro e he hneg
  have : e ∈ pend q := List.mem_filter.mpr ⟨he, by simpa using hneg⟩
  rw [h] at this
  cases this

lemma countPB_append (a b : List (Nat × QTok)) :
    countPB (a ++ b) = countPB a + countPB b := by
  simp [countPB]

lemma countPB_cons (i : Nat) (t : QTok) (q : List (Nat × QTok)) :
    countPB ((i, t) :: q)
      = (if t.size < 0 ∧ isBeginTok t = true then 1 else 0) + countPB q := by
  by_cases h : t.size < 0 ∧ isBeginTok t = true
  · rw [if_pos h]
    unfold countPB
    rw [List.filter_cons_of_pos (by simp [h.1, h.2])]
    simp [Nat.add_comm]
  · rw [if_neg h]
    unfold countPB
    rw [List.filter_cons_of_neg (by
      simp only [Bool.and_eq_true, decide_eq_true_eq, not_and]
      intro h1 h2
      exact h ⟨h1, h2⟩)]
    simp

lemma DepthOk_nil (P : QTok → Bool) (base : Int) : DepthOk P base [] := by
  intro q1 i t q2 h
  simp at h

lemma DepthOk_cons (P : QTok → Bool) (base : Int) (j : Nat) (t : QTok)
    (q : List (Nat × QTok)) (h : DepthOk P base ((j, t) :: q)) :
    DepthOk P (base + qdelta t) q := by
  intro q1 i t2 q2 hsplit hP
  have := h ((j, t) :: q1) i t2 q2 (by rw [hsplit, List.cons_append]) hP
  rw [qsDelta_cons] at this
  omega

lemma DepthOk_cons_head (P : QTok → Bool) (base : Int) (j : Nat) (t : QTok)
    (q : List (Nat × QTok)) (h : DepthOk P base ((j, t) :: q)) (hP : P t = true) :
    1 ≤ base := by
  have := h [] j t q rfl hP
  rw [qsDelta_nil] at this
  omega

lemma DepthOk_cons_of (P : QTok → Bool) (base : Int) (j : Nat) (t : QTok)
    (q : List (Nat × QTok)) (hhd : P t = true → 1 ≤ base)
    (h : DepthOk P (base + qdelta t) q) : DepthOk P base ((j, t) :: q) := by
  intro q1 i t2 q2 hsplit hP
  cases q1 with
  | nil =>
    simp only [List.nil_append, List.cons.injEq, Prod.mk.injEq] at hsplit
    obtain ⟨⟨rfl, rfl⟩, rfl⟩ := hsplit
    rw [qsDelta_nil]
    have := hhd hP
    omega
  | cons a q1 =>
    simp only [List.cons_append, List.cons.injEq] at hsplit
    obtain ⟨rfl, hsplit⟩ := hsplit
    have := h q1 i t2 q2 hsplit hP
    rw [qsDelta_cons]
    omega

lemma DepthOk_snoc (P : QTok → Bool) (i : Nat) (t : QTok) :
    ∀ (q : List (Nat × QTok)) (base : Int), DepthOk P base q →
    (P t = true → 1 ≤ base + qsDelta q) → DepthOk P base (q ++ [(i, t)]) := by
  intro q
  induction q with
  | nil =>
    intro base _ hlast
    refine DepthOk_cons_of P base i t [] ?_ (DepthOk_nil P _)
    intro hP
    have := hlast hP
    rw [qsDelta_nil] at this
    omega
  | cons a q ih =>
    intro base h hlast
    obtain ⟨ja, ta⟩ := a
    rw [List.cons_append]
    refine DepthOk_cons_of P base ja ta _ (fun hP => DepthOk_cons_head P base ja ta q h hP) ?_
    refine ih (base + qdelta ta) (DepthOk_cons P base ja ta q h) ?_
    intro hP
    have := hlast hP
    rw [qsDelta_cons] at this
    omega

lemma DepthOk_prefix (P : QTok → Bool) (base : Int) (a b : List (Nat × QTok))
    (h : DepthOk P base (a ++ b)) : DepthOk P base a := by
  intro q1 i t q2 hsplit hP
  exact h q1 i t (q2 ++ b) (by rw [hsplit]; simp) hP

lemma DepthOk_suffix (P : QTok → Bool) (base : Int) (a b : List (Nat × QTok))
    (h : DepthOk P base (a ++ b)) : DepthOk P (base + qsDelta a) b := by
  intro q1 i t q2 hsplit hP
  have := h (a ++ q1) i t q2 (by rw [hsplit]; simp) hP
  rw [qsDelta_append] at this
  omega

lemma DepthOk_map (P : QTok → Bool) (f : Nat × QTok → Nat × QTok)
    (hq : ∀ e, qdelta (f e).2 = qdelta e.2) (hp : ∀ e, P (f e).2 = P e.2) :
    ∀ (q : List (Nat × QTok)) (base : Int), DepthOk P base q →
      DepthOk P base (q.map f) := by
  intro q
  induction q with
  | nil =>
    intro base _
    exact DepthOk_nil P base
  | cons a q ih =>
    intro base h
    rw [List.map_cons]
    rcases hfa : f a with ⟨jfa, tfa⟩
    obtain ⟨ja, ta⟩ := a
    refine DepthOk_cons_of P base jfa tfa _ ?_ ?_
    · intro hP
      refine DepthOk_cons_head P base ja ta q h ?_
      have := hp (ja, ta)
      rw [hfa] at this
      simp only at this
      rw [← this]
      exact hP
    · have hd : qdelta tfa = qdelta ta := by
        have := hq (ja, ta)
        rw [hfa] at this
        exact this
      rw [hd]
      exact ih (base + qdelta ta) (DepthOk_cons P base ja ta q h)

lemma DepthOk_nonneg (base : Int) (hb : 0 ≤ base) :
    ∀ (a b : List (Nat × QTok)), EndsOk base (a ++ b) → 0 ≤ base + qsDelta a := by
  intro a
  induction a generalizing base with
  | nil =>
    intro b _
    rw [qsDelta_nil]
    omega
  | cons e a ih =>
    intro b h
    obtain ⟨j, t⟩ := e
    rw [List.cons_append] at h
    have hstep : 0 ≤ base + qdelta t := by
      by_cases ht : isEndTok t = true
      · have := DepthOk_cons_head isEndTok base j t (a ++ b) h ht
        cases t <;> simp_all [isEndTok, qdelta]
      · have := qdelta_nonneg_of_not_end t (by simpa using ht)
        omega
    have := ih (base + qdelta t) hstep b (DepthOk_cons isEndTok base j t (a ++ b) h)
    rw [qsDelta_cons]
    omega

/-- Splitting a concatenation at an element absent from the right part
locates the split inside the left part. -/
lemma split_in_left {α : Type} (w R q1 q2 : List α) (e : α)
    (h : w ++ R = q1 ++ e :: q2) (he : e ∉ R) :
    ∃ m, w = q1 ++ e :: m ∧ q2 = m ++ R := by
  rcases (List.append_eq_append_iff.mp h) with ⟨a2, hq1, hR⟩ | ⟨c2, hw, hmid⟩
  · exact absurd (hR ▸ (by simp : e ∈ a2 ++ e :: q2)) he
  · cases c2 with
    | nil =>
      rw [List.nil_append] at hmid
      exact absurd (hmid ▸ (by simp : e ∈ e :: q2)) he
    | cons x c2 =>
      simp only [List.cons_append, List.cons.injEq] at hmid
      obtain ⟨rfl, rfl⟩ := hmid
      exact ⟨c2, hw, rfl⟩

lemma flushAux_run : ∀ (q : List (Nat × QTok)) (pp : PP) (total : Int),
    EndsOk (pp.printstack.length) q → NlsOk (pp.printstack.length) q →
    ∃ r, flushAux q pp total = .ok r := by
  intro q
  induction q with
  | nil =>
    intro pp total _ _
    exact ⟨_, rfl⟩
  | cons e q ih =>
    intro pp total hends hnls
    obtain ⟨i, t⟩ := e
    simp only [flushAux]
    by_cases hp : t.size < 0
    · rw [if_pos hp]
      exact ⟨_, rfl⟩
    · rw [if_neg hp]
      have hout : ∃ pp1, tokOutput t pp = .ok pp1 := by
        cases t with
        | qstring s sz => exact ⟨_, rfl⟩
        | qbegin p pl sz => exact ⟨_, rfl⟩
        | qend sfx => exact ⟨_, rfl⟩
        | qnewline k sz =>
          have h1 : 1 ≤ (pp.printstack.length : Int) :=
            DepthOk_cons_head isNlTok _ i _ q hnls rfl
          rcases hps : pp.printstack with _ | ⟨fr, ps⟩
          · rw [hps] at h1
            simp at h1
          · cases k with
            | linear =>
              simp only [tokOutput, linearOutput, hps]
              exact ⟨_, rfl⟩
            | fill =>
              simp only [tokOutput, fillOutput, hps]
              exact ⟨_, rfl⟩
            | mandatory =>
              simp only [tokOutput, mandatoryOutput, hps]
              exact ⟨_, rfl⟩
      obtain ⟨pp1, hok⟩ := hout
      rw [hok]
      obtain ⟨hq1, hs1, hl1, hr1, hn1, hbeg, hend, hoth⟩ := tokOutput_frame t pp pp1 hok
      have hlen1 : (pp1.printstack.length : Int) = pp.printstack.length + qdelta t := by
        cases t with
        | qbegin p pl sz =>
          obtain ⟨fr, hfr⟩ := hbeg p pl sz rfl
          rw [hfr]
          simp [qdelta]
        | qend sfx =>
          have h1 : 1 ≤ (pp.printstack.length : Int) :=
            DepthOk_cons_head isEndTok _ i _ q hends rfl
          rw [hend sfx rfl]
          rcases hps : pp.printstack with _ | ⟨fr, ps⟩
          · rw [hps] at h1
            simp at h1
          · simp [qdelta]
        | qstring s sz =>
          rw [hoth (by intro _ _ _ hcon; cases hcon) (by intro _ hcon; cases hcon)]
          simp [qdelta]
        | qnewline k sz =>
          rw [hoth (by intro _ _ _ hcon; cases hcon) (by intro _ hcon; cases hcon)]
          simp [qdelta]
      refine ih pp1 (total + t.size) ?_ ?_
      · rw [show ((pp1.printstack.length : Nat) : Int)
            = (pp.printstack.length : Int) + qdelta t from hlen1]
        exact DepthOk_cons isEndTok _ i t q hends
      · rw [show ((pp1.printstack.length : Nat) : Int)
            = (pp.printstack.length : Int) + qdelta t from hlen1]
        exact DepthOk_cons isNlTok _ i t q hnls


/-- `flush` preserves the scan-phase invariant: it can even restore the
`hempty` field, because the remaining queue keeps exactly the pending
entries. -/
lemma ppflush_inv (pp pp' : PP) (d : Nat)
    (hscan : pp.scanstack = ((pend pp.queue).map Prod.fst).reverse)
    (hnadj : noAdjNl (kinds (pend pp.queue)) = true)
    (hnodup : (pp.queue.map Prod.fst).Nodup)
    (hidlt : ∀ e ∈ pp.queue, e.1 < pp.nextId)
    (hdepth : (pp.printstack.length : Int) + qsDelta pp.queue = (d : Int))
    (hends : EndsOk (pp.printstack.length) pp.queue)
    (hnls : NlsOk (pp.printstack.length) pp.queue)
    (hsuf : SufOk pp.queue)
    (hstr : StrOk pp.queue)
    (hres : ∀ e ∈ pend pp.queue, 0 ≤ e.2.size + pp.rightotal)
    (hrt : pp.scanstack ≠ [] → 1 ≤ pp.rightotal)
    (h : ppflush pp = .ok pp') : Inv pp' d := by
  obtain ⟨pre, hpre, hpend, hrest, hscan', hrt', hnid', hlen'⟩ :=
    ppflush_spec pp pp' h hends
  have hqpend : pend pp.queue = pend pp'.queue := by
    rw [hpre, pend_append, hpend, List.nil_append]
  have hlenE : (pp'.printstack.length : Int) = (pp.printstack.length : Int) + qsDelta pre :=
    hlen'
  have hmemq : ∀ e ∈ pp'.queue, e ∈ pp.queue := by
    intro e he
    rw [hpre]
    exact List.mem_append_right pre he
  refine ⟨?_, ?_, ?_, ?_, ?_, ?_, ?_, ?_, ?_, ?_, ?_, ?_⟩
  · rw [hscan', hscan, hqpend]
  · rw [← hqpend]
    exact hnadj
  · have := hnodup
    rw [hpre, List.map_append] at this
    exact (List.nodup_append.mp this).2.1
  · intro e he
    rw [hnid']
    exact hidlt e (hmemq e he)
  · intro hse
    rcases hrest with hnil | ⟨i, t, rest2, hr2, hneg⟩
    · exact hnil
    · exfalso
      rw [hscan', hscan] at hse
      have hpnil : pend pp'.queue = [] := by
        rw [← hqpend]
        exact List.map_eq_nil_iff.mp (List.reverse_eq_nil_iff.mp hse)
      have hmem : (i, t) ∈ pend pp'.queue := by
        rw [hr2]
        exact List.mem_filter.mpr ⟨by simp, by simpa using hneg⟩
      rw [hpnil] at hmem
      cases hmem
  · rw [hlenE]
    have : qsDelta pp.queue = qsDelta pre + qsDelta pp'.queue := by
      rw [hpre, qsDelta_append]
    omega
  · rw [show ((pp'.printstack.length : Nat) : Int)
        = (pp.printstack.length : Int) + qsDelta pre from hlenE]
    exact DepthOk_suffix isEndTok _ pre pp'.queue (by rw [← hpre]; exact hends)
  · rw [show ((pp'.printstack.length : Nat) : Int)
        = (pp.printstack.length : Int) + qsDelta pre from hlenE]
    exact DepthOk_suffix isNlTok _ pre pp'.queue (by rw [← hpre]; exact hnls)
  · intro q1 e q2 hsplit hneg
    exact hsuf (pre ++ q1) e q2 (by rw [hpre, hsplit, List.append_assoc]) hneg
  · intro i s sz hmem
    exact hstr i s sz (hmemq (i, QTok.qstring s sz) hmem)
  · intro e he
    rw [hrt']
    exact hres e (by rw [hqpend]; exact he)
  · intro hne
    rw [hrt']
    exact hrt (by rw [hscan'] at hne; exact hne)


lemma setInf_not_pending (t : QTok) : ¬ t.setInf.size < 0 := by
  cases t <;> simp [QTok.setInf, QTok.size]

lemma qsDelta_map (f : Nat × QTok → Nat × QTok)
    (hf : ∀ e, qdelta (f e).2 = qdelta e.2) :
    ∀ q : List (Nat × QTok), qsDelta (q.map f) = qsDelta q := by
  intro q
  induction q with
  | nil => rfl
  | cons a q ih =>
    rw [List.map_cons]
    rcases hfa : f a with ⟨jfa, tfa⟩
    obtain ⟨ja, ta⟩ := a
    rw [qsDelta_cons, qsDelta_cons, ih]
    have := hf (ja, ta)
    rw [hfa] at this
    simp only at this
    rw [this]

lemma mapfst_map (f : Nat × QTok → Nat × QTok) (hf : ∀ e, (f e).1 = e.1)
    (q : List (Nat × QTok)) : (q.map f).map Prod.fst = q.map Prod.fst := by
  rw [List.map_map]
  exact List.map_congr_left (fun e _ => hf e)

lemma reverse_dropLast {α : Type} (l : List α) :
    l.reverse.dropLast = l.tail.reverse := by
  cases l with
  | nil => rfl
  | cons a l => simp

lemma noAdjNl_tail (a : Bool) (l : List Bool) (h : noAdjNl (a :: l) = true) :
    noAdjNl l = true := by
  cases l with
  | nil => rfl
  | cons b r =>
    simp only [noAdjNl, Bool.and_eq_true] at h
    exact h.2

lemma dropLast_ne_nil {α : Type} (l : List α) (h : l.dropLast ≠ []) : l ≠ [] := by
  intro hl
  rw [hl] at h
  exact h rfl

/-- Splitting a concatenation at an element absent from the left part
locates the split inside the right part. -/
lemma split_in_right {α : Type} (w R q1 q2 : List α) (e : α)
    (h : w ++ R = q1 ++ e :: q2) (he : e ∉ w) :
    ∃ m, R = m ++ e :: q2 ∧ q1 = w ++ m := by
  rcases (List.append_eq_append_iff.mp h) with ⟨a2, hq1, hR⟩ | ⟨c2, hw, hmid⟩
  · exact ⟨a2, hR, hq1⟩
  · cases c2 with
    | nil =>
      rw [List.nil_append] at hmid
      rw [List.append_nil] at hw
      refine ⟨[], ?_, ?_⟩
      · rw [List.nil_append]
        exact hmid.symm
      · rw [List.append_nil]
        exact hw.symm
    | cons x c2 =>
      simp only [List.cons_append, List.cons.injEq] at hmid
      obtain ⟨rfl, rfl⟩ := hmid
      exact absurd (hw ▸ (by simp : e ∈ q1 ++ e :: c2)) he

/-- One step of the overflow-forcing loop, then `flush`, preserves the
invariant; hence so does the whole loop. -/
lemma forceLoop_inv : ∀ (f : Nat) (pp pp' : PP) (d : Nat), Inv pp d →
    forceLoop f pp = .ok pp' → Inv pp' d := by
  intro f
  induction f with
  | zero =>
    intro pp pp' d inv h
    simp only [forceLoop] at h
    by_cases hc : pp.space < pp.rightotal - pp.leftotal
    · rw [if_pos hc] at h
      rcases hg : pp.scanstack.getLast? with _ | i <;> rw [hg] at h <;> cases h
    · rw [if_neg hc] at h
      simp only [Except.ok.injEq] at h
      rw [← h]
      exact inv
  | succ f ih =>
    intro pp pp' d inv h
    simp only [forceLoop] at h
    by_cases hc : pp.space < pp.rightotal - pp.leftotal
    swap
    · rw [if_neg hc] at h
      simp only [Except.ok.injEq] at h
      rw [← h]
      exact inv
    rw [if_pos hc] at h
    rcases hg : pp.scanstack.getLast? with _ | i <;> simp only [hg] at h
    · cases h
    obtain ⟨hscan, hnadj, hnodup, hidlt, hempty, hdepth, hends, hnls, hsuf, hstr,
      hres, hrt⟩ := inv
    have hhead : ((pend pp.queue).map Prod.fst).head? = some i := by
      rw [hscan, List.getLast?_reverse] at hg
      exact hg
    obtain ⟨t0, P, hp0⟩ : ∃ t0 P, pend pp.queue = (i, t0) :: P := by
      rcases hpq : pend pp.queue with _ | ⟨e0, P⟩
      · rw [hpq] at hhead
        cases hhead
      · rw [hpq, List.map_cons, List.head?_cons] at hhead
        obtain ⟨i0, t0⟩ := e0
        simp only [Option.some.injEq] at hhead
        exact ⟨t0, P, by rw [hhead]⟩
    have ht0neg : t0.size < 0 := by
      have hmem : (i, t0) ∈ pend pp.queue := by
        rw [hp0]
        simp
      simpa using (List.mem_filter.mp hmem).2
    have hp0f : pp.queue.filter (fun e => e.2.size < 0) = (i, t0) :: P := hp0
    obtain ⟨q1, q2, hqd, hq1p, hq2p⟩ :=
      filter_first_decomp _ pp.queue P (i, t0) hp0f
    have hnodup2 := hqd ▸ hnodup
    obtain ⟨hne1, hne2⟩ := nodup_split_ne q1 i t0 q2 hnodup2
    have hset : setInfId pp.queue i = q1 ++ (i, t0.setInf) :: q2 := by
      rw [hqd]
      exact setInfId_decomp q1 q2 i t0 hne1 hne2
    have hpendm : pend (setInfId pp.queue i) = P := by
      rw [hset, pend_append]
      have h1 : pend q1 = [] := hq1p
      have h2 : pend ((i, t0.setInf) :: q2) = pend q2 := by
        unfold pend
        rw [List.filter_cons_of_neg (by simpa using setInf_not_pending t0)]
      rw [h1, h2, List.nil_append]
      exact hq2p
    set ppm : PP := { pp with scanstack := pp.scanstack.dropLast,
                              queue := setInfId pp.queue i } with hppm
    rcases hflush : ppflush ppm with e | pp2 <;> rw [hflush] at h
    · cases h
    have hfun : ∀ e : Nat × QTok,
        qdelta ((if e.1 = i then (e.1, e.2.setInf) else e)).2 = qdelta e.2 := by
      intro e
      by_cases hei : e.1 = i
      · rw [if_pos hei]
        exact setInf_qdelta e.2
      · rw [if_neg hei]
    have hinv2 : Inv pp2 d := by
      refine ppflush_inv ppm pp2 d ?_ ?_ ?_ ?_ ?_ ?_ ?_ ?_ ?_ ?_ ?_ hflush
      · show pp.scanstack.dropLast = ((pend (setInfId pp.queue i)).map Prod.fst).reverse
        rw [hpendm, hscan, hp0, reverse_dropLast, List.map_cons, List.tail_cons]
      · show noAdjNl (kinds (pend (setInfId pp.queue i))) = true
        rw [hpendm]
        have := hnadj
        rw [hp0] at this
        exact noAdjNl_tail _ _ this
      · show ((setInfId pp.queue i).map Prod.fst).Nodup
        unfold setInfId
        rw [mapfst_map _ (by
          intro e
          by_cases hei : e.1 = i
          · rw [if_pos hei]
          · rw [if_neg hei])]
        exact hnodup
      · intro e he
        show e.1 < pp.nextId
        obtain ⟨a, ha, hfa⟩ := List.mem_map.mp he
        have : e.1 = a.1 := by
          by_cases hei : a.1 = i
          · rw [if_pos hei] at hfa
            rw [← hfa]
          · rw [if_neg hei] at hfa
            rw [← hfa]
        rw [this]
        exact hidlt a ha
      · show (pp.printstack.length : Int) + qsDelta (setInfId pp.queue i) = (d : Int)
        unfold setInfId
        rw [qsDelta_map _ hfun]
        exact hdepth
      · show EndsOk (pp.printstack.length) (setInfId pp.queue i)
        unfold setInfId
        refine DepthOk_map isEndTok _ hfun ?_ pp.queue _ ?_ 
        · intro e
          by_cases hei : e.1 = i
          · rw [if_pos hei]
            exact setInf_isEnd e.2
          · rw [if_neg hei]
        · exact hends
      · show NlsOk (pp.printstack.length) (setInfId pp.queue i)
        unfold setInfId
        refine DepthOk_map isNlTok _ hfun ?_ pp.queue _ ?_ 
        · intro e
          by_cases hei : e.1 = i
          · rw [if_pos hei]
            exact setInf_isNl e.2
          · rw [if_neg hei]
        · exact hnls
      · show SufOk (setInfId pp.queue i)
        intro b1 e b2 hsplit hneg
        rw [hset] at hsplit
        have hnotin : e ∉ q1 ++ [(i, t0.setInf)] := by
          intro hmem
          rcases List.mem_append.mp hmem with hmem1 | hmem1
          · exact pend_nil_no q1 hq1p e hmem1 hneg
          · have : e = (i, t0.setInf) := by simpa using hmem1
            rw [this] at hneg
            exact setInf_not_pending t0 hneg
        obtain ⟨m, hq2m, hb1⟩ := split_in_right (q1 ++ [(i, t0.setInf)]) q2 b1 b2 e
          (by rw [← hsplit]; simp) hnotin
        exact hsuf (q1 ++ (i, t0) :: m) e b2
          (by rw [hqd, hq2m]; simp) hneg
      · intro j sl sz hmem
        obtain ⟨a, ha, hfa⟩ := List.mem_map.mp hmem
        by_cases hei : a.1 = i
        · rw [if_pos hei] at hfa
          obtain ⟨ja, ta⟩ := a
          simp only [Prod.mk.injEq] at hfa
          cases ta <;> simp [QTok.setInf] at hfa
          omega
        · rw [if_neg hei] at hfa
          rw [hfa] at ha
          exact hstr j sl sz ha
      · intro e he
        show 0 ≤ e.2.size + pp.rightotal
        rw [hpendm] at he
        refine hres e ?_
        rw [hp0]
        exact List.mem_cons_of_mem _ he
      · intro hne
        show 1 ≤ pp.rightotal
        exact hrt (dropLast_ne_nil _ hne)
    exact ih pp2 pp' d hinv2 h


lemma getLast?_decomp {α : Type} :
    ∀ (l : List α) (x : α), l.getLast? = some x → ∃ l0, l = l0 ++ [x] := by
  intro l
  induction l with
  | nil =>
    intro x h
    cases h
  | cons a l ih =>
    intro x h
    cases l with
    | nil =>
      simp only [List.getLast?_singleton, Option.some.injEq] at h
      exact ⟨[], by rw [h, List.nil_append]⟩
    | cons b l2 =>
      rw [List.getLast?_cons_cons] at h
      obtain ⟨l0, hl0⟩ := ih x h
      refine ⟨a :: l0, by rw [hl0]; rfl⟩

/-- Appending a fresh non-pending string token (plus growing `rightotal`)
preserves the invariant. -/
lemma push_string_inv (pp : PP) (d : Nat) (s : List Char) (hne : pp.scanstack ≠ [])
    (inv : Inv pp d) :
    Inv { pp with queue := pp.queue ++ [(pp.nextId, QTok.qstring s (s.length : Int))],
                  nextId := pp.nextId + 1,
                  rightotal := pp.rightotal + (s.length : Int) } d := by
  obtain ⟨hscan, hnadj, hnodup, hidlt, hempty, hdepth, hends, hnls, hsuf, hstr,
    hres, hrt⟩ := inv
  have hnp : ¬ (QTok.qstring s (s.length : Int)).size < 0 := by
    simp [QTok.size]
  have hpend : pend (pp.queue ++ [(pp.nextId, QTok.qstring s (s.length : Int))])
      = pend pp.queue := by
    rw [pend_append]
    unfold pend
    rw [List.filter_cons_of_neg (by simpa using hnp)]
    simp
  refine ⟨?_, ?_, ?_, ?_, ?_, ?_, ?_, ?_, ?_, ?_, ?_, ?_⟩
  · show pp.scanstack = _
    rw [hpend]
    exact hscan
  · show noAdjNl (kinds (pend _)) = true
    rw [hpend]
    exact hnadj
  · show ((pp.queue ++ _).map Prod.fst).Nodup
    rw [List.map_append]
    rw [List.nodup_append]
    refine ⟨hnodup, List.nodup_singleton _, ?_⟩
    intro a ha hb
    simp only [List.map_cons, List.map_nil, List.mem_singleton] at hb
    obtain ⟨e, he, hfst⟩ := List.mem_map.mp ha
    have := hidlt e he
    omega
  · intro e he
    show e.1 < pp.nextId + 1
    rcases List.mem_append.mp he with h1 | h1
    · have := hidlt e h1
      omega
    · have : e = (pp.nextId, QTok.qstring s (s.length : Int)) := by simpa using h1
      rw [this]
      omega
  · intro hse
    exact absurd hse hne
  · show (pp.printstack.length : Int) + qsDelta (pp.queue ++ _) = (d : Int)
    rw [qsDelta_append, qsDelta_cons, qsDelta_nil]
    simp only [qdelta]
    omega
  · show EndsOk (pp.printstack.length) (pp.queue ++ _)
    exact DepthOk_snoc isEndTok _ _ pp.queue _ hends (by intro hcon; cases hcon)
  · show NlsOk (pp.printstack.length) (pp.queue ++ _)
    exact DepthOk_snoc isNlTok _ _ pp.queue _ hnls (by intro hcon; cases hcon)
  · intro b1 e b2 hsplit hneg
    have hnotin : e ∉ [(pp.nextId, QTok.qstring s (s.length : Int))] := by
      intro hmem
      have : e = (pp.nextId, QTok.qstring s (s.length : Int)) := by simpa using hmem
      rw [this] at hneg
      exact hnp hneg
    obtain ⟨m, hw, hb2⟩ := split_in_left pp.queue _ b1 b2 e hsplit hnotin
    have hold := hsuf b1 e m hw hneg
    rw [hb2, countPB_append, qsDelta_append, countPB_cons, qsDelta_cons]
    have hc0 : countPB ([] : List (Nat × QTok)) = 0 := rfl
    simp only [qsDelta_nil, hc0, qdelta]
    have : ¬ ((QTok.qstring s (s.length : Int)).size < 0 ∧
        isBeginTok (QTok.qstring s (s.length : Int)) = true) := by
      intro hcon
      exact hnp hcon.1
    rw [if_neg this]
    push_cast
    omega
  · intro j sl sz hmem
    rcases List.mem_append.mp hmem with h1 | h1
    · exact hstr j sl sz h1
    · have : (j, QTok.qstring sl sz) = (pp.nextId, QTok.qstring s (s.length : Int)) := by
        simpa using h1
      simp only [Prod.mk.injEq, QTok.qstring.injEq] at this
      rw [this.2.2]
      positivity
  · intro e he
    show 0 ≤ e.2.size + (pp.rightotal + (s.length : Int))
    rw [hpend] at he
    have := hres e he
    have hsl : (0 : Int) ≤ (s.length : Int) := by positivity
    omega
  · intro _
    show 1 ≤ pp.rightotal + (s.length : Int)
    have := hrt hne
    have hsl : (0 : Int) ≤ (s.length : Int) := by positivity
    omega

/-- Merging new text into a trailing string token (plus growing `rightotal`)
preserves the invariant. -/
lemma merge_string_inv (pp : PP) (d : Nat) (s s0 : List Char) (i : Nat) (sz : Int)
    (hne : pp.scanstack ≠ [])
    (hql : pp.queue.getLast? = some (i, QTok.qstring s0 sz)) (inv : Inv pp d) :
    Inv { pp with
            queue := pp.queue.dropLast
              ++ [(i, QTok.qstring (s0 ++ s) (sz + (s.length : Int)))],
            rightotal := pp.rightotal + (s.length : Int) } d := by
  obtain ⟨hscan, hnadj, hnodup, hidlt, hempty, hdepth, hends, hnls, hsuf, hstr,
    hres, hrt⟩ := inv
  obtain ⟨Q0, hq⟩ := getLast?_decomp pp.queue (i, QTok.qstring s0 sz) hql
  have hdl : pp.queue.dropLast = Q0 := by
    rw [hq]
    exact List.dropLast_concat
  have hsz : 0 ≤ sz := hstr i s0 sz (by rw [hq]; simp)
  have hnp0 : ¬ (QTok.qstring s0 sz).size < 0 := by
    simp only [QTok.size]
    omega
  have hnp : ¬ (QTok.qstring (s0 ++ s) (sz + (s.length : Int))).size < 0 := by
    simp only [QTok.size]
    have hsl : (0 : Int) ≤ (s.length : Int) := by positivity
    omega
  have hpendold : pend pp.queue = pend Q0 := by
    rw [hq, pend_append]
    unfold pend
    rw [List.filter_cons_of_neg (by simpa using hnp0)]
    simp
  have hpend : pend (Q0 ++ [(i, QTok.qstring (s0 ++ s) (sz + (s.length : Int)))])
      = pend Q0 := by
    rw [pend_append]
    unfold pend
    rw [List.filter_cons_of_neg (by simpa using hnp)]
    simp
  rw [hdl]
  refine ⟨?_, ?_, ?_, ?_, ?_, ?_, ?_, ?_, ?_, ?_, ?_, ?_⟩
  · show pp.scanstack = _
    rw [hpend, ← hpendold]
    exact hscan
  · show noAdjNl (kinds (pend _)) = true
    rw [hpend, ← hpendold]
    exact hnadj
  · show ((Q0 ++ _).map Prod.fst).Nodup
    have : (Q0 ++ [(i, QTok.qstring (s0 ++ s) (sz + (s.length : Int)))]).map Prod.fst
        = pp.queue.map Prod.fst := by
      rw [hq]
      simp
    rw [this]
    exact hnodup
  · intro e he
    show e.1 < pp.nextId
    rcases List.mem_append.mp he with h1 | h1
    · exact hidlt e (by rw [hq]; exact List.mem_append_left _ h1)
    · have : e = (i, QTok.qstring (s0 ++ s) (sz + (s.length : Int))) := by simpa using h1
      rw [this]
      exact hidlt (i, QTok.qstring s0 sz) (by rw [hq]; simp)
  · intro hse
    exact absurd hse hne
  · show (pp.printstack.length : Int) + qsDelta (Q0 ++ _) = (d : Int)
    rw [qsDelta_append, qsDelta_cons, qsDelta_nil]
    have : qsDelta pp.queue = qsDelta Q0 := by
      rw [hq, qsDelta_append, qsDelta_cons, qsDelta_nil]
      simp [qdelta]
    simp only [qdelta]
    omega
  · show EndsOk (pp.printstack.length) (Q0 ++ _)
    refine DepthOk_snoc isEndTok _ _ Q0 _ ?_ (by intro hcon; cases hcon)
    exact DepthOk_prefix isEndTok _ Q0 _ (by rw [← hq]; exact hends)
  · show NlsOk (pp.printstack.length) (Q0 ++ _)
    refine DepthOk_snoc isNlTok _ _ Q0 _ ?_ (by intro hcon; cases hcon)
    exact DepthOk_prefix isNlTok _ Q0 _ (by rw [← hq]; exact hnls)
  · intro b1 e b2 hsplit hneg
    have hnotin : e ∉ [(i, QTok.qstring (s0 ++ s) (sz + (s.length : Int)))] := by
      intro hmem
      have : e = (i, QTok.qstring (s0 ++ s) (sz + (s.length : Int))) := by simpa using hmem
      rw [this] at hneg
      exact hnp hneg
    obtain ⟨m, hw, hb2⟩ := split_in_left Q0 _ b1 b2 e hsplit hnotin
    have hold := hsuf b1 e (m ++ [(i, QTok.qstring s0 sz)])
      (by rw [hq, hw]; simp) hneg
    rw [countPB_append, qsDelta_append, countPB_cons, qsDelta_cons] at hold
    rw [hb2, countPB_append, qsDelta_append, countPB_cons, qsDelta_cons]
    have hc0 : countPB ([] : List (Nat × QTok)) = 0 := rfl
    simp only [qsDelta_nil, hc0, qdelta] at hold ⊢
    rw [if_neg (by intro hcon; exact hnp0 hcon.1)] at hold
    rw [if_neg (by intro hcon; exact hnp hcon.1)]
    push_cast at hold ⊢
    omega
  · intro j sl sz2 hmem
    rcases List.mem_append.mp hmem with h1 | h1
    · exact hstr j sl sz2 (by rw [hq]; exact List.mem_append_left _ h1)
    · have : (j, QTok.qstring sl sz2)
          = (i, QTok.qstring (s0 ++ s) (sz + (s.length : Int))) := by
        simpa using h1
      simp only [Prod.mk.injEq, QTok.qstring.injEq] at this
      rw [this.2.2]
      have hsl : (0 : Int) ≤ (s.length : Int) := by positivity
      omega
  · intro e he
    show 0 ≤ e.2.size + (pp.rightotal + (s.length : Int))
    rw [hpend, ← hpendold] at he
    have := hres e he
    have hsl : (0 : Int) ≤ (s.length : Int) := by positivity
    omega
  · intro _
    show 1 ≤ pp.rightotal + (s.length : Int)
    have := hrt hne
    have hsl : (0 : Int) ≤ (s.length : Int) := by positivity
    omega

/-- `PrettyPrinter.write` preserves the invariant. -/
lemma ppwrite_inv (pp pp' : PP) (d : Nat) (s : List Char) (inv : Inv pp d)
    (h : ppwrite pp s = .ok pp') : Inv pp' d := by
  rcases hss : pp.scanstack with _ | ⟨top, rest⟩
  · simp only [ppwrite, hss] at h
    simp only [Except.ok.injEq] at h
    obtain ⟨hscan, hnadj, hnodup, hidlt, hempty, hdepth, hends, hnls, hsuf, hstr,
      hres, hrt⟩ := inv
    have hq : pp.queue = [] := hempty hss
    obtain ⟨hfq, hfs, hfp, hfl, hfr, hfn⟩ := pwrite_frame (s.length + 1) s pp
    subst h
    refine ⟨?_, ?_, ?_, ?_, ?_, ?_, ?_, ?_, ?_, ?_, ?_, ?_⟩
    · rw [hfs, hfq, hq, hss]
      rfl
    · rw [hfq, hq]
      rfl
    · rw [hfq, hq]
      exact List.nodup_nil
    · intro e he
      rw [hfq, hq] at he
      cases he
    · intro _
      rw [hfq, hq]
    · rw [hfp, hfq]
      exact hdepth
    · rw [show (pwrite (s.length + 1) pp s).printstack = pp.printstack from hfp, hfq]
      exact hends
    · rw [show (pwrite (s.length + 1) pp s).printstack = pp.printstack from hfp, hfq]
      exact hnls
    · rw [hfq]
      exact hsuf
    · rw [hfq]
      exact hstr
    · intro e he
      rw [hfq] at he
      rw [hfr]
      exact hres e he
    · intro hne
      rw [hfr]
      rw [hfs] at hne
      exact hrt hne
  · have hne : pp.scanstack ≠ [] := by
      rw [hss]
      intro hcon
      cases hcon
    rcases hql : pp.queue.getLast? with _ | ⟨i, t⟩
    · simp only [ppwrite, hss, hql] at h
      cases h
    · cases t with
      | qstring s0 sz =>
        simp only [ppwrite, hss, hql] at h
        have hinv := merge_string_inv pp d s s0 i sz hne hql inv
        rw [hss] at hinv
        exact forceLoop_inv _ _ pp' d hinv h
      | qbegin p0 pl0 sz =>
        simp only [ppwrite, hss, hql] at h
        have hinv := push_string_inv pp d s hne inv
        rw [hss] at hinv
        exact forceLoop_inv _ _ pp' d hinv h
      | qend sfx =>
        simp only [ppwrite, hss, hql] at h
        have hinv := push_string_inv pp d s hne inv
        rw [hss] at hinv
        exact forceLoop_inv _ _ pp' d hinv h
      | qnewline k sz =>
        simp only [ppwrite, hss, hql] at h
        have hinv := push_string_inv pp d s hne inv
        rw [hss] at hinv
        exact forceLoop_inv _ _ pp' d hinv h


lemma snoc_split {α : Type} (w : List α) (x e : α) (q1 q2 : List α)
    (h : w ++ [x] = q1 ++ e :: q2) :
    (q1 = w ∧ e = x ∧ q2 = []) ∨ ∃ m, w = q1 ++ e :: m ∧ q2 = m ++ [x] := by
  rcases (List.append_eq_append_iff.mp h) with ⟨a2, hq1, hx⟩ | ⟨c2, hw, hmid⟩
  · cases a2 with
    | nil =>
      simp only [List.nil_append, List.cons.injEq] at hx
      rw [List.append_nil] at hq1
      exact Or.inl ⟨hq1, hx.1.symm, hx.2.symm⟩
    | cons y ys =>
      simp only [List.cons_append, List.cons.injEq] at hx
      obtain ⟨rfl, hx2⟩ := hx
      simp at hx2
  · cases c2 with
    | nil =>
      rw [List.nil_append] at hmid
      simp only [List.cons.injEq] at hmid
      rw [List.append_nil] at hw
      exact Or.inl ⟨hw.symm, hmid.1, hmid.2⟩
    | cons z zs =>
      simp only [List.cons_append, List.cons.injEq] at hmid
      obtain ⟨rfl, rfl⟩ := hmid
      exact Or.inr ⟨zs, hw, rfl⟩

lemma noAdjNl_snoc_false : ∀ l : List Bool, noAdjNl l = true →
    noAdjNl (l ++ [false]) = true := by
  intro l
  induction l with
  | nil =>
    intro _
    rfl
  | cons a l ih =>
    intro h
    cases l with
    | nil => simp [noAdjNl]
    | cons b r =>
      simp only [noAdjNl, Bool.and_eq_true] at h
      rw [List.cons_append]
      have := ih h.2
      rw [List.cons_append] at this
      simp only [noAdjNl, Bool.and_eq_true]
      exact ⟨h.1, this⟩

lemma noAdjNl_snoc_true : ∀ l : List Bool, noAdjNl l = true →
    l.getLast? ≠ some true → noAdjNl (l ++ [true]) = true := by
  intro l
  induction l with
  | nil =>
    intro _ _
    rfl
  | cons a l ih =>
    intro h hlast
    cases l with
    | nil =>
      have ha : a = false := by
        cases a
        · rfl
        · exact absurd rfl hlast
      rw [ha]
      rfl
    | cons b r =>
      simp only [noAdjNl, Bool.and_eq_true] at h
      rw [List.cons_append]
      have := ih h.2 (by rw [List.getLast?_cons_cons] at hlast; exact hlast)
      rw [List.cons_append] at this
      simp only [noAdjNl, Bool.and_eq_true]
      exact ⟨h.1, this⟩

lemma kinds_append (a b : List (Nat × QTok)) :
    kinds (a ++ b) = kinds a ++ kinds b := by
  simp [kinds]

/-- Pushing a pending `Begin` (the shared tail of `begin`) moves the
invariant from depth `d` to depth `d + 1`. -/
lemma ppbeginPush_inv (pp : PP) (d : Nat) (p : List Char) (pl : Bool)
    (inv : Inv pp d) (hrt1 : 1 ≤ pp.rightotal) :
    Inv (ppbeginPush pp p pl) (d + 1) := by
  obtain ⟨hscan, hnadj, hnodup, hidlt, hempty, hdepth, hends, hnls, hsuf, hstr,
    hres, hrt⟩ := inv
  have hpneg : (QTok.qbegin p pl (-pp.rightotal)).size < 0 := by
    simp only [QTok.size]
    omega
  have hpend : pend (pp.queue ++ [(pp.nextId, QTok.qbegin p pl (-pp.rightotal))])
      = pend pp.queue ++ [(pp.nextId, QTok.qbegin p pl (-pp.rightotal))] := by
    rw [pend_append]
    unfold pend
    rw [List.filter_cons_of_pos (by simpa using hpneg)]
    rfl
  unfold ppbeginPush
  refine ⟨?_, ?_, ?_, ?_, ?_, ?_, ?_, ?_, ?_, ?_, ?_, ?_⟩
  · show pp.nextId :: pp.scanstack = _
    rw [hpend, List.map_append, List.reverse_append]
    simp only [List.map_cons, List.map_nil, List.reverse_cons, List.reverse_nil]
    rw [hscan]
    rfl
  · show noAdjNl (kinds (pend _)) = true
    rw [hpend, kinds_append]
    exact noAdjNl_snoc_false _ hnadj
  · show ((pp.queue ++ _).map Prod.fst).Nodup
    rw [List.map_append, List.nodup_append]
    refine ⟨hnodup, List.nodup_singleton _, ?_⟩
    intro a ha hb
    simp only [List.map_cons, List.map_nil, List.mem_singleton] at hb
    obtain ⟨e, he, hfst⟩ := List.mem_map.mp ha
    have := hidlt e he
    omega
  · intro e he
    show e.1 < pp.nextId + 1
    rcases List.mem_append.mp he with h1 | h1
    · have := hidlt e h1
      omega
    · have : e = (pp.nextId, QTok.qbegin p pl (-pp.rightotal)) := by simpa using h1
      rw [this]
      omega
  · intro hse
    cases hse
  · show (pp.printstack.length : Int) + qsDelta (pp.queue ++ _) = ((d + 1 : Nat) : Int)
    rw [qsDelta_append, qsDelta_cons, qsDelta_nil]
    simp only [qdelta]
    push_cast
    omega
  · show EndsOk (pp.printstack.length) (pp.queue ++ _)
    exact DepthOk_snoc isEndTok _ _ pp.queue _ hends (by intro hcon; cases hcon)
  · show NlsOk (pp.printstack.length) (pp.queue ++ _)
    exact DepthOk_snoc isNlTok _ _ pp.queue _ hnls (by intro hcon; cases hcon)
  · intro b1 e b2 hsplit hneg
    rcases snoc_split pp.queue (pp.nextId, QTok.qbegin p pl (-pp.rightotal)) e b1 b2
        hsplit with ⟨hb1, he, hb2⟩ | ⟨m, hw, hb2⟩
    · rw [hb2]
      simp [countPB, qsDelta]
    · have hold := hsuf b1 e m hw hneg
      rw [hb2, countPB_append, qsDelta_append, countPB_cons, qsDelta_cons]
      have hc0 : countPB ([] : List (Nat × QTok)) = 0 := rfl
      simp only [qsDelta_nil, hc0, qdelta]
      rw [if_pos ⟨hpneg, rfl⟩]
      push_cast
      omega
  · intro j sl sz hmem
    rcases List.mem_append.mp hmem with h1 | h1
    · exact hstr j sl sz h1
    · simp at h1
  · intro e he
    show 0 ≤ e.2.size + (pp.rightotal + (p.length : Int))
    rw [hpend] at he
    have hpl : (0 : Int) ≤ (p.length : Int) := by positivity
    rcases List.mem_append.mp he with h1 | h1
    · have := hres e h1
      omega
    · have : e = (pp.nextId, QTok.qbegin p pl (-pp.rightotal)) := by simpa using h1
      rw [this]
      simp only [QTok.size]
      omega
  · intro _
    show 1 ≤ pp.rightotal + (p.length : Int)
    have hpl : (0 : Int) ≤ (p.length : Int) := by positivity
    omega

/-- `PrettyPrinter.begin` moves the invariant from depth `d` to `d + 1`. -/
lemma ppbegin_inv (pp pp' : PP) (d : Nat) (p : List Char) (pl : Bool) (inv : Inv pp d)
    (h : ppbegin pp p pl = .ok pp') : Inv pp' (d + 1) := by
  have hmain : ppbegin.ppbeginAux pp p pl = .ok pp' := by
    unfold ppbegin at h
    rcases hpl : pp.printLevel with _ | lv <;> simp only [hpl] at h
    · exact h
    · by_cases hlv : lv ≤ pp.level
      · rw [if_pos hlv] at h
        cases h
      · rw [if_neg hlv] at h
        exact h
  rcases hss : pp.scanstack with _ | ⟨top, rest⟩
  · simp only [ppbegin.ppbeginAux, hss] at hmain
    by_cases hqe : pp.queue.isEmpty
    · rw [if_pos hqe] at hmain
      simp only [Except.ok.injEq] at hmain
      have hq : pp.queue = [] := by
        cases hq0 : pp.queue
        · rfl
        · rw [hq0] at hqe
          cases hqe
      obtain ⟨hscan, hnadj, hnodup, hidlt, hempty, hdepth, hends, hnls, hsuf, hstr,
        hres, hrt⟩ := inv
      have hinv1 : Inv { pp with leftotal := 1, rightotal := 1 } d := by
        refine ⟨hscan, hnadj, hnodup, hidlt, hempty, hdepth, hends, hnls, hsuf,
          hstr, ?_, ?_⟩
        · intro e he
          rw [show ({ pp with leftotal := 1, rightotal := 1 } : PP).queue
              = pp.queue from rfl, hq] at he
          cases he
        · intro hne
          exact absurd hss (by
            rw [show ({ pp with leftotal := 1, rightotal := 1 } : PP).scanstack
                = pp.scanstack from rfl] at hne
            exact hne)
      have hpush := ppbeginPush_inv { pp with leftotal := 1, rightotal := 1 } d p pl
        hinv1 (by norm_num)
      rw [hss] at hpush
      rw [hmain] at hpush
      exact hpush
    · rw [if_neg hqe] at hmain
      cases hmain
  · simp only [ppbegin.ppbeginAux, hss] at hmain
    simp only [Except.ok.injEq] at hmain
    have hpush := ppbeginPush_inv pp d p pl inv (inv.hrt (by rw [hss]; intro hcon; cases hcon))
    rw [hmain] at hpush
    exact hpush


lemma addSize_size_nl (t : QTok) (dd : Int) (h : isNlTok t = true) :
    (t.addSize dd).size = t.size + dd := by
  cases t <;> first
    | rfl
    | cases h

lemma map_eq_snoc {α β : Type} (f : α → β) :
    ∀ (l : List α) (L0 : List β) (x : β), l.map f = L0 ++ [x] →
      ∃ P e, l = P ++ [e] ∧ P.map f = L0 ∧ f e = x := by
  intro l
  induction l with
  | nil =>
    intro L0 x h
    rw [List.map_nil] at h
    exact absurd h.symm (by simp)
  | cons a l ih =>
    intro L0 x h
    rw [List.map_cons] at h
    cases L0 with
    | nil =>
      simp only [List.nil_append, List.cons.injEq] at h
      obtain ⟨hfa, hml⟩ := h
      have hl : l = [] := List.map_eq_nil_iff.mp hml
      exact ⟨[], a, by rw [hl, List.nil_append], rfl, hfa⟩
    | cons b L0 =>
      simp only [List.cons_append, List.cons.injEq] at h
      obtain ⟨hfa, hml⟩ := h
      obtain ⟨P, e, hl, hmp, hfe⟩ := ih L0 x hml
      exact ⟨a :: P, e, by rw [hl]; rfl, by rw [List.map_cons, hmp, hfa], hfe⟩

lemma noAdjNl_append_left : ∀ (a b : List Bool), noAdjNl (a ++ b) = true →
    noAdjNl a = true := by
  intro a
  induction a with
  | nil =>
    intro b _
    rfl
  | cons x a ih =>
    intro b h
    cases a with
    | nil => rfl
    | cons y a2 =>
      rw [List.cons_append] at h
      simp only [noAdjNl, Bool.and_eq_true] at h ⊢
      exact ⟨h.1, ih b h.2⟩

lemma noAdjNl_snoc_true_last : ∀ l : List Bool, noAdjNl (l ++ [true]) = true →
    l.getLast? ≠ some true := by
  intro l
  induction l with
  | nil =>
    intro _ hcon
    cases hcon
  | cons a l ih =>
    intro h
    cases l with
    | nil =>
      simp only [List.cons_append, List.nil_append, noAdjNl, Bool.and_eq_true,
        Bool.not_eq_true', Bool.and_eq_false_iff] at h
      rcases h.1 with ha | hcon
      · rw [ha]
        simp
      · cases hcon
    | cons b r =>
      rw [List.cons_append] at h
      simp only [noAdjNl, Bool.and_eq_true] at h
      have := ih h.2
      rw [List.getLast?_cons_cons]
      exact this

/-- Pushing a pending conditional newline (the shared tail of `newline`)
preserves the invariant at positive depth. -/
lemma ppnewlinePush_inv (pp : PP) (d : Nat) (k : NlKind)
    (hscan : pp.scanstack = ((pend pp.queue).map Prod.fst).reverse)
    (hnadj : noAdjNl (kinds (pend pp.queue)) = true)
    (hlast : (kinds (pend pp.queue)).getLast? ≠ some true)
    (hnodup : (pp.queue.map Prod.fst).Nodup)
    (hidlt : ∀ e ∈ pp.queue, e.1 < pp.nextId)
    (hdepth : (pp.printstack.length : Int) + qsDelta pp.queue = (d : Int))
    (hends : EndsOk (pp.printstack.length) pp.queue)
    (hnls : NlsOk (pp.printstack.length) pp.queue)
    (hsuf : SufOk pp.queue)
    (hstr : StrOk pp.queue)
    (hres : ∀ e ∈ pend pp.queue, 0 ≤ e.2.size + pp.rightotal)
    (hrt1 : 1 ≤ pp.rightotal) (hd : 1 ≤ d) :
    Inv (ppnewlinePush pp k) d := by
  have hpneg : (QTok.qnewline k (-pp.rightotal)).size < 0 := by
    simp only [QTok.size]
    omega
  have hpend : pend (pp.queue ++ [(pp.nextId, QTok.qnewline k (-pp.rightotal))])
      = pend pp.queue ++ [(pp.nextId, QTok.qnewline k (-pp.rightotal))] := by
    rw [pend_append]
    unfold pend
    rw [List.filter_cons_of_pos (by simpa using hpneg)]
    rfl
  unfold ppnewlinePush
  refine ⟨?_, ?_, ?_, ?_, ?_, ?_, ?_, ?_, ?_, ?_, ?_, ?_⟩
  · show pp.nextId :: pp.scanstack = _
    rw [hpend, List.map_append, List.reverse_append]
    simp only [List.map_cons, List.map_nil, List.reverse_cons, List.reverse_nil]
    rw [hscan]
    rfl
  · show noAdjNl (kinds (pend _)) = true
    rw [hpend, kinds_append]
    exact noAdjNl_snoc_true _ hnadj hlast
  · show ((pp.queue ++ _).map Prod.fst).Nodup
    rw [List.map_append, List.nodup_append]
    refine ⟨hnodup, List.nodup_singleton _, ?_⟩
    intro a ha hb
    simp only [List.map_cons, List.map_nil, List.mem_singleton] at hb
    obtain ⟨e, he, hfst⟩ := List.mem_map.mp ha
    have := hidlt e he
    omega
  · intro e he
    show e.1 < pp.nextId + 1
    rcases List.mem_append.mp he with h1 | h1
    · have := hidlt e h1
      omega
    · have : e = (pp.nextId, QTok.qnewline k (-pp.rightotal)) := by simpa using h1
      rw [this]
      omega
  · intro hse
    cases hse
  · show (pp.printstack.length : Int) + qsDelta (pp.queue ++ _) = (d : Int)
    rw [qsDelta_append, qsDelta_cons, qsDelta_nil]
    simp only [qdelta]
    omega
  · show EndsOk (pp.printstack.length) (pp.queue ++ _)
    exact DepthOk_snoc isEndTok _ _ pp.queue _ hends (by intro hcon; cases hcon)
  · show NlsOk (pp.printstack.length) (pp.queue ++ _)
    refine DepthOk_snoc isNlTok _ _ pp.queue _ hnls ?_
    intro _
    omega
  · intro b1 e b2 hsplit hneg
    rcases snoc_split pp.queue (pp.nextId, QTok.qnewline k (-pp.rightotal)) e b1 b2
        hsplit with ⟨hb1, he, hb2⟩ | ⟨m, hw, hb2⟩
    · rw [hb2]
      simp [countPB, qsDelta]
    · have hold := hsuf b1 e m hw hneg
      rw [hb2, countPB_append, qsDelta_append, countPB_cons, qsDelta_cons]
      have hc0 : countPB ([] : List (Nat × QTok)) = 0 := rfl
      simp only [qsDelta_nil, hc0, qdelta]
      rw [if_neg (by intro hcon; cases hcon.2)]
      push_cast
      omega
  · intro j sl sz hmem
    rcases List.mem_append.mp hmem with h1 | h1
    · exact hstr j sl sz h1
    · simp at h1
  · intro e he
    show 0 ≤ e.2.size + pp.rightotal
    rw [hpend] at he
    rcases List.mem_append.mp he with h1 | h1
    · exact hres e h1
    · have : e = (pp.nextId, QTok.qnewline k (-pp.rightotal)) := by simpa using h1
      rw [this]
      simp only [QTok.size]
      omega
  · intro _
    exact hrt1

/-- `PrettyPrinter.newline` preserves the invariant at positive depth. -/
lemma ppnewline_inv (pp pp' : PP) (d : Nat) (k : NlKind) (inv : Inv pp d)
    (hd : 1 ≤ d) (h : ppnewline pp k = .ok pp') : Inv pp' d := by
  obtain ⟨hscan, hnadj, hnodup, hidlt, hempty, hdepth, hends, hnls, hsuf, hstr,
    hres, hrt⟩ := inv
  rcases hss : pp.scanstack with _ | ⟨topId, rest⟩
  · simp only [ppnewline, hss] at h
    by_cases hqe : pp.queue.isEmpty
    · rw [if_pos hqe] at h
      simp only [Except.ok.injEq] at h
      have hq : pp.queue = [] := by
        cases hq0 : pp.queue
        · rfl
        · rw [hq0] at hqe
          cases hqe
      have hpush := ppnewlinePush_inv { pp with leftotal := 1, rightotal := 1 } d k
        (by show pp.scanstack = ((pend pp.queue).map Prod.fst).reverse; exact hscan)
        hnadj
        (by show (kinds (pend pp.queue)).getLast? ≠ some true
            rw [hq]
            intro hcon
            cases hcon)
        hnodup hidlt hdepth hends hnls hsuf hstr
        (by intro e he
            rw [show ({ pp with leftotal := 1, rightotal := 1 } : PP).queue
                = pp.queue from rfl, hq] at he
            cases he)
        (by norm_num) hd
      rw [hss] at hpush
      rw [h] at hpush
      exact hpush
    · rw [if_neg hqe] at h
      cases h
  · have hrt1 : 1 ≤ pp.rightotal := hrt (by rw [hss]; intro hcon; cases hcon)
    have hmap : (pend pp.queue).map Prod.fst = rest.reverse ++ [topId] := by
      have : pp.scanstack.reverse = ((pend pp.queue).map Prod.fst).reverse.reverse := by
        rw [hscan]
      rw [List.reverse_reverse, hss] at this
      rw [← this]
      rw [List.reverse_cons]
    obtain ⟨P, etop, hpq, hmP, hfst⟩ :=
      map_eq_snoc Prod.fst (pend pp.queue) rest.reverse topId hmap
    obtain ⟨topId2, ttop⟩ := etop
    have htopeq : topId = topId2 := hfst.symm
    subst htopeq
    have httneg : ttop.size < 0 := by
      have hmem : (topId, ttop) ∈ pend pp.queue := by
        rw [hpq]
        simp
      simpa using (List.mem_filter.mp hmem).2
    have hp0f : pp.queue.filter (fun e => e.2.size < 0) = P ++ [(topId, ttop)] := hpq
    obtain ⟨u1, u2, hqd, hu1p, hu2p⟩ :=
      filter_last_decomp _ pp.queue P (topId, ttop) hp0f
    have hnodup2 := hqd ▸ hnodup
    obtain ⟨hne1, hne2⟩ := nodup_split_ne u1 topId ttop u2 hnodup2
    have hnlid : isNewlineId pp.queue topId = isNlTok ttop := by
      rw [hqd]
      exact isNewlineId_decomp u1 u2 topId ttop hne1
    have hklast : (kinds (pend pp.queue)).getLast? = some (isNlTok ttop) := by
      rw [hpq, kinds_append]
      exact List.getLast?_concat _
    simp only [ppnewline, hss] at h
    by_cases hnl : isNewlineId pp.queue topId = true
    · rw [if_pos hnl] at h
      simp only [Except.ok.injEq] at h
      have httnl : isNlTok ttop = true := by
        rw [← hnlid]
        exact hnl
      have hadd : addSizeId pp.queue topId pp.rightotal
          = u1 ++ (topId, ttop.addSize pp.rightotal) :: u2 := by
        rw [hqd]
        exact addSizeId_decomp u1 u2 topId ttop pp.rightotal hne1 hne2
      have hresolved : ¬ (ttop.addSize pp.rightotal).size < 0 := by
        rw [addSize_size_nl ttop pp.rightotal httnl]
        have := hres (topId, ttop) (by rw [hpq]; simp)
        simp only at this
        omega
      have hpendm : pend (addSizeId pp.queue topId pp.rightotal) = P := by
        rw [hadd, pend_append]
        unfold pend
        rw [List.filter_cons_of_neg (by simpa using hresolved)]
        have h1 : List.filter (fun e => decide (e.2.size < 0)) u1 = P := hu1p
        have h2 : List.filter (fun e => decide (e.2.size < 0)) u2 = [] := hu2p
        rw [h1, h2, List.append_nil]
      have hmPrev : P.map Prod.fst = rest.reverse := hmP
      have hfun : ∀ e : Nat × QTok,
          qdelta ((if e.1 = topId then (e.1, e.2.addSize pp.rightotal) else e)).2
            = qdelta e.2 := by
        intro e
        by_cases hei : e.1 = topId
        · rw [if_pos hei]
          exact addSize_qdelta e.2 pp.rightotal
        · rw [if_neg hei]
      have hpush := ppnewlinePush_inv
        { pp with queue := addSizeId pp.queue topId pp.rightotal, scanstack := rest } d k
        (by show rest = ((pend (addSizeId pp.queue topId pp.rightotal)).map Prod.fst).reverse
            rw [hpendm, hmPrev, List.reverse_reverse])
        (by show noAdjNl (kinds (pend (addSizeId pp.queue topId pp.rightotal))) = true
            rw [hpendm]
            have := hnadj
            rw [hpq, kinds_append] at this
            exact noAdjNl_append_left _ _ this)
        (by show (kinds (pend (addSizeId pp.queue topId pp.rightotal))).getLast? ≠ some true
            rw [hpendm]
            have := hnadj
            rw [hpq, kinds_append] at this
            have hkt : kinds [(topId, ttop)] = [true] := by
              simp [kinds, httnl]
            rw [hkt] at this
            exact noAdjNl_snoc_true_last _ this)
        (by show ((addSizeId pp.queue topId pp.rightotal).map Prod.fst).Nodup
            unfold addSizeId
            rw [mapfst_map _ (by
              intro e
              by_cases hei : e.1 = topId
              · rw [if_pos hei]
              · rw [if_neg hei])]
            exact hnodup)
        (by intro e he
            show e.1 < pp.nextId
            obtain ⟨a, ha, hfa⟩ := List.mem_map.mp he
            have : e.1 = a.1 := by
              by_cases hei : a.1 = topId
              · rw [if_pos hei] at hfa
                rw [← hfa]
              · rw [if_neg hei] at hfa
                rw [← hfa]
            rw [this]
            exact hidlt a ha)
        (by show (pp.printstack.length : Int)
              + qsDelta (addSizeId pp.queue topId pp.rightotal) = (d : Int)
            unfold addSizeId
            rw [qsDelta_map _ hfun]
            exact hdepth)
        (by show EndsOk (pp.printstack.length) (addSizeId pp.queue topId pp.rightotal)
            unfold addSizeId
            refine DepthOk_map isEndTok _ hfun ?_ pp.queue _ hends
            intro e
            by_cases hei : e.1 = topId
            · rw [if_pos hei]
              exact addSize_isEnd e.2 pp.rightotal
            · rw [if_neg hei])
        (by show NlsOk (pp.printstack.length) (addSizeId pp.queue topId pp.rightotal)
            unfold addSizeId
            refine DepthOk_map isNlTok _ hfun ?_ pp.queue _ hnls
            intro e
            by_cases hei : e.1 = topId
            · rw [if_pos hei]
              exact addSize_isNl e.2 pp.rightotal
            · rw [if_neg hei])
        (by show SufOk (addSizeId pp.queue topId pp.rightotal)
            intro b1 e b2 hsplit hneg
            rw [hadd] at hsplit
            have hnotin : e ∉ (topId, ttop.addSize pp.rightotal) :: u2 := by
              intro hmem
              rcases List.mem_cons.mp hmem with h1 | h1
              · rw [h1] at hneg
                exact hresolved hneg
              · exact pend_nil_no u2 hu2p e h1 hneg
            obtain ⟨m, hu1m, hb2⟩ := split_in_left u1 _ b1 b2 e hsplit hnotin
            have hold := hsuf b1 e (m ++ (topId, ttop) :: u2)
              (by rw [hqd, hu1m]; simp) hneg
            rw [countPB_append, qsDelta_append, countPB_cons, qsDelta_cons] at hold
            rw [hb2, countPB_append, qsDelta_append, countPB_cons, qsDelta_cons]
            have hnlb : isBeginTok ttop = false := by
              cases ttop <;> first
                | rfl
                | cases httnl
            have hnlb2 : isBeginTok (ttop.addSize pp.rightotal) = false := by
              cases ttop <;> first
                | rfl
                | cases httnl
            rw [if_neg (by intro hcon; rw [hnlb] at hcon; cases hcon.2)] at hold
            rw [if_neg (by intro hcon; rw [hnlb2] at hcon; cases hcon.2)]
            rw [addSize_qdelta ttop pp.rightotal]
            omega)
        (by intro j sl sz hmem
            obtain ⟨a, ha, hfa⟩ := List.mem_map.mp hmem
            by_cases hei : a.1 = topId
            · rw [if_pos hei] at hfa
              obtain ⟨ja, ta⟩ := a
              simp only [Prod.mk.injEq] at hfa
              obtain ⟨hj, hsz⟩ := hfa
              cases ta with
              | qstring s0 sz0 =>
                simp only [QTok.addSize, QTok.qstring.injEq] at hsz
                have := hstr ja s0 sz0 ha
                omega
              | qbegin p0 pl0 sz0 => simp [QTok.addSize] at hsz
              | qend s0 => simp [QTok.addSize] at hsz
              | qnewline k0 sz0 => simp [QTok.addSize] at hsz
            · rw [if_neg hei] at hfa
              rw [hfa] at ha
              exact hstr j sl sz ha)
        (by intro e he
            show 0 ≤ e.2.size + pp.rightotal
            rw [hpendm] at he
            exact hres e (by rw [hpq]; exact List.mem_append_left _ he))
        hrt1 hd
      rw [h] at hpush
      exact hpush
    · rw [if_neg hnl] at h
      simp only [Except.ok.injEq] at h
      have hpush := ppnewlinePush_inv pp d k hscan hnadj
        (by rw [hklast]
            intro hcon
            simp only [Option.some.injEq] at hcon
            exact hnl (by rw [hnlid, hcon]))
        hnodup hidlt hdepth hends hnls hsuf hstr hres hrt1 hd
      rw [h] at hpush
      exact hpush


lemma pending_not_end (t : QTok) (h : t.size < 0) : isEndTok t = false := by
  cases t <;> simp_all [QTok.size, isEndTok]

lemma addSize_size_ne (t : QTok) (dd : Int) (h : isEndTok t = false) :
    (t.addSize dd).size = t.size + dd := by
  cases t <;> simp_all [QTok.addSize, QTok.size, isEndTok]

lemma pending_kind (t : QTok) (hneg : t.size < 0) (hs : ∀ s sz, t = QTok.qstring s sz → 0 ≤ sz)
    (hnl : isNlTok t = false) : isBeginTok t = true ∧ qdelta t = 1 := by
  cases t with
  | qstring s sz =>
    have := hs s sz rfl
    simp only [QTok.size] at hneg
    omega
  | qbegin p pl sz => exact ⟨rfl, rfl⟩
  | qend s => simp [QTok.size] at hneg
  | qnewline k sz => cases hnl

lemma nl_not_begin (t : QTok) (h : isNlTok t = true) : isBeginTok t = false := by
  cases t <;> first
    | rfl
    | cases h

lemma nl_qdelta (t : QTok) (h : isNlTok t = true) : qdelta t = 0 := by
  cases t <;> first
    | rfl
    | cases h

/-- `PrettyPrinter.end` moves the invariant from depth `d` down to `d - 1`. -/
lemma ppend_inv (pp pp' : PP) (d : Nat) (sfx : List Char) (inv : Inv pp d)
    (hd : 1 ≤ d) (h : ppend pp sfx = .ok pp') : Inv pp' (d - 1) := by
  obtain ⟨hscan, hnadj, hnodup, hidlt, hempty, hdepth, hends, hnls, hsuf, hstr,
    hres, hrt⟩ := inv
  rcases hss : pp.scanstack with _ | ⟨topId, rest⟩
  · -- empty scan stack: the `End` token is output immediately
    simp only [ppend, hss] at h
    simp only [Except.ok.injEq] at h
    have hq : pp.queue = [] := hempty hss
    obtain ⟨hfq, hfs, hfl, hfr, hfn, hfp⟩ := endOutput_frame sfx pp
    have hplen : (pp.printstack.length : Int) = (d : Int) := by
      have := hdepth
      rw [hq, qsDelta_nil] at this
      omega
    subst h
    refine ⟨?_, ?_, ?_, ?_, ?_, ?_, ?_, ?_, ?_, ?_, ?_, ?_⟩
    · rw [hfs, hfq, hq, hss]
      rfl
    · rw [hfq, hq]
      rfl
    · rw [hfq, hq]
      exact List.nodup_nil
    · intro e he
      rw [hfq, hq] at he
      cases he
    · intro _
      rw [hfq, hq]
    · rw [hfp, hfq, hq, qsDelta_nil, List.length_tail]
      push_cast [hd]
      omega
    · intro q1 i t q2 hsplit
      rw [hfq, hq] at hsplit
      simp at hsplit
    · intro q1 i t q2 hsplit
      rw [hfq, hq] at hsplit
      simp at hsplit
    · intro q1 e q2 hsplit
      rw [hfq, hq] at hsplit
      simp at hsplit
    · intro i s sz hmem
      rw [hfq, hq] at hmem
      cases hmem
    · intro e he
      rw [hfq, hq] at he
      cases he
    · intro hne
      rw [hfs, hss] at hne
      exact absurd rfl hne
  · -- a pending token is on the scan stack
    have hrt1 : 1 ≤ pp.rightotal := hrt (by rw [hss]; intro hcon; cases hcon)
    have hsfx : (0 : Int) ≤ (sfx.length : Int) := by positivity
    have hmap : (pend pp.queue).map Prod.fst = rest.reverse ++ [topId] := by
      have : pp.scanstack.reverse = ((pend pp.queue).map Prod.fst).reverse.reverse := by
        rw [hscan]
      rw [List.reverse_reverse, hss] at this
      rw [← this]
      rw [List.reverse_cons]
    obtain ⟨P, etop, hpq, hmP, hfst⟩ :=
      map_eq_snoc Prod.fst (pend pp.queue) rest.reverse topId hmap
    obtain ⟨topId2, ttop⟩ := etop
    have htopeq : topId = topId2 := hfst.symm
    subst htopeq
    have httneg : ttop.size < 0 := by
      have hmem : (topId, ttop) ∈ pend pp.queue := by
        rw [hpq]
        simp
      simpa using (List.mem_filter.mp hmem).2
    have hp0f : pp.queue.filter (fun e => e.2.size < 0) = P ++ [(topId, ttop)] := hpq
    obtain ⟨u1, u2, hqd, hu1p, hu2p⟩ :=
      filter_last_decomp _ pp.queue P (topId, ttop) hp0f
    have hnodup2 := hqd ▸ hnodup
    obtain ⟨hne1, hne2⟩ := nodup_split_ne u1 topId ttop u2 hnodup2
    have hidtop : topId < pp.nextId := hidlt (topId, ttop) (by rw [hqd]; simp)
    have httres : 0 ≤ ttop.size + pp.rightotal :=
      hres (topId, ttop) (by rw [hpq]; simp)
    have httnotend : isEndTok ttop = false := pending_not_end ttop httneg
    have hne2e : ∀ e ∈ u2 ++ [(pp.nextId, QTok.qend sfx)], e.1 ≠ topId := by
      intro e he
      rcases List.mem_append.mp he with h1 | h1
      · exact hne2 e h1
      · have : e = (pp.nextId, QTok.qend sfx) := by simpa using h1
        rw [this]
        simp only
        omega
    have hq2 : pp.queue ++ [(pp.nextId, QTok.qend sfx)]
        = u1 ++ (topId, ttop) :: (u2 ++ [(pp.nextId, QTok.qend sfx)]) := by
      rw [hqd]
      simp
    have hadd1 : addSizeId (pp.queue ++ [(pp.nextId, QTok.qend sfx)]) topId
          (pp.rightotal + (sfx.length : Int))
        = u1 ++ (topId, ttop.addSize (pp.rightotal + (sfx.length : Int)))
            :: (u2 ++ [(pp.nextId, QTok.qend sfx)]) := by
      rw [hq2]
      exact addSizeId_decomp u1 (u2 ++ [(pp.nextId, QTok.qend sfx)]) topId ttop _
        hne1 hne2e
    have hresolved : ¬ (ttop.addSize (pp.rightotal + (sfx.length : Int))).size < 0 := by
      rw [addSize_size_ne ttop _ httnotend]
      omega
    have hqendnp : ¬ (QTok.qend sfx).size < 0 := by
      simp [QTok.size]
    have hpend3 : pend (addSizeId (pp.queue ++ [(pp.nextId, QTok.qend sfx)]) topId
        (pp.rightotal + (sfx.length : Int))) = P := by
      rw [hadd1, pend_append]
      unfold pend
      rw [List.filter_cons_of_neg (by simpa using hresolved)]
      rw [List.filter_append]
      have h1 : List.filter (fun e => decide (e.2.size < 0)) u1 = P := hu1p
      have h2 : List.filter (fun e => decide (e.2.size < 0)) u2 = [] := hu2p
      have h3 : List.filter (fun e => decide (e.2.size < 0))
          [(pp.nextId, QTok.qend sfx)] = [] := by
        rw [List.filter_cons_of_neg (by simpa using hqendnp)]
        rfl
      rw [h1, h2, h3]
      simp
    have hnodup3 : ((addSizeId (pp.queue ++ [(pp.nextId, QTok.qend sfx)]) topId
        (pp.rightotal + (sfx.length : Int))).map Prod.fst).Nodup := by
      unfold addSizeId
      rw [mapfst_map _ (by
        intro e
        by_cases hei : e.1 = topId
        · rw [if_pos hei]
        · rw [if_neg hei])]
      rw [List.map_append, List.nodup_append]
      refine ⟨hnodup, List.nodup_singleton _, ?_⟩
      intro a ha hb
      simp only [List.map_cons, List.map_nil, List.mem_singleton] at hb
      obtain ⟨e, he, hfste⟩ := List.mem_map.mp ha
      have := hidlt e he
      omega
    have hfun : ∀ e : Nat × QTok,
        qdelta ((if e.1 = topId
          then (e.1, e.2.addSize (pp.rightotal + (sfx.length : Int))) else e)).2
          = qdelta e.2 := by
      intro e
      by_cases hei : e.1 = topId
      · rw [if_pos hei]
        exact addSize_qdelta e.2 _
      · rw [if_neg hei]
    have hqs3 : qsDelta (addSizeId (pp.queue ++ [(pp.nextId, QTok.qend sfx)]) topId
        (pp.rightotal + (sfx.length : Int))) = qsDelta pp.queue - 1 := by
      unfold addSizeId
      rw [qsDelta_map _ hfun, qsDelta_append, qsDelta_cons, qsDelta_nil]
      simp only [qdelta]
      omega
    have hidlt3 : ∀ e ∈ addSizeId (pp.queue ++ [(pp.nextId, QTok.qend sfx)]) topId
        (pp.rightotal + (sfx.length : Int)), e.1 < pp.nextId + 1 := by
      intro e he
      obtain ⟨a, ha, hfa⟩ := List.mem_map.mp he
      have hia : e.1 = a.1 := by
        by_cases hei : a.1 = topId
        · rw [if_pos hei] at hfa
          rw [← hfa]
        · rw [if_neg hei] at hfa
          rw [← hfa]
      rw [hia]
      rcases List.mem_append.mp ha with h1 | h1
      · have := hidlt a h1
        omega
      · have : a = (pp.nextId, QTok.qend sfx) := by simpa using h1
        rw [this]
        omega
    have hends2 : EndsOk (pp.printstack.length)
        (pp.queue ++ [(pp.nextId, QTok.qend sfx)]) := by
      refine DepthOk_snoc isEndTok _ _ pp.queue _ hends ?_
      intro _
      omega
    have hnls2 : NlsOk (pp.printstack.length)
        (pp.queue ++ [(pp.nextId, QTok.qend sfx)]) := by
      exact DepthOk_snoc isNlTok _ _ pp.queue _ hnls (by intro hcon; cases hcon)
    have hends3 : EndsOk (pp.printstack.length)
        (addSizeId (pp.queue ++ [(pp.nextId, QTok.qend sfx)]) topId
          (pp.rightotal + (sfx.length : Int))) := by
      unfold addSizeId
      refine DepthOk_map isEndTok _ hfun ?_ _ _ hends2
      intro e
      by_cases hei : e.1 = topId
      · rw [if_pos hei]
        exact addSize_isEnd e.2 _
      · rw [if_neg hei]
    have hnls3 : NlsOk (pp.printstack.length)
        (addSizeId (pp.queue ++ [(pp.nextId, QTok.qend sfx)]) topId
          (pp.rightotal + (sfx.length : Int))) := by
      unfold addSizeId
      refine DepthOk_map isNlTok _ hfun ?_ _ _ hnls2
      intro e
      by_cases hei : e.1 = topId
      · rw [if_pos hei]
        exact addSize_isNl e.2 _
      · rw [if_neg hei]
    have hstr3 : StrOk (addSizeId (pp.queue ++ [(pp.nextId, QTok.qend sfx)]) topId
        (pp.rightotal + (sfx.length : Int))) := by
      intro j sl sz hmem
      obtain ⟨a, ha, hfa⟩ := List.mem_map.mp hmem
      have hstr2 : ∀ j2 s2 sz2, (j2, QTok.qstring s2 sz2)
          ∈ pp.queue ++ [(pp.nextId, QTok.qend sfx)] → 0 ≤ sz2 := by
        intro j2 s2 sz2 hm2
        rcases List.mem_append.mp hm2 with h1 | h1
        · exact hstr j2 s2 sz2 h1
        · simp at h1
      by_cases hei : a.1 = topId
      · rw [if_pos hei] at hfa
        obtain ⟨ja, ta⟩ := a
        simp only [Prod.mk.injEq] at hfa
        obtain ⟨hj, hsz⟩ := hfa
        cases ta with
        | qstring s0 sz0 =>
          simp only [QTok.addSize, QTok.qstring.injEq] at hsz
          have := hstr2 ja s0 sz0 ha
          omega
        | qbegin p0 pl0 sz0 => simp [QTok.addSize] at hsz
        | qend s0 => simp [QTok.addSize] at hsz
        | qnewline k0 sz0 => simp [QTok.addSize] at hsz
      · rw [if_neg hei] at hfa
        rw [hfa] at ha
        exact hstr2 j sl sz ha
    have hres3 : ∀ e ∈ P, 0 ≤ e.2.size + (pp.rightotal + (sfx.length : Int)) := by
      intro e he
      have := hres e (by rw [hpq]; exact List.mem_append_left _ he)
      omega
    have hdepth3 : (pp.printstack.length : Int)
        + qsDelta (addSizeId (pp.queue ++ [(pp.nextId, QTok.qend sfx)]) topId
          (pp.rightotal + (sfx.length : Int))) = ((d - 1 : Nat) : Int) := by
      rw [hqs3]
      push_cast [hd]
      omega
    have hnlid : isNewlineId (pp.queue ++ [(pp.nextId, QTok.qend sfx)]) topId
        = isNlTok ttop := by
      rw [hq2]
      exact isNewlineId_decomp u1 (u2 ++ [(pp.nextId, QTok.qend sfx)]) topId ttop hne1
    simp only [ppend, hss] at h
    by_cases hnl : isNewlineId (pp.queue ++ [(pp.nextId, QTok.qend sfx)]) topId = true
    swap
    · -- the resolved token is the block's pending `Begin`: one pop
      rw [if_neg hnl] at h
      have httnl : isNlTok ttop = false := by
        rw [← hnlid]
        exact Bool.not_eq_true _ ▸ (by simpa using hnl)
      obtain ⟨httbeg, httdelta⟩ := pending_kind ttop httneg
        (fun s sz hts => hstr topId s sz (by rw [← hts, hqd]; simp)) httnl
      have hsuf3 : SufOk (addSizeId (pp.queue ++ [(pp.nextId, QTok.qend sfx)]) topId
          (pp.rightotal + (sfx.length : Int))) := by
        intro b1 e b2 hsplit hneg
        rw [hadd1] at hsplit
        have hnotin : e ∉ (topId, ttop.addSize (pp.rightotal + (sfx.length : Int)))
            :: (u2 ++ [(pp.nextId, QTok.qend sfx)]) := by
          intro hmem
          rcases List.mem_cons.mp hmem with h1 | h1
          · rw [h1] at hneg
            exact hresolved hneg
          · rcases List.mem_append.mp h1 with h2 | h2
            · exact pend_nil_no u2 hu2p e h2 hneg
            · have : e = (pp.nextId, QTok.qend sfx) := by simpa using h2
              rw [this] at hneg
              exact hqendnp hneg
        obtain ⟨m, hu1m, hb2⟩ := split_in_left u1 _ b1 b2 e hsplit hnotin
        have hold := hsuf b1 e (m ++ (topId, ttop) :: u2)
          (by rw [hqd, hu1m]; simp) hneg
        rw [countPB_append, qsDelta_append, countPB_cons, qsDelta_cons] at hold
        rw [if_pos ⟨httneg, httbeg⟩] at hold
        rw [hb2, countPB_append, qsDelta_append, countPB_cons, qsDelta_cons,
          countPB_append, qsDelta_append, countPB_cons, qsDelta_cons]
        rw [if_neg (by intro hcon; exact hresolved hcon.1),
          if_neg (by intro hcon; exact hqendnp hcon.1)]
        rw [addSize_qdelta, httdelta]
        have hc0 : countPB ([] : List (Nat × QTok)) = 0 := rfl
        simp only [qsDelta_nil, hc0, qdelta]
        push_cast at hold ⊢
        omega
      have hscan3 : rest = ((pend (addSizeId (pp.queue ++ [(pp.nextId, QTok.qend sfx)])
          topId (pp.rightotal + (sfx.length : Int)))).map Prod.fst).reverse := by
        rw [hpend3, hmP, List.reverse_reverse]
      have hnadj3 : noAdjNl (kinds (pend (addSizeId
          (pp.queue ++ [(pp.nextId, QTok.qend sfx)]) topId
          (pp.rightotal + (sfx.length : Int))))) = true := by
        rw [hpend3]
        have := hnadj
        rw [hpq, kinds_append] at this
        exact noAdjNl_append_left _ _ this
      by_cases hre : rest.isEmpty
      · rw [if_pos hre] at h
        refine ppflush_inv { pp with level := pp.level - 1, scanstack := rest, queue := addSizeId (pp.queue ++ [(pp.nextId, QTok.qend sfx)]) topId (pp.rightotal + (sfx.length : Int)), nextId := pp.nextId + 1, rightotal := pp.rightotal + (sfx.length : Int) } pp' (d - 1) hscan3 hnadj3 hnodup3 hidlt3 hdepth3 hends3 hnls3 hsuf3 hstr3 ?_ ?_ h
        · intro e he
          have he2 : e ∈ P := by
            have he3 := he
            rw [show ({ pp with level := pp.level - 1, scanstack := rest, queue := addSizeId (pp.queue ++ [(pp.nextId, QTok.qend sfx)]) topId (pp.rightotal + (sfx.length : Int)), nextId := pp.nextId + 1, rightotal := pp.rightotal + (sfx.length : Int) } : PP).queue = addSizeId (pp.queue ++ [(pp.nextId, QTok.qend sfx)]) topId (pp.rightotal + (sfx.length : Int)) from rfl, hpend3] at he3
            exact he3
          exact hres3 e he2
        · intro hne
          show 1 ≤ pp.rightotal + (sfx.length : Int)
          omega
      · rw [if_neg hre] at h
        simp only [Except.ok.injEq] at h
        rw [← h]
        refine ⟨hscan3, hnadj3, hnodup3, hidlt3, ?_, hdepth3, hends3, hnls3,
          hsuf3, hstr3, ?_, ?_⟩
        · intro hse
          exfalso
          have hre2 : rest = [] := hse
          rw [hre2] at hre
          exact hre rfl
        · intro e he
          have he2 : e ∈ pend (addSizeId (pp.queue ++ [(pp.nextId, QTok.qend sfx)])
              topId (pp.rightotal + (sfx.length : Int))) := he
          rw [hpend3] at he2
          exact hres3 e he2
        · intro _
          show 1 ≤ pp.rightotal + (sfx.length : Int)
          omega
    · -- the resolved token is a pending newline: a second pop follows
      rw [if_pos hnl] at h
      have httnl : isNlTok ttop = true := by
        rw [← hnlid]
        exact hnl
      cases rest with
      | nil =>
        simp only [] at h
        have hP : P = [] := by
          have := hmP
          rw [List.reverse_nil] at this
          exact List.map_eq_nil_iff.mp this
        refine ppflush_inv { pp with level := pp.level - 1, scanstack := ([] : List Nat), queue := addSizeId (pp.queue ++ [(pp.nextId, QTok.qend sfx)]) topId (pp.rightotal + (sfx.length : Int)), nextId := pp.nextId + 1, rightotal := pp.rightotal + (sfx.length : Int) } pp' (d - 1) ?_ ?_ hnodup3 hidlt3 hdepth3 hends3 hnls3 ?_ ?_ ?_ ?_ h
        · show ([] : List Nat) = _
          rw [hpend3, hP]
          rfl
        · show noAdjNl (kinds (pend _)) = true
          rw [hpend3, hP]
          rfl
        · intro b1 e b2 hsplit hneg
          exfalso
          have hsplit2 : addSizeId (pp.queue ++ [(pp.nextId, QTok.qend sfx)]) topId
              (pp.rightotal + (sfx.length : Int)) = b1 ++ e :: b2 := hsplit
          have hmem : e ∈ pend (addSizeId (pp.queue ++ [(pp.nextId, QTok.qend sfx)])
              topId (pp.rightotal + (sfx.length : Int))) := by
            refine List.mem_filter.mpr ⟨?_, by simpa using hneg⟩
            rw [hsplit2]
            simp
          rw [hpend3, hP] at hmem
          cases hmem
        · exact hstr3
        · intro e he
          have he2 : e ∈ P := by
            have he3 : e ∈ pend (addSizeId (pp.queue ++ [(pp.nextId, QTok.qend sfx)])
                topId (pp.rightotal + (sfx.length : Int))) := he
            rw [hpend3] at he3
            exact he3
          exact hres3 e he2
        · intro _
          show 1 ≤ pp.rightotal + (sfx.length : Int)
          omega
      | cons topId2 rest2 =>
        simp only [] at h
        have hmP2 : P.map Prod.fst = rest2.reverse ++ [topId2] := by
          rw [hmP, List.reverse_cons]
        obtain ⟨P2, e2, hPd, hmP2x, hfst2⟩ :=
          map_eq_snoc Prod.fst P rest2.reverse topId2 hmP2
        obtain ⟨topId2x, ttop2⟩ := e2
        have heq2 : topId2 = topId2x := hfst2.symm
        subst heq2
        have ht2memq : (topId2, ttop2) ∈ pend pp.queue := by
          rw [hpq, hPd]
          simp
        have ht2neg : ttop2.size < 0 := by
          simpa using (List.mem_filter.mp ht2memq).2
        have ht2res : 0 ≤ ttop2.size + pp.rightotal := hres _ ht2memq
        have ht2notend : isEndTok ttop2 = false := pending_not_end ttop2 ht2neg
        have hkt : kinds [(topId, ttop)] = [true] := by
          simp [kinds, httnl]
        have hkP : kinds P = kinds P2 ++ [isNlTok ttop2] := by
          rw [hPd, kinds_append]
          rfl
        have ht2nl : isNlTok ttop2 = false := by
          have h1 := hnadj
          rw [hpq, kinds_append, hkt] at h1
          have h2 := noAdjNl_snoc_true_last _ h1
          rw [hkP, List.getLast?_concat] at h2
          cases hv : isNlTok ttop2
          · rfl
          · exact absurd (by rw [hv]) h2
        obtain ⟨ht2beg, ht2delta⟩ := pending_kind ttop2 ht2neg
          (fun s sz hts => hstr topId2 s sz (by
            have := (List.mem_filter.mp ht2memq).1
            rw [← hts]
            exact this)) ht2nl
        have hu1f : u1.filter (fun e => e.2.size < 0) = P2 ++ [(topId2, ttop2)] := by
          have := hu1p
          rw [hPd] at this
          exact this
        obtain ⟨w1, w2, hu1d, hw1p, hw2p⟩ :=
          filter_last_decomp _ u1 P2 (topId2, ttop2) hu1f
        have hQ3 : addSizeId (pp.queue ++ [(pp.nextId, QTok.qend sfx)]) topId
            (pp.rightotal + (sfx.length : Int))
            = w1 ++ (topId2, ttop2) :: (w2
              ++ (topId, ttop.addSize (pp.rightotal + (sfx.length : Int)))
              :: (u2 ++ [(pp.nextId, QTok.qend sfx)])) := by
          rw [hadd1, hu1d]
          simp
        have hnodup3Q := hnodup3
        rw [hQ3] at hnodup3Q
        obtain ⟨hne1b, hne2b⟩ := nodup_split_ne w1 topId2 ttop2 _ hnodup3Q
        have hadd2 : addSizeId (addSizeId (pp.queue ++ [(pp.nextId, QTok.qend sfx)])
              topId (pp.rightotal + (sfx.length : Int))) topId2
              (pp.rightotal + (sfx.length : Int))
            = w1 ++ (topId2, ttop2.addSize (pp.rightotal + (sfx.length : Int)))
              :: (w2 ++ (topId, ttop.addSize (pp.rightotal + (sfx.length : Int)))
              :: (u2 ++ [(pp.nextId, QTok.qend sfx)])) := by
          rw [hQ3]
          exact addSizeId_decomp w1 _ topId2 ttop2 _ hne1b hne2b
        have h2resolved : ¬ (ttop2.addSize (pp.rightotal + (sfx.length : Int))).size < 0 := by
          rw [addSize_size_ne ttop2 _ ht2notend]
          omega
        have hfun2 : ∀ e : Nat × QTok,
            qdelta ((if e.1 = topId2
              then (e.1, e.2.addSize (pp.rightotal + (sfx.length : Int))) else e)).2
              = qdelta e.2 := by
          intro e
          by_cases hei : e.1 = topId2
          · rw [if_pos hei]
            exact addSize_qdelta e.2 _
          · rw [if_neg hei]
        have hpend4 : pend (addSizeId (addSizeId (pp.queue ++ [(pp.nextId, QTok.qend sfx)])
            topId (pp.rightotal + (sfx.length : Int))) topId2
            (pp.rightotal + (sfx.length : Int))) = P2 := by
          rw [hadd2, pend_append]
          unfold pend
          rw [List.filter_cons_of_neg (by simpa using h2resolved)]
          rw [List.filter_append, List.filter_cons_of_neg (by simpa using hresolved)]
          rw [List.filter_append]
          have hz1 : List.filter (fun e => decide (e.2.size < 0)) w1 = P2 := hw1p
          have hz2 : List.filter (fun e => decide (e.2.size < 0)) w2 = [] := hw2p
          have hz3 : List.filter (fun e => decide (e.2.size < 0)) u2 = [] := hu2p
          have hz4 : List.filter (fun e => decide (e.2.size < 0))
              [(pp.nextId, QTok.qend sfx)] = [] := by
            rw [List.filter_cons_of_neg (by simpa using hqendnp)]
            rfl
          rw [hz1, hz2, hz3, hz4]
          simp
        have hmapform : addSizeId (addSizeId (pp.queue ++ [(pp.nextId, QTok.qend sfx)])
              topId (pp.rightotal + (sfx.length : Int))) topId2
              (pp.rightotal + (sfx.length : Int))
            = (addSizeId (pp.queue ++ [(pp.nextId, QTok.qend sfx)]) topId
              (pp.rightotal + (sfx.length : Int))).map
              (fun e => if e.1 = topId2
                then (e.1, e.2.addSize (pp.rightotal + (sfx.length : Int))) else e) := rfl
        have hnodup4 : ((addSizeId (addSizeId (pp.queue ++ [(pp.nextId, QTok.qend sfx)])
            topId (pp.rightotal + (sfx.length : Int))) topId2
            (pp.rightotal + (sfx.length : Int))).map Prod.fst).Nodup := by
          rw [hmapform, mapfst_map _ (by
            intro e
            by_cases hei : e.1 = topId2
            · rw [if_pos hei]
            · rw [if_neg hei])]
          exact hnodup3
        have hidlt4 : ∀ e ∈ addSizeId (addSizeId (pp.queue ++ [(pp.nextId, QTok.qend sfx)])
            topId (pp.rightotal + (sfx.length : Int))) topId2
            (pp.rightotal + (sfx.length : Int)), e.1 < pp.nextId + 1 := by
          intro e he
          rw [hmapform] at he
          obtain ⟨a, ha, hfa⟩ := List.mem_map.mp he
          have hia : e.1 = a.1 := by
            by_cases hei : a.1 = topId2
            · rw [if_pos hei] at hfa
              rw [← hfa]
            · rw [if_neg hei] at hfa
              rw [← hfa]
          rw [hia]
          exact hidlt3 a ha
        have hdepth4 : (pp.printstack.length : Int)
            + qsDelta (addSizeId (addSizeId (pp.queue ++ [(pp.nextId, QTok.qend sfx)])
              topId (pp.rightotal + (sfx.length : Int))) topId2
              (pp.rightotal + (sfx.length : Int))) = ((d - 1 : Nat) : Int) := by
          rw [hmapform, qsDelta_map _ hfun2, hqs3]
          push_cast [hd]
          omega
        have hends4 : EndsOk (pp.printstack.length)
            (addSizeId (addSizeId (pp.queue ++ [(pp.nextId, QTok.qend sfx)])
              topId (pp.rightotal + (sfx.length : Int))) topId2
              (pp.rightotal + (sfx.length : Int))) := by
          rw [hmapform]
          refine DepthOk_map isEndTok _ hfun2 ?_ _ _ hends3
          intro e
          by_cases hei : e.1 = topId2
          · rw [if_pos hei]
            exact addSize_isEnd e.2 _
          · rw [if_neg hei]
        have hnls4 : NlsOk (pp.printstack.length)
            (addSizeId (addSizeId (pp.queue ++ [(pp.nextId, QTok.qend sfx)])
              topId (pp.rightotal + (sfx.length : Int))) topId2
              (pp.rightotal + (sfx.length : Int))) := by
          rw [hmapform]
          refine DepthOk_map isNlTok _ hfun2 ?_ _ _ hnls3
          intro e
          by_cases hei : e.1 = topId2
          · rw [if_pos hei]
            exact addSize_isNl e.2 _
          · rw [if_neg hei]
        have hstr4 : StrOk (addSizeId (addSizeId (pp.queue ++ [(pp.nextId, QTok.qend sfx)])
            topId (pp.rightotal + (sfx.length : Int))) topId2
            (pp.rightotal + (sfx.length : Int))) := by
          intro j sl sz hmem
          rw [hmapform] at hmem
          obtain ⟨a, ha, hfa⟩ := List.mem_map.mp hmem
          by_cases hei : a.1 = topId2
          · rw [if_pos hei] at hfa
            obtain ⟨ja, ta⟩ := a
            simp only [Prod.mk.injEq] at hfa
            obtain ⟨hj, hsz⟩ := hfa
            cases ta with
            | qstring s0 sz0 =>
              simp only [QTok.addSize, QTok.qstring.injEq] at hsz
              have := hstr3 ja s0 sz0 ha
              omega
            | qbegin p0 pl0 sz0 => simp [QTok.addSize] at hsz
            | qend s0 => simp [QTok.addSize] at hsz
            | qnewline k0 sz0 => simp [QTok.addSize] at hsz
          · rw [if_neg hei] at hfa
            rw [hfa] at ha
            exact hstr3 j sl sz ha
        have hres4 : ∀ e ∈ P2, 0 ≤ e.2.size + (pp.rightotal + (sfx.length : Int)) := by
          intro e he
          refine hres3 e ?_
          rw [hPd]
          exact List.mem_append_left _ he
        have hscan4 : rest2 = ((pend (addSizeId (addSizeId
            (pp.queue ++ [(pp.nextId, QTok.qend sfx)]) topId
            (pp.rightotal + (sfx.length : Int))) topId2
            (pp.rightotal + (sfx.length : Int)))).map Prod.fst).reverse := by
          rw [hpend4, hmP2x, List.reverse_reverse]
        have hnadj4 : noAdjNl (kinds (pend (addSizeId (addSizeId
            (pp.queue ++ [(pp.nextId, QTok.qend sfx)]) topId
            (pp.rightotal + (sfx.length : Int))) topId2
            (pp.rightotal + (sfx.length : Int))))) = true := by
          rw [hpend4]
          have h1 := hnadj
          rw [hpq, kinds_append, hkP, List.append_assoc] at h1
          exact noAdjNl_append_left _ _ h1
        have httnotbeg : isBeginTok ttop = false := nl_not_begin ttop httnl
        have httdelta0 : qdelta ttop = 0 := nl_qdelta ttop httnl
        have hsuf4 : SufOk (addSizeId (addSizeId (pp.queue ++ [(pp.nextId, QTok.qend sfx)])
            topId (pp.rightotal + (sfx.length : Int))) topId2
            (pp.rightotal + (sfx.length : Int))) := by
          intro b1 e b2 hsplit hneg
          rw [hadd2] at hsplit
          have hnotin : e ∉ (topId2, ttop2.addSize (pp.rightotal + (sfx.length : Int)))
              :: (w2 ++ (topId, ttop.addSize (pp.rightotal + (sfx.length : Int)))
                :: (u2 ++ [(pp.nextId, QTok.qend sfx)])) := by
            intro hmem
            rcases List.mem_cons.mp hmem with h1 | h1
            · rw [h1] at hneg
              exact h2resolved hneg
            · rcases List.mem_append.mp h1 with h2 | h2
              · exact pend_nil_no w2 hw2p e h2 hneg
              · rcases List.mem_cons.mp h2 with h3 | h3
                · rw [h3] at hneg
                  exact hresolved hneg
                · rcases List.mem_append.mp h3 with h4 | h4
                  · exact pend_nil_no u2 hu2p e h4 hneg
                  · have : e = (pp.nextId, QTok.qend sfx) := by simpa using h4
                    rw [this] at hneg
                    exact hqendnp hneg
          obtain ⟨m, hw1m, hb2⟩ := split_in_left w1 _ b1 b2 e hsplit hnotin
          have hold := hsuf b1 e (m ++ (topId2, ttop2) :: (w2 ++ (topId, ttop) :: u2))
            (by rw [hqd, hu1d, hw1m]; simp) hneg
          rw [countPB_append, countPB_cons, countPB_append, countPB_cons,
            qsDelta_append, qsDelta_cons, qsDelta_append, qsDelta_cons] at hold
          rw [if_pos ⟨ht2neg, ht2beg⟩] at hold
          rw [if_neg (by intro hcon; rw [httnotbeg] at hcon; cases hcon.2)] at hold
          rw [hb2, countPB_append, countPB_cons, countPB_append, countPB_cons,
            countPB_append, countPB_cons,
            qsDelta_append, qsDelta_cons, qsDelta_append, qsDelta_cons,
            qsDelta_append, qsDelta_cons]
          rw [if_neg (by intro hcon; exact h2resolved hcon.1)]
          rw [if_neg (by intro hcon; exact hresolved hcon.1)]
          rw [if_neg (by intro hcon; exact hqendnp hcon.1)]
          rw [addSize_qdelta, addSize_qdelta, ht2delta, httdelta0]
          have hc0 : countPB ([] : List (Nat × QTok)) = 0 := rfl
          simp only [qsDelta_nil, hc0, qdelta]
          push_cast at hold ⊢
          omega
        by_cases hre : rest2.isEmpty
        · rw [if_pos hre] at h
          refine ppflush_inv { pp with level := pp.level - 1, scanstack := rest2, queue := addSizeId (addSizeId (pp.queue ++ [(pp.nextId, QTok.qend sfx)]) topId (pp.rightotal + (sfx.length : Int))) topId2 (pp.rightotal + (sfx.length : Int)), nextId := pp.nextId + 1, rightotal := pp.rightotal + (sfx.length : Int) } pp' (d - 1) hscan4 hnadj4 hnodup4 hidlt4 hdepth4 hends4 hnls4 hsuf4 hstr4 ?_ ?_ h
          · intro e he
            have he2 : e ∈ P2 := by
              have he3 : e ∈ pend (addSizeId (addSizeId
                  (pp.queue ++ [(pp.nextId, QTok.qend sfx)]) topId
                  (pp.rightotal + (sfx.length : Int))) topId2
                  (pp.rightotal + (sfx.length : Int))) := he
              rw [hpend4] at he3
              exact he3
            exact hres4 e he2
          · intro _
            show 1 ≤ pp.rightotal + (sfx.length : Int)
            omega
        · rw [if_neg hre] at h
          simp only [Except.ok.injEq] at h
          rw [← h]
          refine ⟨hscan4, hnadj4, hnodup4, hidlt4, ?_, hdepth4, hends4, hnls4,
            hsuf4, hstr4, ?_, ?_⟩
          · intro hse
            exfalso
            have hre2 : rest2 = [] := hse
            rw [hre2] at hre
            exact hre rfl
          · intro e he
            have he2 : e ∈ pend (addSizeId (addSizeId
                (pp.queue ++ [(pp.nextId, QTok.qend sfx)]) topId
                (pp.rightotal + (sfx.length : Int))) topId2
                (pp.rightotal + (sfx.length : Int))) := he
            rw [hpend4] at he2
            exact hres4 e he2
          · intro _
            show 1 ≤ pp.rightotal + (sfx.length : Int)
            omega


/-- The invariant holds at depth 0 in the freshly initialised printer. -/
lemma init_inv (margin : Int) (printLevel : Option Int) :
    Inv (PP.init margin printLevel) 0 := by
  refine ⟨rfl, rfl, List.nodup_nil, ?_, ?_, ?_, ?_, ?_, ?_, ?_, ?_, ?_⟩
  · intro e he
    cases he
  · intro _
    rfl
  · simp [PP.init, qsDelta]
  · intro q1 i t q2 hsplit
    simp [PP.init] at hsplit
  · intro q1 i t q2 hsplit
    simp [PP.init] at hsplit
  · intro q1 e q2 hsplit
    simp [PP.init] at hsplit
  · intro i sl sz hmem
    cases hmem
  · intro e he
    cases he
  · intro hne
    exact absurd rfl hne

/-- Running a well-formed operation sequence preserves the invariant, the
tracked depth following the begin/end nesting. -/
lemma runOps_inv : ∀ (ops : List PPOp) (pp pp' : PP) (d : Nat), Inv pp d →
    opsWF (d : Int) ops = true → runOps pp ops = .ok pp' →
    ∃ d' : Nat, (d' : Int) = depthAfter (d : Int) ops ∧ Inv pp' d' := by
  intro ops
  induction ops with
  | nil =>
    intro pp pp' d inv _ h
    simp only [runOps, Except.ok.injEq] at h
    exact ⟨d, by simp [depthAfter], h ▸ inv⟩
  | cons op rest ih =>
    intro pp pp' d inv hwf h
    simp only [runOps] at h
    rcases hop : runOp pp op with e | pp1 <;> simp only [hop] at h
    · cases h
    cases op with
    | write s =>
      have inv1 : Inv pp1 d := ppwrite_inv pp pp1 d s inv hop
      have hwf1 : opsWF (d : Int) rest = true := hwf
      obtain ⟨d', hd', inv'⟩ := ih pp1 pp' d inv1 hwf1 h
      refine ⟨d', ?_, inv'⟩
      show (d' : Int) = depthAfter ((d : Int) + opDepth (PPOp.write s)) rest
      rw [show opDepth (PPOp.write s) = 0 from rfl, add_zero]
      exact hd'
    | begin p pl =>
      have inv1 : Inv pp1 (d + 1) := ppbegin_inv pp pp1 d p pl inv hop
      have hwf1 : opsWF (((d + 1 : Nat)) : Int) rest = true := by
        have : (((d + 1 : Nat)) : Int) = (d : Int) + 1 := by push_cast; ring
        rw [this]
        exact hwf
      obtain ⟨d', hd', inv'⟩ := ih pp1 pp' (d + 1) inv1 hwf1 h
      refine ⟨d', ?_, inv'⟩
      show (d' : Int) = depthAfter ((d : Int) + opDepth (PPOp.begin p pl)) rest
      rw [show opDepth (PPOp.begin p pl) = 1 from rfl]
      have hcast : (((d + 1 : Nat)) : Int) = (d : Int) + 1 := by push_cast; ring
      rw [← hcast]
      exact hd'
    | endBlock sfx =>
      have hwf2 : (decide (1 ≤ (d : Int)) && opsWF ((d : Int) - 1) rest) = true := hwf
      rw [Bool.and_eq_true] at hwf2
      have hd1 : 1 ≤ d := by
        have := of_decide_eq_true hwf2.1
        omega
      have inv1 : Inv pp1 (d - 1) := ppend_inv pp pp1 d sfx inv hd1 hop
      have hwf1 : opsWF (((d - 1 : Nat)) : Int) rest = true := by
        have : (((d - 1 : Nat)) : Int) = (d : Int) - 1 := by
          push_cast [hd1]
          ring
        rw [this]
        exact hwf2.2
      obtain ⟨d', hd', inv'⟩ := ih pp1 pp' (d - 1) inv1 hwf1 h
      refine ⟨d', ?_, inv'⟩
      show (d' : Int) = depthAfter ((d : Int) + opDepth (PPOp.endBlock sfx)) rest
      rw [show opDepth (PPOp.endBlock sfx) = -1 from rfl]
      have hcast : (((d - 1 : Nat)) : Int) = (d : Int) + -1 := by push_cast [hd1]; ring
      rw [← hcast]
      exact hd'
    | newline k =>
      have hwf2 : (decide (1 ≤ (d : Int)) && opsWF (d : Int) rest) = true := hwf
      rw [Bool.and_eq_true] at hwf2
      have hd1 : 1 ≤ d := by
        have := of_decide_eq_true hwf2.1
        omega
      have inv1 : Inv pp1 d := ppnewline_inv pp pp1 d k inv hd1 hop
      obtain ⟨d', hd', inv'⟩ := ih pp1 pp' d inv1 hwf2.2 h
      refine ⟨d', ?_, inv'⟩
      show (d' : Int) = depthAfter ((d : Int) + opDepth (PPOp.newline k)) rest
      rw [show opDepth (PPOp.newline k) = 0 from rfl, add_zero]
      exact hd'

/-- At depth 0 the invariant forces all three structures empty. -/
lemma inv_zero_empty (pp : PP) (inv : Inv pp 0) :
    pp.queue = [] ∧ pp.scanstack = [] ∧ pp.printstack = [] := by
  obtain ⟨hscan, hnadj, hnodup, hidlt, hempty, hdepth, hends, hnls, hsuf, hstr,
    hres, hrt⟩ := inv
  have hpnil : pend pp.queue = [] := by
    rcases hpq : pend pp.queue with _ | ⟨e0, P⟩
    · rfl
    exfalso
    have hp0f : pp.queue.filter (fun e => e.2.size < 0) = e0 :: P := hpq
    obtain ⟨q1, q2, hqd, hq1p, hq2p⟩ :=
      filter_first_decomp _ pp.queue P e0 hp0f
    have he0neg : e0.2.size < 0 := by
      have hmem : e0 ∈ pend pp.queue := by
        rw [hpq]
        simp
      simpa using (List.mem_filter.mp hmem).2
    have hpre : 0 ≤ (pp.printstack.length : Int) + qsDelta q1 :=
      DepthOk_nonneg (pp.printstack.length) (by positivity) q1 (e0 :: q2)
        (by rw [← hqd]; exact hends)
    have hsufe := hsuf q1 e0 q2 hqd he0neg
    have hcnt : (0 : Int) ≤ (countPB q2 : Int) := by positivity
    have htot : (pp.printstack.length : Int) + qsDelta q1 + qdelta e0.2 + qsDelta q2
        = 0 := by
      have := hdepth
      rw [hqd, qsDelta_append] at this
      obtain ⟨i0, t0⟩ := e0
      rw [qsDelta_cons] at this
      simp only [Nat.cast_zero] at this
      simp only
      omega
    obtain ⟨i0, t0⟩ := e0
    simp only at he0neg
    cases t0 with
    | qstring s0 sz0 =>
      have := hstr i0 s0 sz0 (by rw [hqd]; simp)
      simp only [QTok.size] at he0neg
      omega
    | qend s0 =>
      simp [QTok.size] at he0neg
    | qbegin p0 pl0 sz0 =>
      simp only [qdelta] at htot
      omega
    | qnewline k0 sz0 =>
      have h1 := hnls q1 i0 (QTok.qnewline k0 sz0) q2 hqd rfl
      simp only [qdelta] at htot
      omega
  have hsnil : pp.scanstack = [] := by
    rw [hscan, hpnil]
    rfl
  have hqnil : pp.queue = [] := hempty hsnil
  have hpstack : pp.printstack = [] := by
    have := hdepth
    rw [hqnil, qsDelta_nil] at this
    have hlen : pp.printstack.length = 0 := by
      simp only [Nat.cast_zero] at this
      omega
    exact List.length_eq_zero.mp hlen
  exact ⟨hqnil, hsnil, hpstack⟩


/-- C7 (amended): after a sequence of printer operations that is well-formed
in the stronger sense of `opsWF` — every `end` and every conditional newline
is issued inside an open logical block — and that ran without error, closing
the session succeeds and leaves the output queue, the scan stack and the
print stack all empty precisely when the begin/end nesting is balanced;
when at least one `begin` is left unmatched, `close` fails with the fatal
`AssertionError` from its leftover-item asserts (not a recoverable error
value).  Balance of begins/ends alone is not enough: a conditional newline
emitted outside any block also trips the close-time asserts (see the
counterexample). -/
theorem pp_close_invariant (margin : Int) (ops : List PPOp) (pp : PP)
    (hwf : opsWF 0 ops = true)
    (hrun : runOps (PP.init margin none) ops = .ok pp) :
    (depthAfter 0 ops = 0 →
      ∃ pp', ppclose pp = .ok pp' ∧
        pp'.queue = [] ∧ pp'.scanstack = [] ∧ pp'.printstack = []) ∧
    (1 ≤ depthAfter 0 ops → ppclose pp = .error PPErr.assertionError) := by
  obtain ⟨d', hd', inv⟩ := runOps_inv ops (PP.init margin none) pp 0
    (init_inv margin none) (by rw [Nat.cast_zero]; exact hwf) hrun
  rw [Nat.cast_zero] at hd'
  constructor
  · intro hdep
    have hd0 : d' = 0 := by
      rw [hdep] at hd'
      omega
    subst hd0
    obtain ⟨hq, hs, hp⟩ := inv_zero_empty pp inv
    set ppc : PP := { pp with queue := ([] : List (Nat × QTok)), leftotal := pp.leftotal + 0 } with hppc
    have hflush : ppflush pp = .ok ppc := by
      unfold ppflush
      rw [hq]
      rfl
    refine ⟨ppc, ?_, rfl, hs, hp⟩
    unfold ppclose
    simp only [hflush]
    have hqe : ppc.queue.isEmpty = true := rfl
    have hse : ppc.scanstack.isEmpty = true := by
      show pp.scanstack.isEmpty = true
      rw [hs]
      rfl
    have hpe : ppc.printstack.isEmpty = true := by
      show pp.printstack.isEmpty = true
      rw [hp]
      rfl
    rw [if_pos hqe, if_pos hse, if_pos hpe]
  · intro hdep1
    have hd1 : 1 ≤ d' := by omega
    obtain ⟨⟨pp1, total, rest⟩, hfa⟩ :=
      flushAux_run pp.queue pp 0 inv.hends inv.hnls
    set ppc : PP := { pp1 with queue := rest, leftotal := pp1.leftotal + total } with hppc
    have hflush : ppflush pp = .ok ppc := by
      unfold ppflush
      rw [hfa]
    have hinvf : Inv ppc d' :=
      ppflush_inv pp ppc d' inv.hscan inv.hnadj inv.hnodup inv.hidlt inv.hdepth
        inv.hends inv.hnls inv.hsuf inv.hstr inv.hres inv.hrt hflush
    unfold ppclose
    simp only [hflush]
    by_cases hq1 : ppc.queue.isEmpty = true
    · rw [if_pos hq1]
      by_cases hs1 : ppc.scanstack.isEmpty = true
      · rw [if_pos hs1]
        have hqnil : ppc.queue = [] := by
          cases hrest : ppc.queue
          · rfl
          · rw [hrest] at hq1
            cases hq1
        have hplen : (ppc.printstack.length : Int) = (d' : Int) := by
          have := hinvf.hdepth
          rw [hqnil, qsDelta_nil] at this
          omega
        have hpne : ppc.printstack.isEmpty ≠ true := by
          intro hcon
          have hpsnil : ppc.printstack = [] := by
            cases hps : ppc.printstack
            · rfl
            · rw [hps] at hcon
              cases hcon
          rw [hpsnil] at hplen
          simp only [List.length_nil, Nat.cast_zero] at hplen
          omega
        rw [if_neg hpne]
      · rw [if_neg hs1]
    · rw [if_neg hq1]


theorem pp_close_invariant_witness :
    (∃ pp, runOps (PP.init 12 none) [PPOp.begin [] false, PPOp.write ['h', 'i'],
        PPOp.newline NlKind.linear, PPOp.endBlock []] = Except.ok pp ∧
      ∃ pp', ppclose pp = .ok pp' ∧
        pp'.queue = [] ∧ pp'.scanstack = [] ∧ pp'.printstack = []) ∧
    (∃ pp, runOps (PP.init 12 none) [PPOp.begin [] false] = Except.ok pp ∧
      ppclose pp = .error PPErr.assertionError) := by
  constructor
  · refine ⟨_, rfl, ?_⟩
    exact (pp_close_invariant 12 [PPOp.begin [] false, PPOp.write ['h', 'i'],
      PPOp.newline NlKind.linear, PPOp.endBlock []] _ (by decide) rfl).1 (by decide)
  · refine ⟨_, rfl, ?_⟩
    exact (pp_close_invariant 12 [PPOp.begin [] false] _ (by decide) rfl).2 (by decide)

/-- C7 counterexample: a bare conditional newline is a balanced sequence
(no `begin`/`end` at all, final depth 0), yet closing the session fails the
leftover-queue assert: the pending newline can never be resolved, so
"balanced begin/end implies a clean close" is false as stated. -/
theorem pp_close_counterexample :
    depthAfter 0 [PPOp.newline NlKind.linear] = 0 ∧
    runAndClose 40 [PPOp.newline NlKind.linear] = .error PPErr.assertionError :=
  ⟨rfl, rfl⟩


/-! ### C1 / C8: iteration over empty sources, and escape-signal confinement -/

/-- Running a directive sequence that is well-formed for nesting level `g`
can surface an `UpUpAndOut` only when the sequence sits directly inside a
colon iteration (`g = true`): the loop of `Iteration.format` absorbs any
`UpUpAndOut` from its body as `break`. -/
lemma interp_run_no_upup : ∀ (f : Nat) (g : Bool) (dirs : List Dir) (out : List Char)
    (a : Args) (c : Ctl) (out2 : List Char) (a2 : Args),
    dirsWF g dirs = true →
    interp f (Job.run dirs out a) = .ok (c, out2, a2) →
    c = Ctl.upup → g = true := by
  intro f
  induction f with
  | zero =>
    intro g dirs out a c out2 a2 _ h _
    cases h
  | succ f ih =>
    intro g dirs out a c out2 a2 hwf h hc
    cases dirs with
    | nil =>
      simp only [interp, Except.ok.injEq, Prod.mk.injEq] at h
      rw [hc] at h
      cases h.1
    | cons d rest =>
      cases d with
      | lit s0 =>
        simp only [dirsWF, Bool.true_and] at hwf
        simp only [interp] at h
        exact ih g rest _ _ c out2 a2 hwf h hc
      | decimal =>
        simp only [dirsWF, Bool.true_and] at hwf
        simp only [interp] at h
        rcases hn : a.next with e | ⟨v, a3⟩ <;> simp only [hn] at h
        · cases h
        · cases v with
          | vint n => exact ih g rest _ _ c out2 a2 hwf h hc
          | vlist l => cases h
          | vstr st => cases h
      | plural colon atsign =>
        simp only [dirsWF, Bool.true_and] at hwf
        simp only [interp] at h
        rcases hn : (if colon then (a.peek (-1)).map (fun v => (v, a)) else a.next)
            with e | ⟨v, a3⟩ <;> simp only [hn] at h
        · cases h
        · exact ih g rest _ _ c out2 a2 hwf h hc
      | escape ps colon =>
        simp only [dirsWF, Bool.and_eq_true] at hwf
        cases ps with
        | nil =>
          cases colon with
          | true =>
            simpa using hwf.1
          | false =>
            have h2 : (if a.empty = true
                then (.ok (.up, out, a) : Except PyErr (Ctl × List Char × Args))
                else interp f (.run rest out a)) = .ok (c, out2, a2) := h
            by_cases he : a.empty = true
            · rw [if_pos he] at h2
              simp only [Except.ok.injEq, Prod.mk.injEq] at h2
              rw [hc] at h2
              cases h2.1
            · rw [if_neg he] at h2
              exact ih g rest _ _ c out2 a2 hwf.2 h2 hc
        | cons p ps2 =>
          have h2 : (if check_params ((p :: ps2).getD 0 none) ((p :: ps2).getD 1 none)
                ((p :: ps2).getD 2 none) = true
              then (.ok (if colon then Ctl.upup else Ctl.up, out, a)
                : Except PyErr (Ctl × List Char × Args))
              else interp f (.run rest out a)) = .ok (c, out2, a2) := h
          by_cases hcp : check_params (((p :: ps2).getD 0 none))
              (((p :: ps2).getD 1 none)) (((p :: ps2).getD 2 none)) = true
          · rw [if_pos hcp] at h2
            simp only [Except.ok.injEq, Prod.mk.injEq] at h2
            cases colon with
            | true => simpa using hwf.1
            | false =>
              rw [hc] at h2
              simp at h2
          · rw [if_neg hcp] at h2
            exact ih g rest _ _ c out2 a2 hwf.2 h2 hc
      | iter mxp colon atsign dc b0 bs =>
        simp only [dirsWF, Bool.and_eq_true] at hwf
        cases atsign with
        | true =>
          simp only [interp] at h
          rcases hl : interp f (Job.loop b0 bs colon (mxp.getD (-1)) dc out a 0)
              with e | ⟨c0, o0, aL⟩ <;> simp only [hl] at h
          · cases h
          · exact ih g rest _ _ c out2 a2 hwf.2 h hc
        | false =>
          simp only [interp] at h
          rcases hn : a.next with e | ⟨v, a3⟩ <;> simp only [hn] at h
          · cases h
          · rcases htl : toArgsList v with e | l <;> simp only [htl] at h
            · cases h
            · rcases hl : interp f
                  (Job.loop b0 bs colon (mxp.getD (-1)) dc out (Args.make l none) 0)
                  with e | ⟨c0, o0, aL⟩ <;> simp only [hl] at h
              · cases h
              · exact ih g rest _ _ c out2 a2 hwf.2 h hc


/-- C1 (amended): over an empty source sequence, the iteration's body runs
exactly once when the *closing delimiter* carries the colon modifier
(`~{...~:}`), and zero times when it does not — for a plain (non-colon)
iteration.  A colon iteration (`~:{`) over an empty sequence runs zero times
with a plain closing delimiter, and with a colon-modified closing delimiter
(`~:{...~:}`) it does not run once but raises `StopIteration` trying to
fetch the first argument group. -/
theorem iteration_empty_source (s : List Char) :
    (format 10 [Dir.iter none false false true (Dir.lit s) []] [Val.vlist []]
      = .ok s) ∧
    (format 10 [Dir.iter none false false false (Dir.lit s) []] [Val.vlist []]
      = .ok []) ∧
    (format 10 [Dir.iter none true false false (Dir.lit s) []] [Val.vlist []]
      = .ok []) ∧
    (format 10 [Dir.iter none true false true (Dir.lit s) []] [Val.vlist []]
      = .error PyErr.stopIteration) :=
  ⟨rfl, rfl, rfl, rfl⟩

theorem iteration_empty_source_witness :
    (format 10 [Dir.iter none false false true (Dir.lit ['X']) []] [Val.vlist []]
      = .ok ['X']) ∧
    (format 10 [Dir.iter none true false true (Dir.lit ['X']) []] [Val.vlist []]
      = .error PyErr.stopIteration) :=
  ⟨(iteration_empty_source ['X']).1, (iteration_empty_source ['X']).2.2.2⟩

/-- C1 counterexample: a colon-flagged iteration (`~:{...~}`) over an empty
source runs its body *zero* times, not once, while a plain iteration with a
colon-flagged closing delimiter (`~{...~:}`) runs it once — the
run-once-on-empty behaviour is keyed to the closing delimiter's colon, not
the iteration's. -/
theorem iteration_empty_colon_counterexample :
    format 10 [Dir.iter none true false false (Dir.lit ['X']) []] [Val.vlist []]
      = .ok [] ∧
    format 10 [Dir.iter none false false true (Dir.lit ['X']) []] [Val.vlist []]
      = .ok ['X'] :=
  ⟨rfl, rfl⟩

/-- C8: for directive sequences satisfying the parse-time constraint that a
colon-modified `~^` sits directly inside a colon iteration, an interpreter
run that completes never surfaces `UpUpAndOut` at top level, and the
top-level `format` returns the collected output successfully whether the run
ended normally or through an uncaught `UpAndOut`.  In particular,
`"Done.~^ ~D warning~:P."` with no arguments yields `"Done."` (the `~^`
terminates early) and with the single argument `3` yields
`"Done. 3 warnings."`. -/
theorem escape_termination_confined :
    (∀ (f : Nat) (dirs : List Dir) (vals : List Val) (c : Ctl) (out : List Char)
        (a : Args),
      dirsWF false dirs = true →
      interp f (Job.run dirs [] (Args.make vals none)) = .ok (c, out, a) →
      c ≠ Ctl.upup ∧ format f dirs vals = .ok out) ∧
    format 25 [Dir.lit "Done.".toList, Dir.escape [] false, Dir.lit " ".toList,
        Dir.decimal, Dir.lit " warning".toList, Dir.plural true false,
        Dir.lit ".".toList] []
      = .ok "Done.".toList ∧
    format 25 [Dir.lit "Done.".toList, Dir.escape [] false, Dir.lit " ".toList,
        Dir.decimal, Dir.lit " warning".toList, Dir.plural true false,
        Dir.lit ".".toList] [Val.vint 3]
      = .ok "Done. 3 warnings.".toList := by
  refine ⟨?_, rfl, rfl⟩
  intro f dirs vals c out a hwf hrun
  have hnu : c ≠ Ctl.upup := by
    intro hcon
    have := interp_run_no_upup f false dirs [] (Args.make vals none) c out a hwf hrun hcon
    cases this
  refine ⟨hnu, ?_⟩
  unfold format
  rw [hrun]
  cases c with
  | norm => rfl
  | up => rfl
  | upup => exact absurd rfl hnu

theorem escape_termination_confined_witness :
    ∃ c out a,
      interp 25 (Job.run [Dir.lit "Done.".toList, Dir.escape [] false,
          Dir.lit " ".toList, Dir.decimal, Dir.lit " warning".toList,
          Dir.plural true false, Dir.lit ".".toList] [] (Args.make [] none))
        = .ok (c, out, a) ∧
      c ≠ Ctl.upup ∧
      format 25 [Dir.lit "Done.".toList, Dir.escape [] false, Dir.lit " ".toList,
          Dir.decimal, Dir.lit " warning".toList, Dir.plural true false,
          Dir.lit ".".toList] [] = .ok out := by
  refine ⟨_, _, _, rfl, ?_⟩
  exact escape_termination_confined.1 25 _ [] _ _ _ (by simp [dirsWF]) rfl

end PyFormat
